import Mathlib

/-!
# Arusha access control: route tree, scope registry and authorization decision

A shallow embedding of `accesscontrol/routetree.go`, `accesscontrol/scope.go`,
`accesscontrol/controller.go`, `accesscontrol/role.go`, of the handler
`RouteHandler.InitializeScopes` of `accesscontrol/routes.go` and of the `util` and `users`
functions they call (`util.AuthorizeToken` in `util/hydra.go`, `util.IsSubjectAuthorized`
in `util/keto.go`, `FindUserResourceByID` in `users/controller.go`), followed by theorems
about them.

Modelling conventions

* A Go `string` is a list of Unicode code points (`GoString`).  `len(s)` is the number of
  bytes of the UTF-8 encoding.
* A Go `error` is identified with its message; `nil` is `none`.
* A nil-pointer dereference or an index out of range is a run-time panic; functions that
  can panic return `Option` (tree queries) or the outcome `panicked` (controller).
* The package-level variables of `controller.go` are the fields of `Registry`.
* Everything outside the repository that the code calls (Unicode case tables, the random
  token generator, the Hydra, Keto and Vault clients) is an explicit parameter.
-/

namespace Arusha

/-! ## Strings -/

/-- A Go string, as its sequence of code points. -/
abbrev GoString := List Char

/-- The built-in `len(s)` of a string: the length in bytes of its UTF-8 encoding. -/
def len (s : GoString) : Nat :=
  (s.map Char.utf8Size).sum

/-- The predicate `unicode.IsSpace`: the Unicode White_Space code points. -/
def isSpace (c : Char) : Bool :=
  let r := c.toNat
  (0x09 ≤ r && r ≤ 0x0D) || r == 0x20 || r == 0x85 || r == 0xA0 || r == 0x1680 ||
  (0x2000 ≤ r && r ≤ 0x200A) || r == 0x2028 || r == 0x2029 || r == 0x202F ||
  r == 0x205F || r == 0x3000

/-- The function `strings.TrimFunc(s, f)`: drop the leading and the trailing code points
that satisfy `f`. -/
def TrimFunc (s : GoString) (f : Char → Bool) : GoString :=
  ((s.dropWhile f).reverse.dropWhile f).reverse

/-- The function `strings.TrimSpace`. -/
def TrimSpace (s : GoString) : GoString :=
  TrimFunc s isSpace

/-- The function `strings.Trim(s, cutset)`. -/
def Trim (s : GoString) (cutset : GoString) : GoString :=
  TrimFunc s (fun c => decide (c ∈ cutset))

/-- The function `strings.HasPrefix`. -/
def HasPrefix (s : GoString) (pre : GoString) : Bool :=
  pre.isPrefixOf s

/-- One pass of `strings.Split` for a one-character separator: the piece before the first
separator and the pieces after it. -/
def splitAux (sep : Char) : GoString → GoString × List GoString
  | [] => ([], [])
  | c :: cs =>
    if c = sep then ([], (splitAux sep cs).1 :: (splitAux sep cs).2)
    else (c :: (splitAux sep cs).1, (splitAux sep cs).2)

/-- The function `strings.Split(s, sep)` for a separator of one character (both call sites
pass one, `"/"` or `"?"`).  The result is never empty. -/
def Split (s : GoString) (sep : Char) : List GoString :=
  (splitAux sep s).1 :: (splitAux sep s).2

/-- The expression `strings.Split(s, sep)[0]`. -/
def SplitFirst (s : GoString) (sep : Char) : GoString :=
  (splitAux sep s).1

/-! ## `routetree.go` -/

def get : Nat := 1 <<< 0
def head : Nat := 1 <<< 1
def post : Nat := 1 <<< 2
def put : Nat := 1 <<< 3
def delete : Nat := 1 <<< 4
def connect : Nat := 1 <<< 5
def options : Nat := 1 <<< 6
def trace : Nat := 1 <<< 7
def patch : Nat := 1 <<< 8

/-- The function `bitFieldForMethod`.  Every value is below `2^9`, so the `uint16` of the
source never overflows. -/
def bitFieldForMethod (method : GoString) : Nat :=
  if method = "GET".toList then get
  else if method = "HEAD".toList then head
  else if method = "POST".toList then post
  else if method = "PUT".toList then put
  else if method = "DELETE".toList then delete
  else if method = "CONNECT".toList then connect
  else if method = "OPTIONS".toList then options
  else if method = "TRACE".toList then trace
  else if method = "PATCH".toList then patch
  else 0

/-- The struct `node`.  A nil `urlComponent` marks a wildcard node; `scope` is a nilable
pointer to an `int`. -/
inductive node where
  | mk (urlComponent : Option GoString) (children : List node) (methods : Nat)
      (scope : Option Int) : node

namespace node

def urlComponent : node → Option GoString
  | mk u _ _ _ => u

def children : node → List node
  | mk _ c _ _ => c

def methods : node → Nat
  | mk _ _ m _ => m

def scope : node → Option Int
  | mk _ _ _ s => s

/-- The method `node.hasMethod`. -/
def hasMethod (n : node) (method : GoString) : Bool :=
  n.methods &&& bitFieldForMethod method != 0

end node

/-- The function `newNode`. -/
def newNode : node :=
  node.mk none [] 0 none

/-- The struct `ScopeRouteTree`. -/
structure ScopeRouteTree where
  root : node

/-- The function `NewScopeRouteTree`. -/
def NewScopeRouteTree : ScopeRouteTree :=
  { root := newNode }

/-- The preprocessing both tree operations start with:
`strings.Split(strings.Split(strings.Trim(uri, "/"), "?")[0], "/")`. -/
def components (uri : GoString) : List GoString :=
  Split (SplitFirst (Trim uri ['/']) '?') '/'

/-- The test `isWildCard` of `AddRoute`, on the white-space-trimmed component. -/
def isWildCard (component : GoString) : Bool :=
  HasPrefix component [':'] || component == ['*'] || component == []

/-- The condition under which `AddRoute` walks into an existing child: the segment matches
and the child carries no scope, or carries this very scope on the final component. -/
def reusable (component : GoString) (isFinalComponent : Bool) (scope : Int)
    (child : node) : Bool :=
  ((isWildCard component && child.urlComponent == none) ||
    (child.urlComponent != none && child.urlComponent == some component)) &&
  (child.scope == none || (child.scope == some scope && isFinalComponent))

/-- The node `AddRoute` appends when no child can be reused. -/
def emptyNode (component : GoString) : node :=
  node.mk (if isWildCard component then none else some component) [] 0 none

/-- The inner loop of `AddRoute` over `treeNode.children`: the first reusable child is
replaced by `walk child` (the rest of the insertion below it); when there is none, a fresh
node is appended and the insertion continues below it. -/
def descend (component : GoString) (isFinalComponent : Bool) (scope : Int)
    (walk : node → node) : List node → List node
  | [] => [walk (emptyNode component)]
  | child :: rest =>
    if reusable component isFinalComponent scope child then walk child :: rest
    else child :: descend component isFinalComponent scope walk rest

/-- The outer loop of `AddRoute` from `treeNode`, over the remaining components; after the
last one the scope is set and the method bit is or-ed into the mask. -/
def addComponents (method : GoString) (scope : Int) : List GoString → node → node
  | [], treeNode =>
    node.mk treeNode.urlComponent treeNode.children
      (treeNode.methods ||| bitFieldForMethod method) (some scope)
  | component :: rest, treeNode =>
    node.mk treeNode.urlComponent
      (descend (TrimSpace component) rest.isEmpty scope (addComponents method scope rest)
        treeNode.children)
      treeNode.methods treeNode.scope

/-- The method `ScopeRouteTree.AddRoute`. -/
def ScopeRouteTree.AddRoute (t : ScopeRouteTree) (method uri : GoString) (scope : Int) :
    ScopeRouteTree :=
  { root := addComponents method scope (components uri) t.root }

/-- The loop of `GetMatchingScopes` over the children of one candidate.  A wildcard child
that has the method contributes `*child.scope` (a nil pointer there is a panic, `none`);
another wildcard child, or a child with the component as its literal, becomes a candidate
of the next level. -/
def scanChildren (method component : GoString) :
    List node → List Int × List node → Option (List Int × List node)
  | [], acc => some acc
  | child :: rest, (scopes, newCandidates) =>
    if child.urlComponent == none && child.hasMethod method then
      match child.scope with
      | none => none
      | some s => scanChildren method component rest (scopes ++ [s], newCandidates)
    else if child.urlComponent == none || child.urlComponent == some component then
      scanChildren method component rest (scopes, newCandidates ++ [child])
    else
      scanChildren method component rest (scopes, newCandidates)

/-- The loop of `GetMatchingScopes` over the candidates of one level. -/
def scanCandidates (method component : GoString) :
    List node → List Int × List node → Option (List Int × List node)
  | [], acc => some acc
  | candidate :: rest, acc =>
    match scanChildren method component candidate.children acc with
    | none => none
    | some acc1 => scanCandidates method component rest acc1

/-- The final loop of `GetMatchingScopes`: every surviving candidate that has the method
and a scope contributes its scope. -/
def collect (method : GoString) : List node → List Int → List Int
  | [], scopes => scopes
  | candidate :: rest, scopes =>
    if candidate.hasMethod method && candidate.scope != none then
      match candidate.scope with
      | some s => collect method rest (scopes ++ [s])
      | none => collect method rest scopes
    else collect method rest scopes

/-- The loop of `GetMatchingScopes` over the components, followed by the final loop. -/
def matchComponents (method : GoString) :
    List GoString → List Int → List node → Option (List Int)
  | [], scopes, candidates => some (collect method candidates scopes)
  | component :: rest, scopes, candidates =>
    match scanCandidates method component candidates (scopes, []) with
    | none => none
    | some (scopes1, newCandidates) => matchComponents method rest scopes1 newCandidates

/-- The method `ScopeRouteTree.GetMatchingScopes`; `none` is a nil-pointer panic.  (The
early return for an empty component list is unreachable, `Split` never returns one; it is
kept as in the source.) -/
def ScopeRouteTree.GetMatchingScopes (t : ScopeRouteTree) (method url : GoString) :
    Option (List Int) :=
  if (components url).length = 0 then some []
  else matchComponents method (components url) [] [t.root]

/-! ## `scope.go` -/

/-- A Go `error`, identified with its message. -/
abbrev Error := GoString

/-- The case mappings `unicode.ToUpper` and `unicode.ToLower` of the Go standard library
(Unicode tables outside the repository), taken as parameters. -/
structure Unicode where
  ToUpper : Char → Char
  ToLower : Char → Char

/-- The function `strings.ToUpper`. -/
def ToUpper (U : Unicode) (s : GoString) : GoString :=
  s.map U.ToUpper

/-- The function `strings.ToLower`. -/
def ToLower (U : Unicode) (s : GoString) : GoString :=
  s.map U.ToLower

/-- The struct `Scope`. -/
structure Scope where
  Name : GoString
  Method : GoString
  URI : GoString
  Description : GoString

/-- The method `Scope.ValidateMethodAndURI`: the scope as the method leaves it (method
trimmed and upper-cased; URI trimmed once the method is accepted) and the error. -/
def Scope.ValidateMethodAndURI (U : Unicode) (s : Scope) : Scope × Option Error :=
  let s1 : Scope := { s with Method := ToUpper U (TrimSpace s.Method) }
  if bitFieldForMethod s1.Method = 0 then
    (s1, some "scope: invalid HTTP method".toList)
  else
    let s2 : Scope := { s1 with URI := TrimSpace s1.URI }
    if !HasPrefix s2.URI ['/'] || TrimSpace (Trim s2.URI ['/']) == [] then
      (s2, some "scope: invalid URI for scope".toList)
    else
      (s2, none)

/-- The method `Scope.Validate`. -/
def Scope.Validate (U : Unicode) (s : Scope) : Scope × Option Error :=
  if len s.Name < 4 then
    (s, some "scope: invalid name for scope".toList)
  else
    Scope.ValidateMethodAndURI U { s with Name := ToLower U s.Name }

/-! ## `util`: errors and the two collaborator calls of the decision procedure -/

namespace util

def ErrorInvalidToken : Error := "invalid token in header".toList

def ErrorOAuthNotInitialized : Error := "auth engine not initialized".toList

def ErrorRBACNotInitialized : Error := "access control engine not initialized".toList

/-- The answer of Hydra's `IntrospectOAuth2Token`: the fields of the payload that are
read. -/
structure Introspection where
  Active : Bool
  Sub : GoString

/-- What the external services answer during one call of `AuthorizeToken`: whether the
Hydra and Keto clients are set (non-nil), the answer of Hydra's token introspection
(payload and error) and of Keto's warden (`response.Allowed` and error). -/
structure Collaborators where
  hydraClient : Bool
  IntrospectOAuth2Token : GoString → Introspection × Option Error
  ketoClient : Bool
  WardenIsSubjectAuthorized : GoString → GoString → Bool × Option Error

/-- The function `util.AuthorizeToken` of `hydra.go`: the subject of the token, or an
error. -/
def AuthorizeToken (w : Collaborators) (token : GoString) : Except Error GoString :=
  if token = [] then .error ErrorInvalidToken
  else if !w.hydraClient then .error ErrorOAuthNotInitialized
  else if !(w.IntrospectOAuth2Token token).1.Active then .error ErrorInvalidToken
  else if (w.IntrospectOAuth2Token token).2 != none then .error "error checking token".toList
  else .ok (w.IntrospectOAuth2Token token).1.Sub

/-- The function `util.IsSubjectAuthorized` of `keto.go`. -/
def IsSubjectAuthorized (w : Collaborators) (subject scope : GoString) : Bool × Option Error :=
  if !w.ketoClient then (false, some ErrorRBACNotInitialized)
  else
    match (w.WardenIsSubjectAuthorized subject scope).2 with
    | some err => (false, some ("keto: error authorizing subject: ".toList ++ err))
    | none => ((w.WardenIsSubjectAuthorized subject scope).1, none)

end util

/-! ## `controller.go` -/

/-- The package-level variables `allScopes`, `scopeNameMap`, `scopeTree` and `rootToken`.
A nil slice is the empty list; a nil map, a nil tree and a nil token are `none`. -/
structure Registry where
  allScopes : List Scope
  scopeNameMap : Option (GoString → Option Int)
  scopeTree : Option ScopeRouteTree
  rootToken : Option GoString

/-- The registry of a fresh process: every variable is nil. -/
def Registry.initial : Registry :=
  { allScopes := [], scopeNameMap := none, scopeTree := none, rootToken := none }

def ErrorScopesInitialized : Error :=
  "scopes have already been initialized. Please perform an update request to update them".toList

/-- The error `AuthorizeToken` returns when no matched scope authorizes the subject. -/
def ErrorUnauthorized : Error := "access: invalid token or unauthorized".toList

/-- What the outside world answers during one call of `InitializeScopes`: the error results
of `util.InitializeRootHydraClient` and `util.CreateAdminRole` and the string returned by
`util.RandomAlphaNumeric`. -/
structure InitCollaborators where
  InitializeRootHydraClient : List GoString → Option Error
  CreateAdminRole : Option Error
  RandomAlphaNumeric : Nat → GoString

/-- The variables the registration loop of `InitializeScopes` updates. -/
structure Building where
  allScopes : List Scope
  scopeNames : List GoString
  scopeNameMap : GoString → Option Int
  scopeTree : ScopeRouteTree

/-- The loop of `InitializeScopes` over the input scopes; it stops at the first error and
leaves what it has registered so far. -/
def registerScopes (U : Unicode) : List Scope → Building → Building × Option Error
  | [], b => (b, none)
  | scope :: rest, b =>
    match Scope.Validate U scope with
    | (_, some err) => (b, some err)
    | (scope1, none) =>
      if (b.scopeNameMap scope1.Name).isSome then
        (b, some ("scope: ".toList ++ scope1.Name ++ " already exists".toList))
      else
        registerScopes U rest
          { allScopes := b.allScopes ++ [scope1]
            scopeNames := b.scopeNames ++ [scope1.Name]
            scopeNameMap := Function.update b.scopeNameMap scope1.Name
              (some (b.allScopes.length : Int))
            scopeTree := b.scopeTree.AddRoute scope1.Method scope1.URI b.allScopes.length }

/-- The method `Controller.InitializeScopes`: the registry afterwards and the returned
root token or error. -/
def Controller.InitializeScopes (U : Unicode) (w : InitCollaborators) (r : Registry)
    (scopes : List Scope) : Registry × Except Error GoString :=
  if r.rootToken != none then (r, .error ErrorScopesInitialized)
  else
    match registerScopes U scopes
        { allScopes := [], scopeNames := [], scopeNameMap := fun _ => none,
          scopeTree := NewScopeRouteTree } with
    | (b, some err) =>
      ({ r with allScopes := b.allScopes, scopeNameMap := some b.scopeNameMap,
                scopeTree := some b.scopeTree }, .error err)
    | (b, none) =>
      let r1 : Registry :=
        { r with allScopes := b.allScopes, scopeNameMap := some b.scopeNameMap,
                 scopeTree := some b.scopeTree }
      match w.InitializeRootHydraClient b.scopeNames with
      | some err => (r1, .error err)
      | none =>
        match w.CreateAdminRole with
        | some err => (r1, .error err)
        | none =>
          ({ r1 with rootToken := some (w.RandomAlphaNumeric 64) },
            .ok (w.RandomAlphaNumeric 64))

/-- The method `Controller.GetScopes`. -/
def Controller.GetScopes (r : Registry) : Except Error (List Scope) :=
  if r.rootToken == none then .error "scopes haven't been initialized".toList
  else .ok r.allScopes

/-- The method `Controller.Reset`. -/
def Controller.Reset (r : Registry) : Registry :=
  { r with allScopes := [], scopeNameMap := none, scopeTree := none }

/-- The method `Controller.IsRootToken`. -/
def Controller.IsRootToken (r : Registry) (token : GoString) : Bool :=
  match r.rootToken with
  | none => true
  | some root => token == root

/-- What a call of `AuthorizeToken` does: return nil (`allow`), return an error (`deny`),
or panic. -/
inductive Verdict where
  | allow : Verdict
  | deny (err : Error) : Verdict
  | panicked : Verdict
  deriving DecidableEq

/-- The expression `allScopes[scopeIdx]`; out of range is a panic, `none`. -/
def index (allScopes : List Scope) (scopeIdx : Int) : Option Scope :=
  if scopeIdx < 0 then none else allScopes[scopeIdx.toNat]?

/-- The loop of `AuthorizeToken` over the matched scope indices: the first scope for which
`util.IsSubjectAuthorized` answers `allowed` ends it with nil. -/
def authorizeScopes (w : util.Collaborators) (allScopes : List Scope) (subject : GoString) :
    List Int → Verdict
  | [] => .deny ErrorUnauthorized
  | scopeIdx :: rest =>
    match index allScopes scopeIdx with
    | none => .panicked
    | some scope =>
      if (util.IsSubjectAuthorized w subject scope.Name).1 then .allow
      else authorizeScopes w allScopes subject rest

/-- The method `Controller.AuthorizeToken`. -/
def Controller.AuthorizeToken (U : Unicode) (w : util.Collaborators) (r : Registry)
    (token : GoString) (scope : Scope) : Verdict :=
  match Scope.ValidateMethodAndURI U scope with
  | (_, some err) => .deny err
  | (scope1, none) =>
    if Controller.IsRootToken r token then .allow
    else
      match r.scopeTree with
      | none => .panicked
      | some scopeTree =>
        match scopeTree.GetMatchingScopes scope1.Method scope1.URI with
        | none => .panicked
        | some scopeIndices =>
          if scopeIndices.length = 0 then .allow
          else if len token < 10 then .deny util.ErrorInvalidToken
          else
            match util.AuthorizeToken w token with
            | .error err => .deny err
            | .ok subject => authorizeScopes w r.allScopes subject scopeIndices

/-- The ASCII part of the Unicode case mappings, for concrete evaluations. -/
def asciiCase : Unicode :=
  { ToUpper := Char.toUpper, ToLower := Char.toLower }

/-! ## `role.go` -/

/-- The struct `Role`. -/
structure Role where
  ID : GoString
  Description : GoString
  Members : List GoString
  Scopes : List GoString

namespace users

/-- The method `Controller.FindUserResourceByID` of package `users`, as far as
`Role.Validate` uses it: its error.  The parameter `vaultGet path key` is the answer of
`VaultClient.Get`, a read of the external Vault service, at the path
`rootPath + usersPath`. -/
def FindUserResourceByID (vaultGet : GoString → GoString → Bool) (id : GoString) :
    Option Error :=
  if vaultGet "/secret/arusha/users".toList id then none
  else some "users: resource doesn't exist for ID".toList

end users

/-- The test `_, exists := scopeNameMap[scope]`; a nil map has no key. -/
def hasScopeName (scopeNameMap : Option (GoString → Option Int)) (scope : GoString) : Bool :=
  match scopeNameMap with
  | none => false
  | some m => (m scope).isSome

/-- The loop of `Role.Validate` over the members; `members` holds the keys of the local map
of members already looked up. -/
def validateMembers (vaultGet : GoString → GoString → Bool) :
    List GoString → List GoString → Option Error
  | [], _ => none
  | member :: rest, members =>
    if member ∈ members then validateMembers vaultGet rest members
    else
      match users.FindUserResourceByID vaultGet member with
      | some err => some err
      | none => validateMembers vaultGet rest (member :: members)

/-- The loop of `Role.Validate` over the scope names; `scopes` holds the keys of the local
map `scopes`, which the source never writes to. -/
def validateScopes (scopeNameMap : Option (GoString → Option Int)) :
    List GoString → List GoString → Option Error
  | [], _ => none
  | scope :: rest, scopes =>
    if scope ∈ scopes then validateScopes scopeNameMap rest scopes
    else if !hasScopeName scopeNameMap scope then
      some ("scope ".toList ++ scope ++ " doesn't exist".toList)
    else validateScopes scopeNameMap rest scopes

/-- The method `Role.Validate`: the role as the method leaves it (ID lower-cased) and the
error. -/
def Role.Validate (U : Unicode) (vaultGet : GoString → GoString → Bool) (reg : Registry)
    (r : Role) : Role × Option Error :=
  let r1 : Role := { r with ID := ToLower U r.ID }
  if r1.ID = [] then
    (r1, some "role: name should be unique and cannot be empty".toList)
  else
    match validateMembers vaultGet r1.Members [] with
    | some err => (r1, some err)
    | none =>
      match validateScopes reg.scopeNameMap r1.Scopes [] with
      | some err => (r1, some err)
      | none => (r1, none)

/-! ## `routes.go` -/

/-- The handler `RouteHandler.InitializeScopes` of `routes.go`, as far as it changes the
registry.  The parameter `body` is the decoded request body: `none` when the request has no
body or the body does not decode to a list of scopes (the handler then returns before it
calls the controller).  A failed `Controller.InitializeScopes` is followed by
`Controller.Reset`. -/
def RouteHandler.InitializeScopes (U : Unicode) (w : InitCollaborators) (r : Registry)
    (body : Option (List Scope)) : Registry :=
  match body with
  | none => r
  | some scopes =>
    match Controller.InitializeScopes U w r scopes with
    | (r1, .error _) => Controller.Reset r1
    | (r1, .ok _) => r1

/-! ## Vocabulary of the theorems -/

/-- The tree after a sequence of `AddRoute` calls, each given as (method, URI, scope). -/
def addRoutes (t : ScopeRouteTree) (calls : List (GoString × GoString × Int)) :
    ScopeRouteTree :=
  calls.foldl (fun t c => t.AddRoute c.1 c.2.1 c.2.2) t

/-- The property `P` holds at a node and at every node below it. -/
inductive AllNodes (P : node → Prop) : node → Prop
  | mk (u : Option GoString) (cs : List node) (m : Nat) (s : Option Int) :
      P (node.mk u cs m s) → (∀ c ∈ cs, AllNodes P c) → AllNodes P (node.mk u cs m s)

/-- What every node of a tree built by the calls `calls` satisfies: a node without scope
has an empty method mask, a literal node does not store a wildcard segment, and a method
bit under scope `s` was put there by a call with that method and that scope. -/
def NodeInv (calls : List (GoString × GoString × Int)) (n : node) : Prop :=
  (n.scope = none → n.methods = 0) ∧
  (∀ lit, n.urlComponent = some lit → isWildCard lit = false) ∧
  (∀ s m, n.scope = some s → n.hasMethod m = true → ∃ uri, (m, uri, s) ∈ calls)

/-- The scopes the loop over the children of one candidate appends: those of the wildcard
children that have the method. -/
def hits (m : GoString) (cs : List node) : List Int :=
  cs.filterMap (fun c => if c.urlComponent == none && c.hasMethod m then c.scope else none)

/-- The children of one candidate that become candidates of the next level. -/
def conts (m comp : GoString) (cs : List node) : List node :=
  cs.filter (fun c => !(c.urlComponent == none && c.hasMethod m) &&
    (c.urlComponent == none || c.urlComponent == some comp))

/-- A node without scope has an empty method mask, here and below. -/
def Safe (n : node) : Prop :=
  AllNodes (fun x => x.scope = none → x.methods = 0) n

/-- `Reach m s wild n us`: from candidate `n`, the segments `us` lead the matching loop to a
node with scope `s` and method `m`: through literal children equal to the segment, through
wildcard children without the method (only when `wild` is set), and finally either to a
wildcard child with the method (which matches whatever follows) or, with the segments used
up, to a node with the method. -/
inductive Reach (m : GoString) (s : Int) (wild : Bool) : node → List GoString → Prop
  | here (n : node) : n.hasMethod m = true → n.scope = some s → Reach m s wild n []
  | greedy (n c : node) (u : GoString) (us : List GoString) :
      c ∈ n.children → c.urlComponent = none → c.hasMethod m = true → c.scope = some s →
      Reach m s wild n (u :: us)
  | step (n c : node) (u : GoString) (us : List GoString) :
      c ∈ n.children →
      (c.urlComponent = some u ∨
        (wild = true ∧ c.urlComponent = none ∧ c.hasMethod m = false)) →
      Reach m s wild c us → Reach m s wild n (u :: us)

/-- `Covers comps us`: the URL segments `us` are an instance of the pattern segments
`comps`: a literal segment is kept as `AddRoute` stores it (white-space trimmed), a wildcard
segment stands for any segment, and a final wildcard segment for any non-empty rest. -/
inductive Covers : List GoString → List GoString → Prop
  | nil : Covers [] []
  | greedy (c u : GoString) (us : List GoString) :
      isWildCard (TrimSpace c) = true → Covers [c] (u :: us)
  | cons (c : GoString) (rest : List GoString) (u : GoString) (us : List GoString) :
      (isWildCard (TrimSpace c) = true ∨ u = TrimSpace c) → Covers rest us →
      Covers (c :: rest) (u :: us)


/-- The label of the node `AddRoute` walks to for a pattern segment: nil for a wildcard
segment, the white-space-trimmed segment otherwise. -/
def label (comp : GoString) : Option GoString :=
  if isWildCard (TrimSpace comp) then none else some (TrimSpace comp)

/-- `Placed calls path n`: node `n` sits at the end of the root path with labels `path`, and
in its subtree every method bit under a scope was put there by a call whose pattern has
exactly the labels of the path to that node. -/
inductive Placed (calls : List (GoString × GoString × Int)) :
    List (Option GoString) → node → Prop
  | mk (path : List (Option GoString)) (u : Option GoString) (cs : List node) (x : Nat)
      (sc : Option Int) :
      (∀ s m, sc = some s → (node.mk u cs x sc).hasMethod m = true →
        ∃ uri, (m, uri, s) ∈ calls ∧ (components uri).map label = path) →
      (∀ c ∈ cs, Placed calls (path ++ [c.urlComponent]) c) →
      Placed calls path (node.mk u cs x sc)

/-- The decision procedure for `Covers`. -/
def coversB : List GoString → List GoString → Bool
  | [], [] => true
  | [], _ :: _ => false
  | _ :: _, [] => false
  | c :: rest, u :: us =>
    (isWildCard (TrimSpace c) && rest.isEmpty) ||
      ((isWildCard (TrimSpace c) || u == TrimSpace c) && coversB rest us)


/-- One call that changes the registry: `InitializeScopes` with its input and the answers
of its collaborators, or `Reset`. -/
inductive Call where
  | InitializeScopes (w : InitCollaborators) (scopes : List Scope) : Call
  | Reset : Call

/-- The registry after one call. -/
def Call.run (U : Unicode) (r : Registry) : Call → Registry
  | Call.InitializeScopes w scopes => (Controller.InitializeScopes U w r scopes).1
  | Call.Reset => Controller.Reset r

/-- The registry after a sequence of calls. -/
def runCalls (U : Unicode) (r : Registry) (calls : List Call) : Registry :=
  calls.foldl (Call.run U) r

/-- No `InitializeScopes` call of the sequence, run from registry `r`, succeeds. -/
def noneSucceeded (U : Unicode) : Registry → List Call → Prop
  | _, [] => True
  | r, Call.InitializeScopes w scopes :: rest =>
    (∃ err, (Controller.InitializeScopes U w r scopes).2 = Except.error err) ∧
      noneSucceeded U (Controller.InitializeScopes U w r scopes).1 rest
  | r, Call.Reset :: rest => noneSucceeded U (Controller.Reset r) rest

/-- The normal form of a scope in the words of the specification: name lower-cased, method
trimmed and upper-cased, URI trimmed. -/
def normalised (U : Unicode) (s : Scope) : Scope :=
  { Name := ToLower U s.Name, Method := ToUpper U (TrimSpace s.Method),
    URI := TrimSpace s.URI, Description := s.Description }

/-- The `AddRoute` calls for a list of scopes numbered from `start`: (method, URI, index). -/
def registrations : Nat → List Scope → List (GoString × GoString × Int)
  | _, [] => []
  | start, s :: rest => (s.Method, s.URI, (start : Int)) :: registrations (start + 1) rest

/-- The building variables at the start of `InitializeScopes`. -/
def Building.fresh : Building :=
  { allScopes := [], scopeNames := [], scopeNameMap := fun _ => none,
    scopeTree := NewScopeRouteTree }

/-- The error for a scope name that is already registered. -/
def alreadyExists (name : GoString) : Error :=
  "scope: ".toList ++ name ++ " already exists".toList

/-- The nine methods `bitFieldForMethod` knows. -/
def knownMethods : List GoString :=
  ["GET".toList, "HEAD".toList, "POST".toList, "PUT".toList, "DELETE".toList,
    "CONNECT".toList, "OPTIONS".toList, "TRACE".toList, "PATCH".toList]

/-- The name index agrees with the scope list: the name of the `i`-th scope is mapped to
`i`, every key is the name of a listed scope, and no two listed scopes share a name. -/
def Indexed (b : Building) : Prop :=
  (∀ (i : Nat) (sc : Scope), b.allScopes[i]? = some sc →
    b.scopeNameMap sc.Name = some (i : Int)) ∧
  (∀ n, (b.scopeNameMap n).isSome = true → n ∈ b.allScopes.map Scope.Name) ∧
  (b.allScopes.map Scope.Name).Nodup


mutual
/-- The number of nodes of the subtree at a node. -/
def node.size : node → Nat
  | node.mk _ cs _ _ => 1 + node.sizeList cs
/-- The number of nodes of the subtrees at the nodes of a list. -/
def node.sizeList : List node → Nat
  | [] => 0
  | c :: cs => c.size + node.sizeList cs
end

/-- `hasPath m s labels n`: below node `n` there is a path of nodes whose `urlComponent`s
are `labels`, in order (`none` for a wildcard node), and the last node of the path (`n`
itself when `labels` is empty) has scope `s` and method `m` in its mask. -/
def hasPath (m : GoString) (s : Int) : List (Option GoString) → node → Bool
  | [], n => n.scope == some s && n.hasMethod m
  | l :: ls, n => n.children.any (fun c => c.urlComponent == l && hasPath m s ls c)

mutual
/-- The scopes set on the nodes of the subtree at a node, the node's own scope first. -/
def node.scopesIn : node → List Int
  | node.mk _ cs _ s => s.toList ++ node.scopesInList cs
/-- The scopes set on the nodes of the subtrees at the nodes of a list. -/
def node.scopesInList : List node → List Int
  | [] => []
  | c :: cs => c.scopesIn ++ node.scopesInList cs
end


/-- The index, among the children of `treeNode`, of the child `AddRoute` moves to for one
component: the index of the first reusable child or, when there is none, the index of the
child it appends. -/
def walkIndex (component : GoString) (isFinalComponent : Bool) (scope : Int) :
    List node → Nat
  | [] => 0
  | child :: rest =>
    if reusable component isFinalComponent scope child then 0
    else walkIndex component isFinalComponent scope rest + 1

/-- The walk of `AddRoute` from `treeNode` over the components, as the list of the indices
of the children it moves to, one per component (a child that `AddRoute` has yet to append is
`emptyNode`). -/
def walkPath (scope : Int) : List GoString → node → List Nat
  | [], _ => []
  | component :: rest, treeNode =>
    walkIndex (TrimSpace component) rest.isEmpty scope treeNode.children ::
      walkPath scope rest
        ((treeNode.children[walkIndex (TrimSpace component) rest.isEmpty scope
          treeNode.children]?).getD (emptyNode (TrimSpace component)))

/-- The last of the components is a wildcard segment. -/
def endsInWildCard (comps : List GoString) : Bool :=
  match comps.getLast? with
  | some component => isWildCard (TrimSpace component)
  | none => false

/-- `shadows scope comps treeNode path`: the walk of `AddRoute` from `treeNode` over `comps`
ends at a wildcard node that lies on the walk `path` strictly before its end: the walk over
`comps` is a proper initial part of `path`, and the last of `comps` is a wildcard. -/
def shadows (scope : Int) (comps : List GoString) (treeNode : node) (path : List Nat) :
    Bool :=
  (walkPath scope comps treeNode).isPrefixOf path &&
    decide ((walkPath scope comps treeNode).length < path.length) && endsInWildCard comps

/-- `unshadowed m path t later`: none of the calls `later`, made one after the other on the
tree `t`, has the method `m` and ends at a wildcard node that lies on the walk `path`
strictly before its end. -/
def unshadowed (m : GoString) (path : List Nat) :
    ScopeRouteTree → List (GoString × GoString × Int) → Bool
  | _, [] => true
  | t, c :: rest =>
    !(c.1 == m && shadows c.2.2 (components c.2.1) t.root path) &&
      unshadowed m path (t.AddRoute c.1 c.2.1 c.2.2) rest

/-- `Clear m s path us n`: the children indices `path` lead from `n` to a node with scope `s`
and method `m`, through nodes that admit the segments `us` one by one (a wildcard node, or a
node with the segment as its literal), and no wildcard node before the last one has the
method `m`. -/
inductive Clear (m : GoString) (s : Int) : List Nat → List GoString → node → Prop
  | here (n : node) : n.scope = some s → n.hasMethod m = true → Clear m s [] [] n
  | step (n c : node) (i : Nat) (path : List Nat) (u : GoString) (us : List GoString) :
      n.children[i]? = some c → (c.urlComponent = none ∨ c.urlComponent = some u) →
      (path ≠ [] → ¬ (c.urlComponent = none ∧ c.hasMethod m = true)) →
      Clear m s path us c → Clear m s (i :: path) (u :: us) n

/-! ## Concrete values for evaluating the definitions -/

/-- Collaborators of `InitializeScopes` that succeed; the random token is a string of the
requested length. -/
def exampleInit : InitCollaborators :=
  { InitializeRootHydraClient := fun _ => none
    CreateAdminRole := none
    RandomAlphaNumeric := fun n => List.replicate n 'A' }

/-- The scope of the end-to-end scenario of the specification. -/
def exampleScope : Scope :=
  { Name := "roles.write".toList, Method := "POST".toList, URI := "/roles".toList,
    Description := [] }

/-- The registry after `InitializeScopes([exampleScope])` in a fresh process. -/
def exampleRegistry : Registry :=
  (Controller.InitializeScopes asciiCase exampleInit Registry.initial [exampleScope]).1

/-- A request for the registered route. -/
def exampleRequest : Scope :=
  { Name := [], Method := "post".toList, URI := "/roles".toList, Description := [] }

/-- A request for a route no scope governs. -/
def unregisteredRequest : Scope :=
  { Name := [], Method := "GET".toList, URI := "/health".toList, Description := [] }

/-- Collaborators of `AuthorizeToken` whose token introspection fails with an error. -/
def failingIntrospection : util.Collaborators :=
  { hydraClient := true
    IntrospectOAuth2Token := fun _ =>
      ({ Active := false, Sub := [] }, some "connection refused".toList)
    ketoClient := true
    WardenIsSubjectAuthorized := fun _ _ => (true, none) }

/-- Collaborators of `AuthorizeToken`: the token introspects to the active subject `alice`,
and the warden answers `answer` for every (subject, scope). -/
def exampleCollaborators (answer : Bool × Option Error) : util.Collaborators :=
  { hydraClient := true
    IntrospectOAuth2Token := fun _ => ({ Active := true, Sub := "alice".toList }, none)
    ketoClient := true
    WardenIsSubjectAuthorized := fun _ _ => answer }

/-- A valid scope named `abcd`. -/
def scopeAbcd : Scope :=
  { Name := "abcd".toList, Method := "GET".toList, URI := "/a".toList, Description := [] }

/-- A scope whose URI consists of slashes and white space. -/
def scopeBlankURI : Scope :=
  { Name := "abcd".toList, Method := "GET".toList, URI := "/ /".toList, Description := [] }

/-- A scope named `ABCD` with an unknown method. -/
def scopeBadMethod : Scope :=
  { Name := "ABCD".toList, Method := "FOO".toList, URI := "/b".toList, Description := [] }

/-- The routes of `TestRouteMatching` in `routetree_test.go`, with the scope indices the test
gives them. -/
def testRoutes : List (GoString × GoString × Int) :=
  [("GET".toList, "/foo/*".toList, 1000),
   ("GET".toList, "/foo/bar/baz".toList, 1001),
   ("GET".toList, "/foo/bar/*".toList, 1002),
   ("POST".toList, "/foo/*/bar".toList, 1003),
   ("DELETE".toList, "/foo/:boo/bar".toList, 1004),
   ("DELETE".toList, "/foo/bar".toList, 1005),
   ("GET".toList, "/booya/:id".toList, 1006),
   ("GET".toList, "/booya".toList, 1007),
   ("POST".toList, "/booya".toList, 1008),
   ("PUT".toList, "/booya/:id".toList, 1009),
   ("DELETE".toList, "/booya/:id".toList, 1010),
   ("GET".toList, "/booya/foo/:id".toList, 1011),
   ("GET".toList, "/booya/foo/".toList, 1012),
   ("POST".toList, "/booya/foo/".toList, 1013),
   ("PUT".toList, "/booya/foo/:id/".toList, 1014),
   ("DELETE".toList, "/booya/foo/:id".toList, 1015)]

/-- The three routes named in the comment on `ScopeRouteTree`, in the order of the comment. -/
def commentRoutes : List (GoString × GoString × Int) :=
  [("GET".toList, "/foo/*/baz".toList, 1), ("GET".toList, "/foo/bar/*".toList, 2),
    ("GET".toList, "/foo/*".toList, 3)]

/-- Two scopes whose routes both match `POST /roles`: a catch-all and the route itself. -/
def overlappingScopes : List Scope :=
  [{ Name := "everything".toList, Method := "POST".toList, URI := "/*".toList,
     Description := [] },
   { Name := "roles.write".toList, Method := "POST".toList, URI := "/roles".toList,
     Description := [] }]

/-- The registry after `InitializeScopes(overlappingScopes)` in a fresh process. -/
def overlappingRegistry : Registry :=
  (Controller.InitializeScopes asciiCase exampleInit Registry.initial overlappingScopes).1

/-- Collaborators of `AuthorizeToken`: the token introspects to the active subject `alice`,
and the warden allows, without error, exactly the scope named `granted`. -/
def wardenGranting (granted : GoString) : util.Collaborators :=
  { hydraClient := true
    IntrospectOAuth2Token := fun _ => ({ Active := true, Sub := "alice".toList }, none)
    ketoClient := true
    WardenIsSubjectAuthorized := fun _ scope => (scope == granted, none) }

end Arusha

namespace Arusha

/-! ## Method masks -/

theorem bitFieldForMethod_cases (m : GoString) :
    bitFieldForMethod m = 0 ∨ (m = "GET".toList ∧ bitFieldForMethod m = 1) ∨
    (m = "HEAD".toList ∧ bitFieldForMethod m = 2) ∨
    (m = "POST".toList ∧ bitFieldForMethod m = 4) ∨
    (m = "PUT".toList ∧ bitFieldForMethod m = 8) ∨
    (m = "DELETE".toList ∧ bitFieldForMethod m = 16) ∨
    (m = "CONNECT".toList ∧ bitFieldForMethod m = 32) ∨
    (m = "OPTIONS".toList ∧ bitFieldForMethod m = 64) ∨
    (m = "TRACE".toList ∧ bitFieldForMethod m = 128) ∨
    (m = "PATCH".toList ∧ bitFieldForMethod m = 256) := by
  by_cases h0 : m = "GET".toList
  · subst h0; right; left; exact ⟨rfl, by decide⟩
  by_cases h1 : m = "HEAD".toList
  · subst h1; right; right; left; exact ⟨rfl, by decide⟩
  by_cases h2 : m = "POST".toList
  · subst h2; right; right; right; left; exact ⟨rfl, by decide⟩
  by_cases h3 : m = "PUT".toList
  · subst h3; right; right; right; right; left; exact ⟨rfl, by decide⟩
  by_cases h4 : m = "DELETE".toList
  · subst h4; right; right; right; right; right; left; exact ⟨rfl, by decide⟩
  by_cases h5 : m = "CONNECT".toList
  · subst h5; right; right; right; right; right; right; left; exact ⟨rfl, by decide⟩
  by_cases h6 : m = "OPTIONS".toList
  · subst h6; right; right; right; right; right; right; right; left; exact ⟨rfl, by decide⟩
  by_cases h7 : m = "TRACE".toList
  · subst h7; right; right; right; right; right; right; right; right; left; exact ⟨rfl, by decide⟩
  by_cases h8 : m = "PATCH".toList
  · subst h8; right; right; right; right; right; right; right; right; right; exact ⟨rfl, by decide⟩
  left
  unfold bitFieldForMethod
  rw [if_neg h0, if_neg h1, if_neg h2, if_neg h3, if_neg h4, if_neg h5, if_neg h6, if_neg h7,
    if_neg h8]

theorem bitFieldForMethod_and_self (m : GoString) (h : bitFieldForMethod m ≠ 0) :
    bitFieldForMethod m &&& bitFieldForMethod m ≠ 0 := by
  rw [Nat.and_self]; exact h

theorem bitFieldForMethod_inj (a b : GoString)
    (h : bitFieldForMethod a &&& bitFieldForMethod b ≠ 0) : a = b := by
  rcases bitFieldForMethod_cases a with ha | ha | ha | ha | ha | ha | ha | ha | ha | ha
  · rw [ha, Nat.zero_and] at h; exact absurd rfl h
  all_goals
    obtain ⟨ha1, ha2⟩ := ha
    rw [ha2] at h
    rcases bitFieldForMethod_cases b with hb | hb | hb | hb | hb | hb | hb | hb | hb | hb
    · rw [hb, Nat.and_zero] at h; exact absurd rfl h
    all_goals
      obtain ⟨hb1, hb2⟩ := hb
      rw [hb2] at h
      first
        | exact absurd (by decide) h
        | rw [ha1, hb1]

theorem or_and_ne_zero (x b c : Nat) :
    (x ||| b) &&& c ≠ 0 ↔ (x &&& c ≠ 0 ∨ b &&& c ≠ 0) := by
  rw [Nat.and_comm, Nat.and_or_distrib_left, Nat.and_comm c x, Nat.and_comm c b]
  constructor
  · intro h
    by_contra hn
    push_neg at hn
    apply h
    rw [hn.1, hn.2]
    rfl
  · rintro (h | h) h0
    · apply h
      apply Nat.eq_of_testBit_eq
      intro i
      have := congrArg (fun n => n.testBit i) h0
      simp only [Nat.testBit_or, Nat.zero_testBit, Bool.or_eq_false_iff] at this
      simp [this.1]
    · apply h
      apply Nat.eq_of_testBit_eq
      intro i
      have := congrArg (fun n => n.testBit i) h0
      simp only [Nat.testBit_or, Nat.zero_testBit, Bool.or_eq_false_iff] at this
      simp [this.2]

theorem hasMethod_iff (n : node) (m : GoString) :
    n.hasMethod m = true ↔ n.methods &&& bitFieldForMethod m ≠ 0 := by
  simp [node.hasMethod]

theorem hasMethod_of_methods_zero (n : node) (m : GoString) (h : n.methods = 0) :
    n.hasMethod m = false := by
  simp [node.hasMethod, h]

/-! ## Nodes and the insertion walk -/

theorem urlComponent_mk (u : Option GoString) (cs : List node) (x : Nat) (s : Option Int) :
    (node.mk u cs x s).urlComponent = u := rfl

theorem children_mk (u : Option GoString) (cs : List node) (x : Nat) (s : Option Int) :
    (node.mk u cs x s).children = cs := rfl

theorem methods_mk (u : Option GoString) (cs : List node) (x : Nat) (s : Option Int) :
    (node.mk u cs x s).methods = x := rfl

theorem scope_mk (u : Option GoString) (cs : List node) (x : Nat) (s : Option Int) :
    (node.mk u cs x s).scope = s := rfl

theorem allNodes_iff (P : node → Prop) (n : node) :
    AllNodes P n ↔ P n ∧ ∀ c ∈ n.children, AllNodes P c := by
  constructor
  · intro h
    cases h with
    | mk u cs m s hp hc => exact ⟨hp, hc⟩
  · rintro ⟨hp, hc⟩
    cases n with
    | mk u cs m s => exact AllNodes.mk u cs m s hp hc

theorem allNodes_mono {P Q : node → Prop} (hPQ : ∀ n, P n → Q n) {n : node}
    (h : AllNodes P n) : AllNodes Q n := by
  induction h with
  | mk u cs m s hp _ ih => exact AllNodes.mk u cs m s (hPQ _ hp) ih

theorem mem_descend (comp : GoString) (fin : Bool) (s : Int) (walk : node → node)
    (cs : List node) (c' : node) (h : c' ∈ descend comp fin s walk cs) :
    c' ∈ cs ∨ (∃ c ∈ cs, reusable comp fin s c = true ∧ c' = walk c) ∨
      c' = walk (emptyNode comp) := by
  induction cs with
  | nil =>
    simp only [descend, List.mem_singleton] at h
    exact Or.inr (Or.inr h)
  | cons c rest ih =>
    unfold descend at h
    split_ifs at h with hr
    · rcases List.mem_cons.1 h with h | h
      · exact Or.inr (Or.inl ⟨c, List.mem_cons_self _ _, hr, h⟩)
      · exact Or.inl (List.mem_cons_of_mem _ h)
    · rcases List.mem_cons.1 h with h | h
      · exact Or.inl (h ▸ List.mem_cons_self _ _)
      · rcases ih h with h | ⟨c0, hc0, hr0, h⟩ | h
        · exact Or.inl (List.mem_cons_of_mem _ h)
        · exact Or.inr (Or.inl ⟨c0, List.mem_cons_of_mem _ hc0, hr0, h⟩)
        · exact Or.inr (Or.inr h)

theorem descend_keeps (comp : GoString) (fin : Bool) (s : Int) (walk : node → node)
    (cs : List node) (c : node) (h : c ∈ cs) :
    c ∈ descend comp fin s walk cs ∨
      (reusable comp fin s c = true ∧ walk c ∈ descend comp fin s walk cs) := by
  induction cs with
  | nil => cases h
  | cons c0 rest ih =>
    unfold descend
    split_ifs with hr
    · rcases List.mem_cons.1 h with h | h
      · subst h
        exact Or.inr ⟨hr, List.mem_cons_self _ _⟩
      · exact Or.inl (List.mem_cons_of_mem _ h)
    · rcases List.mem_cons.1 h with h | h
      · subst h
        exact Or.inl (List.mem_cons_self _ _)
      · rcases ih h with h | ⟨h1, h2⟩
        · exact Or.inl (List.mem_cons_of_mem _ h)
        · exact Or.inr ⟨h1, List.mem_cons_of_mem _ h2⟩

theorem descend_target (comp : GoString) (fin : Bool) (s : Int) (walk : node → node)
    (cs : List node) :
    ∃ c, walk c ∈ descend comp fin s walk cs ∧
      ((c ∈ cs ∧ reusable comp fin s c = true) ∨ c = emptyNode comp) := by
  induction cs with
  | nil => exact ⟨emptyNode comp, by simp [descend], Or.inr rfl⟩
  | cons c0 rest ih =>
    unfold descend
    split_ifs with hr
    · exact ⟨c0, List.mem_cons_self _ _, Or.inl ⟨List.mem_cons_self _ _, hr⟩⟩
    · obtain ⟨c, h1, h2⟩ := ih
      refine ⟨c, List.mem_cons_of_mem _ h1, ?_⟩
      rcases h2 with ⟨h2, h3⟩ | h2
      · exact Or.inl ⟨List.mem_cons_of_mem _ h2, h3⟩
      · exact Or.inr h2

theorem addComponents_urlComponent (m : GoString) (s : Int) (comps : List GoString)
    (n : node) : (addComponents m s comps n).urlComponent = n.urlComponent := by
  cases comps <;> rfl

theorem addComponents_nil (m : GoString) (s : Int) (n : node) :
    addComponents m s [] n =
      node.mk n.urlComponent n.children (n.methods ||| bitFieldForMethod m) (some s) := rfl

theorem addComponents_cons (m : GoString) (s : Int) (comp : GoString)
    (rest : List GoString) (n : node) :
    addComponents m s (comp :: rest) n =
      node.mk n.urlComponent
        (descend (TrimSpace comp) rest.isEmpty s (addComponents m s rest) n.children)
        n.methods n.scope := rfl

theorem reusable_scope (comp : GoString) (fin : Bool) (s : Int) (c : node)
    (h : reusable comp fin s c = true) :
    c.scope = none ∨ (c.scope = some s ∧ fin = true) := by
  simp only [reusable, Bool.and_eq_true, Bool.or_eq_true, beq_iff_eq] at h
  exact h.2

theorem reusable_segment (comp : GoString) (fin : Bool) (s : Int) (c : node)
    (h : reusable comp fin s c = true) :
    (isWildCard comp = true ∧ c.urlComponent = none) ∨ c.urlComponent = some comp := by
  simp only [reusable, Bool.and_eq_true, Bool.or_eq_true, beq_iff_eq] at h
  rcases h.1 with h1 | h1
  · exact Or.inl h1
  · exact Or.inr h1.2

theorem nodeInv_emptyNode (calls : List (GoString × GoString × Int)) (comp : GoString) :
    AllNodes (NodeInv calls) (emptyNode comp) := by
  refine AllNodes.mk _ _ _ _ ?_ (fun c hc => by cases hc)
  unfold NodeInv
  refine ⟨fun _ => rfl, ?_, ?_⟩
  · intro lit h
    rw [urlComponent_mk] at h
    split_ifs at h with hw
    · simp only [Option.some.injEq] at h
      subst h
      simpa using hw
  · intro s m h
    cases h

theorem nodeInv_mono {calls calls' : List (GoString × GoString × Int)}
    (hsub : ∀ c ∈ calls, c ∈ calls') (n : node) (h : NodeInv calls n) : NodeInv calls' n :=
  ⟨h.1, h.2.1, fun s m hs hm => by
    obtain ⟨uri, hu⟩ := h.2.2 s m hs hm
    exact ⟨uri, hsub _ hu⟩⟩

theorem addComponents_inv (calls : List (GoString × GoString × Int)) (m uri : GoString)
    (s : Int) (comps : List GoString) :
    ∀ n : node, AllNodes (NodeInv calls) n →
      (comps = [] → n.scope = none ∨ n.scope = some s) →
      AllNodes (NodeInv ((m, uri, s) :: calls)) (addComponents m s comps n) := by
  have hsub : ∀ c ∈ calls, c ∈ (m, uri, s) :: calls := fun c hc => List.mem_cons_of_mem _ hc
  induction comps with
  | nil =>
    intro n hn hsc
    rw [addComponents_nil]
    rw [allNodes_iff] at hn
    refine AllNodes.mk _ _ _ _ ?_ (fun c hc => allNodes_mono (nodeInv_mono hsub) (hn.2 c hc))
    unfold NodeInv
    refine ⟨fun h => (by cases h), hn.1.2.1, ?_⟩
    intro s' m' hs' hm'
    rw [scope_mk, Option.some.injEq] at hs'
    subst hs'
    rw [hasMethod_iff, methods_mk] at hm'
    rcases (or_and_ne_zero _ _ _).1 hm' with h | h
    · rcases hsc rfl with hnone | hsome
      · rw [hn.1.1 hnone, Nat.zero_and] at h
        exact absurd rfl h
      · obtain ⟨u, hu⟩ := hn.1.2.2 s m' hsome ((hasMethod_iff _ _).2 h)
        exact ⟨u, hsub _ hu⟩
    · rw [← bitFieldForMethod_inj _ _ h]
      exact ⟨uri, List.mem_cons_self _ _⟩
  | cons comp rest ih =>
    intro n hn _
    rw [addComponents_cons]
    rw [allNodes_iff] at hn
    refine AllNodes.mk _ _ _ _ ?_ ?_
    · have := nodeInv_mono hsub n hn.1
      exact this
    · intro c' hc'
      rcases mem_descend _ _ _ _ _ _ hc' with h | ⟨c, hc, hr, h⟩ | h
      · exact allNodes_mono (nodeInv_mono hsub) (hn.2 c' h)
      · rw [h]
        refine ih c (hn.2 c hc) (fun hrest => ?_)
        rcases reusable_scope _ _ _ _ hr with h1 | h1
        · exact Or.inl h1
        · exact Or.inr h1.1
      · rw [h]
        exact ih _ (nodeInv_emptyNode calls _) (fun _ => Or.inl rfl)

theorem components_ne_nil (uri : GoString) : components uri ≠ [] := by
  simp [components, Split]

theorem addRoutes_append (t : ScopeRouteTree) (xs ys : List (GoString × GoString × Int)) :
    addRoutes t (xs ++ ys) = addRoutes (addRoutes t xs) ys := by
  simp [addRoutes, List.foldl_append]

theorem addRoutes_cons (t : ScopeRouteTree) (c : GoString × GoString × Int)
    (ys : List (GoString × GoString × Int)) :
    addRoutes t (c :: ys) = addRoutes (t.AddRoute c.1 c.2.1 c.2.2) ys := rfl

theorem addRoute_inv (calls : List (GoString × GoString × Int)) (t : ScopeRouteTree)
    (m uri : GoString) (s : Int) (h : AllNodes (NodeInv calls) t.root) :
    AllNodes (NodeInv ((m, uri, s) :: calls)) (t.AddRoute m uri s).root :=
  addComponents_inv calls m uri s (components uri) t.root h
    (fun h0 => absurd h0 (components_ne_nil uri))

theorem addRoutes_inv_from (calls : List (GoString × GoString × Int)) :
    ∀ (t : ScopeRouteTree) (calls0 : List (GoString × GoString × Int)),
      AllNodes (NodeInv calls0) t.root →
      AllNodes (NodeInv (calls0 ++ calls)) (addRoutes t calls).root := by
  induction calls with
  | nil => intro t calls0 h; simpa [addRoutes] using h
  | cons c rest ih =>
    intro t calls0 h
    rw [addRoutes_cons]
    have h1 := addRoute_inv calls0 t c.1 c.2.1 c.2.2 h
    have h2 := ih _ _ h1
    refine allNodes_mono (nodeInv_mono ?_) h2
    intro x hx
    simp only [List.mem_append, List.mem_cons] at hx ⊢
    tauto

theorem newTree_inv : AllNodes (NodeInv []) NewScopeRouteTree.root := by
  refine AllNodes.mk _ _ _ _ ?_ (fun c hc => by cases hc)
  unfold NodeInv
  exact ⟨fun _ => rfl, fun lit h => (by cases h), fun s m h => (by cases h)⟩

theorem addRoutes_inv (calls : List (GoString × GoString × Int)) :
    AllNodes (NodeInv calls) (addRoutes NewScopeRouteTree calls).root := by
  simpa using addRoutes_inv_from calls NewScopeRouteTree [] newTree_inv

/-! ## The matching loops -/

theorem safe_iff (n : node) :
    Safe n ↔ (n.scope = none → n.methods = 0) ∧ ∀ c ∈ n.children, Safe c :=
  allNodes_iff _ n

theorem safe_hasMethod (m : GoString) (n : node) (hs : Safe n) (hm : n.hasMethod m = true) :
    n.scope ≠ none := by
  intro h
  have := hasMethod_of_methods_zero n m (((safe_iff n).1 hs).1 h)
  rw [hm] at this
  cases this

theorem hits_cons_hit (m : GoString) (c : node) (rest : List node) (s : Int)
    (h1 : (c.urlComponent == none && c.hasMethod m) = true) (hsc : c.scope = some s) :
    hits m (c :: rest) = s :: hits m rest := by
  unfold hits
  rw [List.filterMap_cons_some]
  rw [if_pos h1, hsc]

theorem hits_cons_skip (m : GoString) (c : node) (rest : List node)
    (h1 : ¬ (c.urlComponent == none && c.hasMethod m) = true) :
    hits m (c :: rest) = hits m rest := by
  unfold hits
  rw [List.filterMap_cons_none]
  rw [if_neg h1]

theorem conts_cons_keep (m comp : GoString) (c : node) (rest : List node)
    (h1 : ¬ (c.urlComponent == none && c.hasMethod m) = true)
    (h2 : (c.urlComponent == none || c.urlComponent == some comp) = true) :
    conts m comp (c :: rest) = c :: conts m comp rest := by
  unfold conts
  rw [List.filter_cons_of_pos]
  rw [Bool.not_eq_true] at h1
  rw [h1, h2]
  rfl

theorem conts_cons_skip (m comp : GoString) (c : node) (rest : List node)
    (h : (c.urlComponent == none && c.hasMethod m) = true ∨
      ¬ (c.urlComponent == none || c.urlComponent == some comp) = true) :
    conts m comp (c :: rest) = conts m comp rest := by
  unfold conts
  rw [List.filter_cons_of_neg]
  rcases h with h | h
  · rw [h]; simp
  · rw [Bool.not_eq_true] at h
    rw [h]; simp

theorem scanChildren_eq (m comp : GoString) (cs : List node) :
    ∀ acc : List Int × List node, (∀ c ∈ cs, Safe c) →
      scanChildren m comp cs acc = some (acc.1 ++ hits m cs, acc.2 ++ conts m comp cs) := by
  induction cs with
  | nil => intro acc _; simp [scanChildren, hits, conts]
  | cons c rest ih =>
    intro acc hs
    obtain ⟨sc, nc⟩ := acc
    have hrest : ∀ c ∈ rest, Safe c := fun x hx => hs x (List.mem_cons_of_mem _ hx)
    unfold scanChildren
    by_cases h1 : (c.urlComponent == none && c.hasMethod m) = true
    · rw [if_pos h1]
      have hm : c.hasMethod m = true := by
        simp only [Bool.and_eq_true] at h1
        exact h1.2
      cases hsc : c.scope with
      | none => exact absurd hsc (safe_hasMethod m c (hs c (List.mem_cons_self _ _)) hm)
      | some s =>
        simp only
        rw [ih _ hrest, hits_cons_hit m c rest s h1 hsc, conts_cons_skip m comp c rest (Or.inl h1)]
        simp
    · rw [if_neg h1]
      by_cases h2 : (c.urlComponent == none || c.urlComponent == some comp) = true
      · rw [if_pos h2, ih _ hrest, hits_cons_skip m c rest h1, conts_cons_keep m comp c rest h1 h2]
        simp
      · rw [if_neg h2, ih _ hrest, hits_cons_skip m c rest h1,
          conts_cons_skip m comp c rest (Or.inr h2)]

theorem scanCandidates_eq (m comp : GoString) (cands : List node) :
    ∀ acc : List Int × List node, (∀ n ∈ cands, Safe n) →
      scanCandidates m comp cands acc =
        some (acc.1 ++ cands.flatMap (fun n => hits m n.children),
          acc.2 ++ cands.flatMap (fun n => conts m comp n.children)) := by
  induction cands with
  | nil => intro acc _; simp [scanCandidates]
  | cons n rest ih =>
    intro acc hs
    have hn := ((safe_iff n).1 (hs n (List.mem_cons_self _ _))).2
    unfold scanCandidates
    rw [scanChildren_eq m comp n.children acc hn]
    simp only
    rw [ih _ (fun x hx => hs x (List.mem_cons_of_mem _ hx))]
    simp [List.flatMap_cons, List.append_assoc]

theorem mem_hits (m : GoString) (cs : List node) (x : Int) :
    x ∈ hits m cs ↔
      ∃ c ∈ cs, c.urlComponent = none ∧ c.hasMethod m = true ∧ c.scope = some x := by
  simp only [hits, List.mem_filterMap]
  constructor
  · rintro ⟨c, hc, h⟩
    split_ifs at h with h1
    simp only [Bool.and_eq_true, beq_iff_eq] at h1
    exact ⟨c, hc, h1.1, h1.2, h⟩
  · rintro ⟨c, hc, h1, h2, h3⟩
    refine ⟨c, hc, ?_⟩
    rw [if_pos (by simp [h1, h2])]
    exact h3

theorem mem_conts (m comp : GoString) (cs : List node) (c : node) :
    c ∈ conts m comp cs ↔
      c ∈ cs ∧ ¬ (c.urlComponent = none ∧ c.hasMethod m = true) ∧
        (c.urlComponent = none ∨ c.urlComponent = some comp) := by
  unfold conts
  rw [List.mem_filter]
  simp only [Bool.and_eq_true, Bool.or_eq_true, beq_iff_eq, Bool.not_eq_true', Bool.not_eq_true,
    Bool.and_eq_false_iff, not_and]
  constructor
  · rintro ⟨h1, h2, h3⟩
    refine ⟨h1, ?_, h3⟩
    intro hu
    rcases h2 with h2 | h2
    · rw [hu] at h2; simp at h2
    · simpa using h2
  · rintro ⟨h1, h2, h3⟩
    refine ⟨h1, ?_, h3⟩
    by_cases hu : c.urlComponent = none
    · right; simpa using h2 hu
    · left; simpa using hu

theorem mem_collect (m : GoString) (cands : List node) :
    ∀ (sc : List Int) (x : Int), x ∈ collect m cands sc ↔
      x ∈ sc ∨ ∃ n ∈ cands, n.hasMethod m = true ∧ n.scope = some x := by
  induction cands with
  | nil => intro sc x; simp [collect]
  | cons n rest ih =>
    intro sc x
    unfold collect
    cases hsc : n.scope with
    | none =>
      have : (n.hasMethod m && none != (none : Option Int)) = false := by simp
      simp only [this, Bool.false_eq_true, if_false, ih]
      simp [hsc]
    | some s =>
      by_cases hm : n.hasMethod m = true
      · rw [if_pos (by simp [hm])]
        simp only
        rw [ih]
        have e : (s = x) = (x = s) := propext eq_comm
        simp only [List.mem_append, List.mem_singleton, List.mem_cons, exists_eq_or_imp, hsc,
          hm, Option.some.injEq, true_and, List.not_mem_nil, or_false, e]
        tauto
      · rw [if_neg (by simp [hm])]
        rw [ih]
        simp [hm]

theorem safe_of_allNodes {P : node → Prop}
    (hP : ∀ n, P n → n.scope = none → n.methods = 0) {n : node} (h : AllNodes P n) : Safe n :=
  allNodes_mono hP h

theorem safe_of_nodeInv {calls : List (GoString × GoString × Int)} {n : node}
    (h : AllNodes (NodeInv calls) n) : Safe n :=
  safe_of_allNodes (fun _ hx => hx.1) h

theorem getMatchingScopes_eq (t : ScopeRouteTree) (m url : GoString) :
    t.GetMatchingScopes m url = matchComponents m (components url) [] [t.root] := by
  unfold ScopeRouteTree.GetMatchingScopes
  rw [if_neg]
  intro h
  exact components_ne_nil url (List.length_eq_zero.1 h)

/-- Soundness of the matching loops: on candidates whose nodes satisfy `P`, the result
exists (no panic) and holds only scopes of nodes that have the method. -/
theorem matchComponents_sound (m : GoString) (P : node → Prop) (G : Int → Prop)
    (hP : ∀ n, P n → (n.scope = none → n.methods = 0) ∧
      ∀ s, n.scope = some s → n.hasMethod m = true → G s)
    (comps : List GoString) :
    ∀ (sc : List Int) (cands : List node), (∀ n ∈ cands, AllNodes P n) → (∀ x ∈ sc, G x) →
      ∃ l, matchComponents m comps sc cands = some l ∧ ∀ x ∈ l, G x := by
  induction comps with
  | nil =>
    intro sc cands hc hsc
    refine ⟨_, rfl, ?_⟩
    intro x hx
    rcases (mem_collect m cands sc x).1 hx with h | ⟨n, hn, hm, hs⟩
    · exact hsc x h
    · exact (hP n ((allNodes_iff P n).1 (hc n hn)).1).2 x hs hm
  | cons u us ih =>
    intro sc cands hc hsc
    unfold matchComponents
    rw [scanCandidates_eq m u cands (sc, [])
      (fun n hn => safe_of_allNodes (fun x hx => (hP x hx).1) (hc n hn))]
    simp only [List.nil_append]
    apply ih
    · intro c hcm
      obtain ⟨n, hn, hcn⟩ := List.mem_flatMap.1 hcm
      exact ((allNodes_iff P n).1 (hc n hn)).2 c ((mem_conts m u _ c).1 hcn).1
    · intro x hx
      rcases List.mem_append.1 hx with h | h
      · exact hsc x h
      · obtain ⟨n, hn, hxn⟩ := List.mem_flatMap.1 h
        obtain ⟨c, hc1, _, hc3, hc4⟩ := (mem_hits m _ x).1 hxn
        have hPc := ((allNodes_iff P c).1 (((allNodes_iff P n).1 (hc n hn)).2 c hc1)).1
        exact (hP c hPc).2 x hc4 hc3

/-- Completeness of the matching loops: a scope already found, or reachable from a
candidate, is in the result. -/
theorem matchComponents_complete (m : GoString) (s : Int) (wild : Bool)
    (comps : List GoString) :
    ∀ (sc : List Int) (cands : List node), (∀ n ∈ cands, Safe n) →
      (s ∈ sc ∨ ∃ n ∈ cands, Reach m s wild n comps) →
      ∃ l, matchComponents m comps sc cands = some l ∧ s ∈ l := by
  induction comps with
  | nil =>
    intro sc cands _ h
    refine ⟨_, rfl, (mem_collect m cands sc s).2 ?_⟩
    rcases h with h | ⟨n, hn, hr⟩
    · exact Or.inl h
    · cases hr with
      | here _ hm hs => exact Or.inr ⟨n, hn, hm, hs⟩
  | cons u us ih =>
    intro sc cands hc h
    unfold matchComponents
    rw [scanCandidates_eq m u cands (sc, []) hc]
    simp only [List.nil_append]
    apply ih
    · intro c hcm
      obtain ⟨n, hn, hcn⟩ := List.mem_flatMap.1 hcm
      exact ((safe_iff n).1 (hc n hn)).2 c ((mem_conts m u _ c).1 hcn).1
    · rcases h with h | ⟨n, hn, hr⟩
      · exact Or.inl (List.mem_append_left _ h)
      · cases hr with
        | greedy _ c _ _ hc1 hc2 hc3 hc4 =>
          exact Or.inl (List.mem_append_right _
            (List.mem_flatMap.2 ⟨n, hn, (mem_hits m _ s).2 ⟨c, hc1, hc2, hc3, hc4⟩⟩))
        | step _ c _ _ hc1 hc2 hc3 =>
          refine Or.inr ⟨c, List.mem_flatMap.2 ⟨n, hn, (mem_conts m u _ c).2 ⟨hc1, ?_, ?_⟩⟩, hc3⟩
          · rintro ⟨h1, h2⟩
            rcases hc2 with h | ⟨_, _, h⟩
            · rw [h1] at h; cases h
            · rw [h2] at h; cases h
          · rcases hc2 with h | ⟨_, h, _⟩
            · exact Or.inr h
            · exact Or.inl h

/-! ## Insertion makes the route reachable, and later insertions keep it so -/

theorem hasMethod_addComponents_nil (m m' : GoString) (s : Int) (n : node) :
    (addComponents m s [] n).hasMethod m' = true ↔
      (n.hasMethod m' = true ∨ bitFieldForMethod m &&& bitFieldForMethod m' ≠ 0) := by
  rw [addComponents_nil, hasMethod_iff, methods_mk, or_and_ne_zero, hasMethod_iff]

theorem terminal_persist (m m' : GoString) (s s' : Int) (comps : List GoString) (n : node)
    (hm : n.hasMethod m = true) (hs : n.scope = some s)
    (hc : comps = [] → n.scope = none ∨ n.scope = some s') :
    (addComponents m' s' comps n).hasMethod m = true ∧
      (addComponents m' s' comps n).scope = some s := by
  cases comps with
  | nil =>
    refine ⟨(hasMethod_addComponents_nil m' m s' n).2 (Or.inl hm), ?_⟩
    rw [addComponents_nil, scope_mk]
    rcases hc rfl with h | h
    · rw [hs] at h; cases h
    · rw [hs] at h; exact h.symm
  | cons c rest =>
    rw [addComponents_cons]
    refine ⟨?_, hs⟩
    rw [hasMethod_iff, methods_mk, ← hasMethod_iff]
    exact hm

theorem noMethod_persist (m m' : GoString) (s' : Int) (comps : List GoString) (n : node)
    (hm : n.hasMethod m = false)
    (hd : bitFieldForMethod m' &&& bitFieldForMethod m = 0) :
    (addComponents m' s' comps n).hasMethod m = false := by
  cases comps with
  | nil =>
    rw [← Bool.not_eq_true, hasMethod_addComponents_nil]
    rintro (h | h)
    · rw [hm] at h; cases h
    · exact h hd
  | cons c rest =>
    rw [addComponents_cons, ← Bool.not_eq_true, hasMethod_iff, methods_mk, ← hasMethod_iff,
      hm]
    simp

theorem addComponents_preserves_reach (m m' : GoString) (s s' : Int) (wild : Bool)
    (hd : wild = true → bitFieldForMethod m' &&& bitFieldForMethod m = 0)
    (n : node) (us : List GoString) (h : Reach m s wild n us) :
    ∀ comps : List GoString, (comps = [] → n.scope = none ∨ n.scope = some s') →
      Reach m s wild (addComponents m' s' comps n) us := by
  induction h with
  | here n hm hs =>
    intro comps hc
    obtain ⟨h1, h2⟩ := terminal_persist m m' s s' comps n hm hs hc
    exact Reach.here _ h1 h2
  | greedy n c u us hc1 hc2 hc3 hc4 =>
    intro comps _
    cases comps with
    | nil =>
      rw [addComponents_nil]
      exact Reach.greedy _ c u us (by rw [children_mk]; exact hc1) hc2 hc3 hc4
    | cons c0 rest =>
      rw [addComponents_cons]
      rcases descend_keeps (TrimSpace c0) rest.isEmpty s' (addComponents m' s' rest)
          n.children c hc1 with h | ⟨hr, h⟩
      · exact Reach.greedy _ c u us (by rw [children_mk]; exact h) hc2 hc3 hc4
      · have hcond : rest = [] → c.scope = none ∨ c.scope = some s' := by
          intro _
          rcases reusable_scope _ _ _ _ hr with h1 | h1
          · exact Or.inl h1
          · exact Or.inr h1.1
        obtain ⟨h1, h2⟩ := terminal_persist m m' s s' rest c hc3 hc4 hcond
        exact Reach.greedy _ _ u us (by rw [children_mk]; exact h)
          (by rw [addComponents_urlComponent]; exact hc2) h1 h2
  | step n c u us hc1 hc2 _ ih =>
    intro comps _
    cases comps with
    | nil =>
      rw [addComponents_nil]
      exact Reach.step _ c u us (by rw [children_mk]; exact hc1) hc2 ‹Reach m s wild c us›
    | cons c0 rest =>
      rw [addComponents_cons]
      rcases descend_keeps (TrimSpace c0) rest.isEmpty s' (addComponents m' s' rest)
          n.children c hc1 with h | ⟨hr, h⟩
      · exact Reach.step _ c u us (by rw [children_mk]; exact h) hc2 ‹Reach m s wild c us›
      · have hcond : rest = [] → c.scope = none ∨ c.scope = some s' := by
          intro _
          rcases reusable_scope _ _ _ _ hr with h1 | h1
          · exact Or.inl h1
          · exact Or.inr h1.1
        refine Reach.step _ _ u us (by rw [children_mk]; exact h) ?_ (ih rest hcond)
        rw [addComponents_urlComponent]
        rcases hc2 with h2 | ⟨hw, h2, h3⟩
        · exact Or.inl h2
        · exact Or.inr ⟨hw, h2, noMethod_persist m m' s' rest c h3 (hd hw)⟩

theorem descend_target_facts (calls : List (GoString × GoString × Int)) (comp : GoString)
    (fin : Bool) (s : Int) (walk : node → node) (cs : List node)
    (hcs : ∀ c ∈ cs, AllNodes (NodeInv calls) c) :
    ∃ c0, walk c0 ∈ descend comp fin s walk cs ∧ AllNodes (NodeInv calls) c0 ∧
      (c0.scope = none ∨ (c0.scope = some s ∧ fin = true)) ∧
      ((isWildCard comp = true ∧ c0.urlComponent = none) ∨
        (isWildCard comp = false ∧ c0.urlComponent = some comp)) := by
  obtain ⟨c0, h1, h2⟩ := descend_target comp fin s walk cs
  refine ⟨c0, h1, ?_⟩
  rcases h2 with ⟨hmem, hr⟩ | h2
  · refine ⟨hcs c0 hmem, reusable_scope _ _ _ _ hr, ?_⟩
    rcases reusable_segment _ _ _ _ hr with h | h
    · exact Or.inl h
    · exact Or.inr ⟨((allNodes_iff _ c0).1 (hcs c0 hmem)).1.2.1 comp h, h⟩
  · subst h2
    refine ⟨nodeInv_emptyNode calls comp, Or.inl rfl, ?_⟩
    by_cases hw : isWildCard comp = true
    · left
      refine ⟨hw, ?_⟩
      unfold emptyNode
      rw [urlComponent_mk, if_pos hw]
    · right
      refine ⟨by simpa using hw, ?_⟩
      unfold emptyNode
      rw [urlComponent_mk, if_neg hw]

theorem addComponents_reach (calls : List (GoString × GoString × Int)) (m : GoString)
    (s : Int) (wild : Bool) (hm : bitFieldForMethod m ≠ 0) (comps us : List GoString)
    (hcov : Covers comps us) :
    ∀ n : node, AllNodes (NodeInv calls) n →
      (comps = [] → n.scope = none ∨ n.scope = some s) →
      (wild = false → ∀ c ∈ comps.dropLast, isWildCard (TrimSpace c) = false) →
      Reach m s wild (addComponents m s comps n) us := by
  have hterm : ∀ c0 : node, (addComponents m s [] c0).hasMethod m = true ∧
      (addComponents m s [] c0).scope = some s := fun c0 =>
    ⟨(hasMethod_addComponents_nil m m s c0).2 (Or.inr (bitFieldForMethod_and_self m hm)), rfl⟩
  induction hcov with
  | nil =>
    intro n _ _ _
    exact Reach.here _ (hterm n).1 (hterm n).2
  | greedy c u us hw =>
    intro n hn _ _
    rw [addComponents_cons]
    obtain ⟨c0, h1, _, _, h4⟩ := descend_target_facts calls (TrimSpace c) ([] : List GoString).isEmpty
      s (addComponents m s []) n.children ((allNodes_iff _ n).1 hn).2
    have hu : c0.urlComponent = none := by
      rcases h4 with h | h
      · exact h.2
      · rw [hw] at h; cases h.1
    exact Reach.greedy _ _ u us (by rw [children_mk]; exact h1)
      (by rw [addComponents_urlComponent]; exact hu) (hterm c0).1 (hterm c0).2
  | cons c rest u us hseg _ ih =>
    intro n hn _ hlit
    rw [addComponents_cons]
    obtain ⟨c0, h1, h2, h3, h4⟩ := descend_target_facts calls (TrimSpace c) rest.isEmpty
      s (addComponents m s rest) n.children ((allNodes_iff _ n).1 hn).2
    have hc0 : rest = [] → c0.scope = none ∨ c0.scope = some s := by
      intro _
      rcases h3 with h | h
      · exact Or.inl h
      · exact Or.inr h.1
    have hlit' : wild = false → ∀ x ∈ rest.dropLast, isWildCard (TrimSpace x) = false := by
      intro hw x hx
      apply hlit hw x
      cases rest with
      | nil => cases hx
      | cons r rs =>
        rw [List.dropLast_cons_of_ne_nil (List.cons_ne_nil _ _)]
        exact List.mem_cons_of_mem _ hx
    have hreach := ih c0 h2 hc0 hlit'
    have hmem : addComponents m s rest c0 ∈
        (node.mk n.urlComponent
          (descend (TrimSpace c) rest.isEmpty s (addComponents m s rest) n.children)
          n.methods n.scope).children := by
      rw [children_mk]; exact h1
    rcases h4 with ⟨hw, hu⟩ | ⟨hw, hu⟩
    · cases rest with
      | nil =>
        exact Reach.greedy _ _ u us hmem (by rw [addComponents_urlComponent]; exact hu)
          (hterm c0).1 (hterm c0).2
      | cons r rs =>
        have hwild : wild = true := by
          cases hwd : wild with
          | true => rfl
          | false =>
            have := hlit hwd c (by
              rw [List.dropLast_cons_of_ne_nil (List.cons_ne_nil _ _)]
              exact List.mem_cons_self _ _)
            rw [hw] at this; cases this
        have hsc : c0.scope = none := by
          rcases h3 with h | h
          · exact h
          · cases h.2
        have hzero := ((allNodes_iff _ c0).1 h2).1.1 hsc
        refine Reach.step _ _ u us hmem (Or.inr ⟨hwild, ?_, ?_⟩) hreach
        · rw [addComponents_urlComponent]; exact hu
        · rw [addComponents_cons, ← Bool.not_eq_true, hasMethod_iff, methods_mk, hzero]
          simp
    · refine Reach.step _ _ u us hmem (Or.inl ?_) hreach
      rw [addComponents_urlComponent, hu]
      rcases hseg with h | h
      · rw [hw] at h; cases h
      · rw [h]

theorem AddRoute_reach (calls : List (GoString × GoString × Int)) (t : ScopeRouteTree)
    (m uri : GoString) (s : Int) (wild : Bool) (us : List GoString)
    (ht : AllNodes (NodeInv calls) t.root) (hm : bitFieldForMethod m ≠ 0)
    (hcov : Covers (components uri) us)
    (hlit : wild = false → ∀ c ∈ (components uri).dropLast, isWildCard (TrimSpace c) = false) :
    Reach m s wild (t.AddRoute m uri s).root us :=
  addComponents_reach calls m s wild hm (components uri) us hcov t.root ht
    (fun h => absurd h (components_ne_nil uri)) hlit

theorem addRoutes_preserves_reach (m : GoString) (s : Int) (wild : Bool)
    (us : List GoString) (later : List (GoString × GoString × Int))
    (hlater : wild = true → ∀ c ∈ later, c.1 ≠ m) :
    ∀ t : ScopeRouteTree, Reach m s wild t.root us →
      Reach m s wild (addRoutes t later).root us := by
  induction later with
  | nil => intro t h; exact h
  | cons c rest ih =>
    intro t h
    rw [addRoutes_cons]
    apply ih (fun hw x hx => hlater hw x (List.mem_cons_of_mem _ hx))
    apply addComponents_preserves_reach m c.1 s c.2.2 wild _ t.root us h
    · intro h0
      exact absurd h0 (components_ne_nil _)
    · intro hw
      by_contra hne
      exact hlater hw c (List.mem_cons_self _ _) (bitFieldForMethod_inj _ _ hne)

theorem matched_of_reach (t : ScopeRouteTree) (m url : GoString) (s : Int) (wild : Bool)
    (hs : Safe t.root) (hr : Reach m s wild t.root (components url)) :
    ∃ l, t.GetMatchingScopes m url = some l ∧ s ∈ l := by
  rw [getMatchingScopes_eq]
  apply matchComponents_complete m s wild (components url) [] [t.root]
  · intro n hn
    rw [List.mem_singleton] at hn
    rw [hn]; exact hs
  · exact Or.inr ⟨t.root, List.mem_singleton_self _, hr⟩

theorem covers_of_forall₂ (comps us : List GoString)
    (h : List.Forall₂ (fun c u => isWildCard (TrimSpace c) = true ∨ u = TrimSpace c) comps us) :
    Covers comps us := by
  induction h with
  | nil => exact Covers.nil
  | cons h _ ih => exact Covers.cons _ _ _ _ h ih

theorem covers_prefix_star (P rest : List GoString) (hrest : rest ≠ []) :
    Covers (P ++ [['*']]) (P.map TrimSpace ++ rest) := by
  induction P with
  | nil =>
    cases rest with
    | nil => exact absurd rfl hrest
    | cons r rs => exact Covers.greedy _ r rs (by decide)
  | cons p ps ih => exact Covers.cons _ _ _ _ (Or.inr rfl) ih

/-- The route of a call stays matched under the later calls. -/
theorem route_matched (before after : List (GoString × GoString × Int))
    (m uri : GoString) (s : Int) (wild : Bool) (url : GoString)
    (hm : bitFieldForMethod m ≠ 0) (hcov : Covers (components uri) (components url))
    (hlit : wild = false → ∀ c ∈ (components uri).dropLast, isWildCard (TrimSpace c) = false)
    (hlater : wild = true → ∀ c ∈ after, c.1 ≠ m) :
    ∃ l, (addRoutes NewScopeRouteTree (before ++ (m, uri, s) :: after)).GetMatchingScopes
        m url = some l ∧ s ∈ l := by
  apply matched_of_reach _ m url s wild (safe_of_nodeInv (addRoutes_inv _))
  rw [addRoutes_append, addRoutes_cons]
  apply addRoutes_preserves_reach m s wild _ after hlater
  exact AddRoute_reach before _ m uri s wild _ (addRoutes_inv before) hm hcov hlit

theorem placed_iff (calls : List (GoString × GoString × Int)) (path : List (Option GoString))
    (n : node) :
    Placed calls path n ↔
      (∀ s m, n.scope = some s → n.hasMethod m = true →
        ∃ uri, (m, uri, s) ∈ calls ∧ (components uri).map label = path) ∧
      ∀ c ∈ n.children, Placed calls (path ++ [c.urlComponent]) c := by
  constructor
  · intro h
    cases h with
    | mk _ u cs x sc h1 h2 => exact ⟨h1, h2⟩
  · rintro ⟨h1, h2⟩
    cases n with
    | mk u cs x sc => exact Placed.mk path u cs x sc h1 h2

theorem placed_mono {calls calls' : List (GoString × GoString × Int)}
    (hsub : ∀ c ∈ calls, c ∈ calls') {path : List (Option GoString)} {n : node}
    (h : Placed calls path n) : Placed calls' path n := by
  induction h with
  | mk path u cs x sc h1 _ ih =>
    refine Placed.mk path u cs x sc ?_ ih
    intro s m hs hm
    obtain ⟨uri, hu, hl⟩ := h1 s m hs hm
    exact ⟨uri, hsub _ hu, hl⟩

theorem placed_emptyNode (calls : List (GoString × GoString × Int))
    (path : List (Option GoString)) (comp : GoString) : Placed calls path (emptyNode comp) :=
  Placed.mk path _ _ _ _ (fun s m h => by cases h) (fun c hc => by cases hc)

theorem addComponents_placed (calls : List (GoString × GoString × Int)) (m uri : GoString)
    (s : Int) (comps : List GoString) :
    ∀ (n : node) (path : List (Option GoString)) (done : List GoString),
      Placed calls path n → AllNodes (NodeInv calls) n →
      done.map label = path → done ++ comps = components uri →
      (comps = [] → n.scope = none ∨ n.scope = some s) →
      Placed ((m, uri, s) :: calls) path (addComponents m s comps n) := by
  have hsub : ∀ c ∈ calls, c ∈ (m, uri, s) :: calls := fun c hc => List.mem_cons_of_mem _ hc
  induction comps with
  | nil =>
    intro n path done hp hn hdone hsplit hsc
    rw [addComponents_nil]
    rw [placed_iff] at hp
    rw [allNodes_iff] at hn
    refine Placed.mk path _ _ _ _ ?_ (fun c hc => placed_mono hsub (hp.2 c hc))
    intro s' m' hs' hm'
    rw [Option.some.injEq] at hs'
    subst hs'
    rw [hasMethod_iff, methods_mk] at hm'
    rcases (or_and_ne_zero _ _ _).1 hm' with h | h
    · rcases hsc rfl with hnone | hsome
      · rw [hn.1.1 hnone, Nat.zero_and] at h
        exact absurd rfl h
      · obtain ⟨u, hu, hl⟩ := hp.1 s m' hsome ((hasMethod_iff _ _).2 h)
        exact ⟨u, hsub _ hu, hl⟩
    · rw [← bitFieldForMethod_inj _ _ h]
      refine ⟨uri, List.mem_cons_self _ _, ?_⟩
      rw [← hsplit, List.append_nil, hdone]
  | cons comp rest ih =>
    intro n path done hp hn hdone hsplit _
    rw [addComponents_cons]
    rw [placed_iff] at hp
    rw [allNodes_iff] at hn
    refine Placed.mk path _ _ _ _ ?_ ?_
    · intro s' m' hs' hm'
      rw [hasMethod_iff, methods_mk, ← hasMethod_iff] at hm'
      obtain ⟨u, hu, hl⟩ := hp.1 s' m' hs' hm'
      exact ⟨u, hsub _ hu, hl⟩
    · intro c' hc'
      have hdone' : ∀ c0 : node, c0.urlComponent = label comp →
          (done ++ [comp]).map label = path ++ [c0.urlComponent] := by
        intro c0 h0
        rw [List.map_append, hdone, h0]
        rfl
      have hsplit' : (done ++ [comp]) ++ rest = components uri := by
        rw [List.append_assoc]; exact hsplit
      rcases mem_descend _ _ _ _ _ _ hc' with h | ⟨c, hc, hr, h⟩ | h
      · exact placed_mono hsub (hp.2 c' h)
      · rw [h, addComponents_urlComponent]
        have hlab : c.urlComponent = label comp := by
          unfold label
          rcases reusable_segment _ _ _ _ hr with h1 | h1
          · rw [if_pos h1.1]; exact h1.2
          · rw [if_neg]
            · exact h1
            · have := ((allNodes_iff _ c).1 (hn.2 c hc)).1.2.1 _ h1
              rw [this]; simp
        refine ih c _ (done ++ [comp]) (hp.2 c hc) (hn.2 c hc) (hdone' c hlab) hsplit'
          (fun _ => ?_)
        rcases reusable_scope _ _ _ _ hr with h1 | h1
        · exact Or.inl h1
        · exact Or.inr h1.1
      · rw [h, addComponents_urlComponent]
        have hlab : (emptyNode (TrimSpace comp)).urlComponent = label comp := rfl
        exact ih _ _ (done ++ [comp]) (placed_emptyNode calls _ _)
          (nodeInv_emptyNode calls _) (hdone' _ hlab) hsplit' (fun _ => Or.inl rfl)

theorem addRoute_placed (calls : List (GoString × GoString × Int)) (t : ScopeRouteTree)
    (m uri : GoString) (s : Int) (hp : Placed calls [] t.root)
    (hn : AllNodes (NodeInv calls) t.root) :
    Placed ((m, uri, s) :: calls) [] (t.AddRoute m uri s).root :=
  addComponents_placed calls m uri s (components uri) t.root [] [] hp hn rfl rfl
    (fun h => absurd h (components_ne_nil uri))

theorem addRoutes_placed_from (calls : List (GoString × GoString × Int)) :
    ∀ (t : ScopeRouteTree) (calls0 : List (GoString × GoString × Int)),
      Placed calls0 [] t.root → AllNodes (NodeInv calls0) t.root →
      Placed (calls0 ++ calls) [] (addRoutes t calls).root := by
  induction calls with
  | nil => intro t calls0 h _; simpa [addRoutes] using h
  | cons c rest ih =>
    intro t calls0 h hn
    rw [addRoutes_cons]
    have h1 := addRoute_placed calls0 t c.1 c.2.1 c.2.2 h hn
    have h2 := ih _ _ h1 (addRoute_inv calls0 t c.1 c.2.1 c.2.2 hn)
    refine placed_mono ?_ h2
    intro x hx
    simp only [List.mem_append, List.mem_cons] at hx ⊢
    tauto

theorem addRoutes_placed (calls : List (GoString × GoString × Int)) :
    Placed calls [] (addRoutes NewScopeRouteTree calls).root := by
  have h0 : Placed [] [] NewScopeRouteTree.root :=
    Placed.mk [] _ _ _ _ (fun s m h => by cases h) (fun c hc => by cases hc)
  simpa using addRoutes_placed_from calls NewScopeRouteTree [] h0 newTree_inv

theorem map_label_snoc (l : List GoString) (path : List (Option GoString))
    (lab : Option GoString) (h : l.map label = path ++ [lab]) :
    ∃ done c, l = done ++ [c] ∧ done.map label = path ∧ label c = lab := by
  obtain ⟨l1, l2, h1, h2, h3⟩ := List.map_eq_append_iff.1 h
  cases l2 with
  | nil => cases h3
  | cons c rest =>
    cases rest with
    | nil =>
      simp only [List.map_cons, List.map_nil, List.cons.injEq, and_true] at h3
      exact ⟨l1, c, h1, h2, h3⟩
    | cons c' rest' => simp at h3

theorem label_none (c : GoString) (h : label c = none) : isWildCard (TrimSpace c) = true := by
  unfold label at h
  split_ifs at h with hw
  exact hw

theorem label_some (c u : GoString) (h : label c = some u) : u = TrimSpace c := by
  unfold label at h
  split_ifs at h with hw
  rw [Option.some.injEq] at h
  exact h.symm

/-- Exactness of the matching loops: whatever is in the result was already found or is
reachable from a candidate. -/
theorem matchComponents_exact (m : GoString) (s : Int) (comps : List GoString) :
    ∀ (sc : List Int) (cands : List node) (l : List Int), (∀ n ∈ cands, Safe n) →
      matchComponents m comps sc cands = some l → s ∈ l →
      s ∈ sc ∨ ∃ n ∈ cands, Reach m s true n comps := by
  induction comps with
  | nil =>
    intro sc cands l _ hl hs
    unfold matchComponents at hl
    rw [Option.some.injEq] at hl
    subst hl
    rcases (mem_collect m cands sc s).1 hs with h | ⟨n, hn, h1, h2⟩
    · exact Or.inl h
    · exact Or.inr ⟨n, hn, Reach.here n h1 h2⟩
  | cons u us ih =>
    intro sc cands l hc hl hs
    unfold matchComponents at hl
    rw [scanCandidates_eq m u cands (sc, []) hc] at hl
    simp only [List.nil_append] at hl
    have hsafe : ∀ c ∈ cands.flatMap (fun n => conts m u n.children), Safe c := by
      intro c hcm
      obtain ⟨n, hn, hcn⟩ := List.mem_flatMap.1 hcm
      exact ((safe_iff n).1 (hc n hn)).2 c ((mem_conts m u _ c).1 hcn).1
    rcases ih _ _ l hsafe hl hs with h | ⟨c, hcm, hr⟩
    · rcases List.mem_append.1 h with h | h
      · exact Or.inl h
      · obtain ⟨n, hn, hxn⟩ := List.mem_flatMap.1 h
        obtain ⟨c, hc1, hc2, hc3, hc4⟩ := (mem_hits m _ s).1 hxn
        exact Or.inr ⟨n, hn, Reach.greedy n c u us hc1 hc2 hc3 hc4⟩
    · obtain ⟨n, hn, hcn⟩ := List.mem_flatMap.1 hcm
      obtain ⟨h1, h2, h3⟩ := (mem_conts m u _ c).1 hcn
      refine Or.inr ⟨n, hn, Reach.step n c u us h1 ?_ hr⟩
      rcases h3 with h3 | h3
      · refine Or.inr ⟨rfl, h3, ?_⟩
        cases hm : c.hasMethod m with
        | false => rfl
        | true => exact absurd ⟨h3, hm⟩ h2
      · exact Or.inl h3

theorem reach_explained (calls : List (GoString × GoString × Int)) (m : GoString) (s : Int)
    (n : node) (us : List GoString) (hr : Reach m s true n us) :
    ∀ path : List (Option GoString), Placed calls path n →
      ∃ uri done comps, (m, uri, s) ∈ calls ∧ components uri = done ++ comps ∧
        done.map label = path ∧ Covers comps us := by
  induction hr with
  | here n hm hs =>
    intro path hp
    obtain ⟨uri, hu, hl⟩ := ((placed_iff calls path n).1 hp).1 s m hs hm
    exact ⟨uri, components uri, [], hu, (List.append_nil _).symm, hl, Covers.nil⟩
  | greedy n c u us hc1 hc2 hc3 hc4 =>
    intro path hp
    have hpc := ((placed_iff calls path n).1 hp).2 c hc1
    obtain ⟨uri, hu, hl⟩ := ((placed_iff calls _ c).1 hpc).1 s m hc4 hc3
    obtain ⟨done, c0, h1, h2, h3⟩ := map_label_snoc _ _ _ hl
    rw [hc2] at h3
    exact ⟨uri, done, [c0], hu, h1, h2, Covers.greedy c0 u us (label_none c0 h3)⟩
  | step n c u us hc1 hc2 _ ih =>
    intro path hp
    have hpc := ((placed_iff calls path n).1 hp).2 c hc1
    obtain ⟨uri, done', comps', hu, h1, h2, h3⟩ := ih _ hpc
    obtain ⟨done, c0, h4, h5, h6⟩ := map_label_snoc _ _ _ h2
    refine ⟨uri, done, c0 :: comps', hu, ?_, h5, Covers.cons c0 comps' u us ?_ h3⟩
    · rw [h1, h4, List.append_assoc]; rfl
    · rcases hc2 with h | ⟨_, h, _⟩
      · rw [h] at h6
        exact Or.inr (label_some c0 u h6)
      · rw [h] at h6
        exact Or.inl (label_none c0 h6)

/-- No spurious matches: in a tree built by `AddRoute` calls, the query never panics, and a
scope it returns was registered, with the queried method, by a call whose pattern covers
the URL. -/
theorem matched_only_if_covered (calls : List (GoString × GoString × Int))
    (m url : GoString) :
    ∃ l, (addRoutes NewScopeRouteTree calls).GetMatchingScopes m url = some l ∧
      ∀ s ∈ l, ∃ uri, (m, uri, s) ∈ calls ∧ Covers (components uri) (components url) := by
  have hsafe : ∀ n ∈ [(addRoutes NewScopeRouteTree calls).root], Safe n := by
    intro n hn
    rw [List.mem_singleton] at hn
    rw [hn]
    exact safe_of_nodeInv (addRoutes_inv calls)
  obtain ⟨l, hl, _⟩ := matchComponents_sound m (NodeInv calls) (fun _ => True)
    (fun n hn => ⟨hn.1, fun _ _ _ => trivial⟩) (components url) []
    [(addRoutes NewScopeRouteTree calls).root]
    (fun n hn => by
      rw [List.mem_singleton] at hn
      rw [hn]
      exact addRoutes_inv calls)
    (fun x hx => by cases hx)
  refine ⟨l, by rw [getMatchingScopes_eq]; exact hl, ?_⟩
  intro s hs
  rcases matchComponents_exact m s (components url) [] _ l hsafe hl hs with h | ⟨n, hn, hr⟩
  · cases h
  · rw [List.mem_singleton] at hn
    subst hn
    obtain ⟨uri, done, comps, hu, h1, h2, h3⟩ :=
      reach_explained calls m s _ _ hr [] (addRoutes_placed calls)
    have hd : done = [] := List.map_eq_nil_iff.1 h2
    subst hd
    rw [List.nil_append] at h1
    rw [← h1] at h3
    exact ⟨uri, hu, h3⟩

theorem covers_iff (comps us : List GoString) : Covers comps us ↔ coversB comps us = true := by
  constructor
  · intro h
    induction h with
    | nil => rfl
    | greedy c u us hw => simp [coversB, hw]
    | cons c rest u us h _ ih =>
      unfold coversB
      rw [ih]
      rcases h with h | h
      · simp [h]
      · simp [h]
  · induction comps generalizing us with
    | nil =>
      cases us with
      | nil => intro _; exact Covers.nil
      | cons u us => intro h; simp [coversB] at h
    | cons c rest ih =>
      cases us with
      | nil => intro h; simp [coversB] at h
      | cons u us =>
        intro h
        unfold coversB at h
        simp only [Bool.or_eq_true, Bool.and_eq_true, List.isEmpty_iff, beq_iff_eq] at h
        rcases h with ⟨h1, h2⟩ | ⟨h1, h2⟩
        · subst h2
          exact Covers.greedy c u us h1
        · exact Covers.cons c rest u us h1 (ih us h2)

/-! ## Lemmas for the claims on the route tree -/

theorem perm3 {α : Type} (x y z : α) (l : List α) (h : l.Perm [x, y, z]) :
    l = [x, y, z] ∨ l = [y, x, z] ∨ l = [z, y, x] ∨ l = [y, z, x] ∨ l = [z, x, y] ∨
      l = [x, z, y] := by
  have := List.mem_permutations.2 h
  simp [List.permutations, List.permutationsAux, List.permutationsAux.rec,
    List.permutationsAux2] at this
  tauto

/-- What a query returns on a tree built by `calls` when every call with the method either
covers the URL and keeps its route, or does not cover the URL. -/
theorem matches_exactly (calls : List (GoString × GoString × Int)) (m url : GoString)
    (hm : bitFieldForMethod m ≠ 0)
    (hlit : ∀ c ∈ calls, ∀ x ∈ (components c.2.1).dropLast, isWildCard (TrimSpace x) = false) :
    ∃ l, (addRoutes NewScopeRouteTree calls).GetMatchingScopes m url = some l ∧
      ∀ s, s ∈ l ↔ ∃ uri, (m, uri, s) ∈ calls ∧
        coversB (components uri) (components url) = true := by
  obtain ⟨l, hl, h⟩ := matched_only_if_covered calls m url
  refine ⟨l, hl, fun s => ⟨fun hs => ?_, ?_⟩⟩
  · obtain ⟨uri, hu, hc⟩ := h s hs
    exact ⟨uri, hu, (covers_iff _ _).1 hc⟩
  · rintro ⟨uri, hu, hc⟩
    obtain ⟨before, after, hsplit⟩ := List.append_of_mem hu
    obtain ⟨l', hl', hs⟩ := route_matched before after m uri s false url hm
      ((covers_iff _ _).2 hc) (fun _ => hlit _ hu) (fun hw => by cases hw)
    rw [← hsplit, hl, Option.some.injEq] at hl'
    rw [hl']
    exact hs

/-! ## Lemmas on the walk of `AddRoute`, by child indices -/

theorem descend_walkIndex (comp : GoString) (fin : Bool) (s : Int) (walk : node → node)
    (cs : List node) :
    (descend comp fin s walk cs)[walkIndex comp fin s cs]? =
      some (walk ((cs[walkIndex comp fin s cs]?).getD (emptyNode comp))) := by
  induction cs with
  | nil => rfl
  | cons c rest ih =>
    unfold descend walkIndex
    by_cases hr : reusable comp fin s c = true
    · rw [if_pos hr, if_pos hr, List.getElem?_cons_zero, List.getElem?_cons_zero]
      rfl
    · rw [if_neg hr, if_neg hr, List.getElem?_cons_succ, List.getElem?_cons_succ]
      exact ih

theorem descend_other (comp : GoString) (fin : Bool) (s : Int) (walk : node → node)
    (cs : List node) :
    ∀ (i : Nat) (c : node), i ≠ walkIndex comp fin s cs → cs[i]? = some c →
      (descend comp fin s walk cs)[i]? = some c := by
  induction cs with
  | nil => intro i c _ h; cases h
  | cons c0 rest ih =>
    intro i c hi h
    unfold descend
    unfold walkIndex at hi
    by_cases hr : reusable comp fin s c0 = true
    · rw [if_pos hr] at hi ⊢
      cases i with
      | zero => exact absurd rfl hi
      | succ k =>
        rw [List.getElem?_cons_succ] at h ⊢
        exact h
    · rw [if_neg hr] at hi ⊢
      cases i with
      | zero =>
        rw [List.getElem?_cons_zero] at h ⊢
        exact h
      | succ k =>
        rw [List.getElem?_cons_succ] at h ⊢
        exact ih k c (fun hk => hi (by rw [hk])) h

theorem walkIndex_reusable (comp : GoString) (fin : Bool) (s : Int) (cs : List node) :
    ∀ c : node, cs[walkIndex comp fin s cs]? = some c → reusable comp fin s c = true := by
  induction cs with
  | nil => intro c h; cases h
  | cons c0 rest ih =>
    intro c h
    unfold walkIndex at h
    by_cases hr : reusable comp fin s c0 = true
    · rw [if_pos hr, List.getElem?_cons_zero, Option.some.injEq] at h
      rw [← h]
      exact hr
    · rw [if_neg hr, List.getElem?_cons_succ] at h
      exact ih c h

theorem walk_target_facts (calls : List (GoString × GoString × Int)) (comp : GoString)
    (fin : Bool) (s : Int) (cs : List node) (hcs : ∀ c ∈ cs, AllNodes (NodeInv calls) c) :
    AllNodes (NodeInv calls) ((cs[walkIndex comp fin s cs]?).getD (emptyNode comp)) ∧
      (((cs[walkIndex comp fin s cs]?).getD (emptyNode comp)).scope = none ∨
        (((cs[walkIndex comp fin s cs]?).getD (emptyNode comp)).scope = some s ∧
          fin = true)) ∧
      ((isWildCard comp = true ∧
          ((cs[walkIndex comp fin s cs]?).getD (emptyNode comp)).urlComponent = none) ∨
        (isWildCard comp = false ∧
          ((cs[walkIndex comp fin s cs]?).getD (emptyNode comp)).urlComponent =
            some comp)) := by
  cases hc : cs[walkIndex comp fin s cs]? with
  | some c0 =>
    rw [Option.getD_some]
    have hmem : c0 ∈ cs := List.getElem?_mem hc
    have hr := walkIndex_reusable comp fin s cs c0 hc
    refine ⟨hcs c0 hmem, reusable_scope _ _ _ _ hr, ?_⟩
    rcases reusable_segment _ _ _ _ hr with h | h
    · exact Or.inl h
    · exact Or.inr ⟨((allNodes_iff _ c0).1 (hcs c0 hmem)).1.2.1 comp h, h⟩
  | none =>
    rw [Option.getD_none]
    refine ⟨nodeInv_emptyNode calls comp, Or.inl rfl, ?_⟩
    by_cases hw : isWildCard comp = true
    · left
      refine ⟨hw, ?_⟩
      unfold emptyNode
      rw [urlComponent_mk, if_pos hw]
    · right
      refine ⟨by simpa using hw, ?_⟩
      unfold emptyNode
      rw [urlComponent_mk, if_neg hw]

theorem walkPath_cons (s : Int) (comp : GoString) (rest : List GoString) (n : node) :
    walkPath s (comp :: rest) n =
      walkIndex (TrimSpace comp) rest.isEmpty s n.children ::
        walkPath s rest
          ((n.children[walkIndex (TrimSpace comp) rest.isEmpty s n.children]?).getD
            (emptyNode (TrimSpace comp))) := rfl

/-! ## Lemmas: a route stays matched unless a later route ends on its walk -/

theorem clear_reach (m : GoString) (s : Int) (path : List Nat) (us : List GoString)
    (n : node) (h : Clear m s path us n) : Reach m s true n us := by
  induction h with
  | here n hs hm => exact Reach.here n hm hs
  | step n c i path u us hget hlab hnm hclear ih =>
    have hmem : c ∈ n.children := List.getElem?_mem hget
    by_cases hw : c.urlComponent = none ∧ c.hasMethod m = true
    · have hp : path = [] := by
        by_contra hp
        exact hnm hp hw
      subst hp
      cases hclear with
      | here _ hs hm => exact Reach.greedy n c u [] hmem hw.1 hw.2 hs
    · refine Reach.step n c u us hmem ?_ ih
      rcases hlab with h | h
      · right
        refine ⟨rfl, h, ?_⟩
        by_contra hm
        exact hw ⟨h, by simpa using hm⟩
      · exact Or.inl h

theorem addComponents_clear (calls : List (GoString × GoString × Int)) (m : GoString)
    (s : Int) (hm : bitFieldForMethod m ≠ 0) (comps us : List GoString)
    (hpath : List.Forall₂ (fun c u => isWildCard (TrimSpace c) = true ∨ u = TrimSpace c)
      comps us) :
    ∀ n : node, AllNodes (NodeInv calls) n →
      Clear m s (walkPath s comps n) us (addComponents m s comps n) := by
  induction hpath with
  | nil =>
    intro n _
    exact Clear.here _ rfl
      ((hasMethod_addComponents_nil m m s n).2 (Or.inr (bitFieldForMethod_and_self m hm)))
  | @cons comp u rest us hhead _ ih =>
    intro n hn
    rw [walkPath_cons, addComponents_cons]
    rw [allNodes_iff] at hn
    obtain ⟨h1, h2, h3⟩ := walk_target_facts calls (TrimSpace comp) rest.isEmpty s
      n.children hn.2
    refine Clear.step _ _ _ _ _ _ ?_ ?_ ?_ (ih _ h1)
    · rw [children_mk]
      exact descend_walkIndex _ _ _ _ _
    · rw [addComponents_urlComponent]
      rcases h3 with ⟨_, h⟩ | ⟨hw, h⟩
      · exact Or.inl h
      · right
        rcases hhead with hh | hh
        · rw [hw] at hh
          cases hh
        · rw [h, hh]
    · intro hp hcon
      cases rest with
      | nil => exact hp rfl
      | cons r rs =>
        have hnone : ((n.children[walkIndex (TrimSpace comp) (r :: rs).isEmpty s
            n.children]?).getD (emptyNode (TrimSpace comp))).scope = none := by
          rcases h2 with h | ⟨_, h⟩
          · exact h
          · cases h
        have hzero := ((allNodes_iff _ _).1 h1).1.1 hnone
        have := hcon.2
        rw [addComponents_cons, hasMethod_iff, methods_mk, hzero, Nat.zero_and] at this
        exact this rfl

theorem addComponents_keeps_clear (m m' : GoString) (s s' : Int) (path : List Nat)
    (us : List GoString) (n : node) (h : Clear m s path us n) :
    ∀ comps : List GoString, (comps = [] → n.scope = none ∨ n.scope = some s') →
      (bitFieldForMethod m' &&& bitFieldForMethod m ≠ 0 → shadows s' comps n path = false) →
      Clear m s path us (addComponents m' s' comps n) := by
  induction h with
  | here n hs hm =>
    intro comps hc _
    have := terminal_persist m m' s s' comps n hm hs hc
    exact Clear.here _ this.2 this.1
  | step n c i path u us hget hlab hnm hclear ih =>
    intro comps _ hsh
    cases comps with
    | nil =>
      rw [addComponents_nil]
      exact Clear.step _ c i path u us (by rw [children_mk]; exact hget) hlab hnm hclear
    | cons comp rest =>
      rw [addComponents_cons]
      by_cases hi : i = walkIndex (TrimSpace comp) rest.isEmpty s' n.children
      · have hget' : n.children[walkIndex (TrimSpace comp) rest.isEmpty s' n.children]? =
            some c := by rw [← hi]; exact hget
        have hr := walkIndex_reusable _ _ _ _ c hget'
        have hnew : (descend (TrimSpace comp) rest.isEmpty s' (addComponents m' s' rest)
            n.children)[i]? = some (addComponents m' s' rest c) := by
          rw [hi, descend_walkIndex, hget', Option.getD_some]
        have hwp : walkPath s' (comp :: rest) n = i :: walkPath s' rest c := by
          rw [walkPath_cons, hget', Option.getD_some, ← hi]
        refine Clear.step _ _ i path u us (by rw [children_mk]; exact hnew)
          (by rw [addComponents_urlComponent]; exact hlab) ?_ ?_
        · intro hp hcon
          rw [addComponents_urlComponent] at hcon
          cases rest with
          | nil =>
            rcases (hasMethod_addComponents_nil m' m s' c).1 hcon.2 with h | h
            · exact hnm hp ⟨hcon.1, h⟩
            · have hw : isWildCard (TrimSpace comp) = true := by
                rcases reusable_segment _ _ _ _ hr with h1 | h1
                · exact h1.1
                · rw [hcon.1] at h1
                  cases h1
              have := hsh h
              rw [shadows, hwp] at this
              have hlen : (1 : Nat) < (i :: path).length := by
                cases path with
                | nil => exact absurd rfl hp
                | cons a b => simp
              simp [walkPath, endsInWildCard, hw, List.isPrefixOf, hlen] at this
              exact hp this
          | cons r rs =>
            have := hcon.2
            rw [addComponents_cons, hasMethod_iff, methods_mk, ← hasMethod_iff] at this
            exact hnm hp ⟨hcon.1, this⟩
        · refine ih rest (fun _ => ?_) (fun hov => ?_)
          · rcases reusable_scope _ _ _ _ hr with h | h
            · exact Or.inl h
            · exact Or.inr h.1
          · have := hsh hov
            rw [shadows, hwp] at this
            cases rest with
            | nil => simp [shadows, walkPath, endsInWildCard]
            | cons r rs =>
              simp only [shadows]
              simp only [List.isPrefixOf, beq_self_eq_true, Bool.true_and, List.length_cons,
                Nat.add_lt_add_iff_right, endsInWildCard, List.getLast?_cons_cons] at this
              simpa [endsInWildCard] using this
      · exact Clear.step _ c i path u us
          (by rw [children_mk]; exact descend_other _ _ _ _ _ i c hi hget) hlab hnm hclear

theorem addRoutes_keeps_clear (m : GoString) (s : Int) (path : List Nat) (us : List GoString)
    (later : List (GoString × GoString × Int)) :
    ∀ t : ScopeRouteTree, Clear m s path us t.root → unshadowed m path t later = true →
      Clear m s path us (addRoutes t later).root := by
  induction later with
  | nil => intro t h _; exact h
  | cons c rest ih =>
    intro t h hun
    rw [addRoutes_cons]
    unfold unshadowed at hun
    rw [Bool.and_eq_true] at hun
    refine ih _ ?_ hun.2
    refine addComponents_keeps_clear m c.1 s c.2.2 path us t.root h (components c.2.1)
      (fun h0 => absurd h0 (components_ne_nil _)) (fun hov => ?_)
    have hc : c.1 = m := bitFieldForMethod_inj _ _ hov
    have h1 := hun.1
    rw [hc] at h1
    simpa using h1

/-! ## Claims C1 to C4: the route tree -/

/-- Claim C1 as stated fails.  First conjunct: after the calls `GET /foo/*/baz` (scope 0),
`GET /foo/bar/*` (scope 1), `GET /foo/*` (scope 2), the path `/foo/bar/baz`, an instance of the
first pattern, is matched to scopes 2 and 1 only: the third call made the wildcard node of
the first route a terminal for `GET`, and the matching loop stops at such a node.  Second
conjunct: `AddRoute` trims white space from each pattern segment and the query does not, so
the pattern `/a /b` does not match the path `/a /b`. -/
theorem fidelity_counterexample :
    (addRoutes NewScopeRouteTree
        [("GET".toList, "/foo/*/baz".toList, 0), ("GET".toList, "/foo/bar/*".toList, 1),
          ("GET".toList, "/foo/*".toList, 2)]).GetMatchingScopes
        "GET".toList "/foo/bar/baz".toList = some [2, 1] ∧
      (NewScopeRouteTree.AddRoute "GET".toList "/a /b".toList 0).GetMatchingScopes
        "GET".toList "/a /b".toList = some [] := by
  decide

/-- Claim C1, amended.  For every sequence of `AddRoute` calls on a fresh tree and every call
(method, pattern, scopeIndex) in it with a known method, such that no later call of the
sequence with the same method ends at a wildcard node through which the walk of this call
passed before its last node: `GetMatchingScopes(method, url)` returns (without panic) a list
that contains scopeIndex, for every URL whose segments are, one by one, the
white-space-trimmed pattern segment where that is a literal, and any segment where it is a
wildcard (`*`, `:name` or empty after trimming). -/
theorem insertion_matching_fidelity (before after : List (GoString × GoString × Int))
    (method pattern : GoString) (scopeIndex : Int) (url : GoString)
    (hknown : bitFieldForMethod method ≠ 0)
    (hpath : List.Forall₂ (fun c u => isWildCard (TrimSpace c) = true ∨ u = TrimSpace c)
      (components pattern) (components url))
    (hkeep : unshadowed method
      (walkPath scopeIndex (components pattern) (addRoutes NewScopeRouteTree before).root)
      ((addRoutes NewScopeRouteTree before).AddRoute method pattern scopeIndex) after =
        true) :
    ∃ l, (addRoutes NewScopeRouteTree
        (before ++ (method, pattern, scopeIndex) :: after)).GetMatchingScopes method url =
          some l ∧ scopeIndex ∈ l := by
  have h0 : Clear method scopeIndex
      (walkPath scopeIndex (components pattern) (addRoutes NewScopeRouteTree before).root)
      (components url)
      ((addRoutes NewScopeRouteTree before).AddRoute method pattern scopeIndex).root :=
    addComponents_clear before method scopeIndex hknown (components pattern) (components url)
      hpath _ (addRoutes_inv before)
  have h1 := addRoutes_keeps_clear method scopeIndex _ (components url) after _ h0 hkeep
  have e : addRoutes NewScopeRouteTree (before ++ (method, pattern, scopeIndex) :: after) =
      addRoutes ((addRoutes NewScopeRouteTree before).AddRoute method pattern scopeIndex)
        after := by
    rw [addRoutes_append, addRoutes_cons]
  rw [← e] at h1
  exact matched_of_reach _ method url scopeIndex true (safe_of_nodeInv (addRoutes_inv _))
    (clear_reach method scopeIndex _ _ _ h1)

/-- Claim C1, amended, at a concrete input: the route `POST /foo/*/bar` (scope 1003) of
`TestRouteMatching`, with the three routes before it and the twelve after it, among them
`POST /booya` and `POST /booya/foo/`. -/
theorem insertion_matching_fidelity_witness :
    ∃ l, (addRoutes NewScopeRouteTree
        (testRoutes.take 3 ++
          ("POST".toList, "/foo/*/bar".toList, 1003) :: testRoutes.drop 4)).GetMatchingScopes
        "POST".toList "/foo/booya/bar".toList = some l ∧ (1003 : Int) ∈ l :=
  insertion_matching_fidelity (testRoutes.take 3) (testRoutes.drop 4) "POST".toList
    "/foo/*/bar".toList 1003 "/foo/booya/bar".toList (by decide)
    (by
      rw [show components "/foo/*/bar".toList = ["foo".toList, "*".toList, "bar".toList]
        from by decide,
        show components "/foo/booya/bar".toList =
          ["foo".toList, "booya".toList, "bar".toList] from by decide]
      exact List.Forall₂.cons (Or.inr (by decide)) (List.Forall₂.cons (Or.inl (by decide))
        (List.Forall₂.cons (Or.inr (by decide)) List.Forall₂.nil)))
    (by decide)

/-- Claim C2, method isolation.  For every tree built from `NewScopeRouteTree` by a sequence
of `AddRoute` calls, every method and every URL, `GetMatchingScopes` returns a list, and each
scope index in it was registered by a call of the sequence with that same method; in
particular after only `AddRoute("GET", "/a", s)` the query `POST /a` returns the empty
list. -/
theorem method_isolation (calls : List (GoString × GoString × Int)) (m url : GoString) :
    (∃ l, (addRoutes NewScopeRouteTree calls).GetMatchingScopes m url = some l ∧
      ∀ s ∈ l, ∃ uri, (m, uri, s) ∈ calls) ∧
    (∀ s : Int, (NewScopeRouteTree.AddRoute "GET".toList "/a".toList s).GetMatchingScopes
      "POST".toList "/a".toList = some []) := by
  have key : ∀ (calls : List (GoString × GoString × Int)) (m url : GoString),
      ∃ l, (addRoutes NewScopeRouteTree calls).GetMatchingScopes m url = some l ∧
        ∀ s ∈ l, ∃ uri, (m, uri, s) ∈ calls := by
    intro calls m url
    obtain ⟨l, hl, h⟩ := matched_only_if_covered calls m url
    exact ⟨l, hl, fun s hs => by
      obtain ⟨uri, hu, _⟩ := h s hs
      exact ⟨uri, hu⟩⟩
  refine ⟨key calls m url, ?_⟩
  intro s
  obtain ⟨l, hl, h⟩ := key [("GET".toList, "/a".toList, s)] "POST".toList "/a".toList
  have hl' : (NewScopeRouteTree.AddRoute "GET".toList "/a".toList s).GetMatchingScopes
      "POST".toList "/a".toList = some l := hl
  rw [hl']
  cases l with
  | nil => rfl
  | cons x rest =>
    obtain ⟨uri, hu⟩ := h x (List.mem_cons_self _ _)
    rw [List.mem_singleton, Prod.mk.injEq] at hu
    exact absurd hu.1 (by decide)

/-- Claim C3, multi-match union.  On the tree built from a fresh one by registering
`GET /foo/*`, `GET /foo/bar/baz` and `GET /foo/bar/*` with distinct scope indices `a`, `b`, `c`,
in any order, the query `GET /foo/bar/baz` returns, as a set, exactly `a`, `b`, `c`, and the
query `GET /foo/bar/bleh` returns exactly `a` and `c` (and not `b`). -/
theorem multi_match_union (a b c : Int) (regs : List (GoString × GoString × Int))
    (hab : a ≠ b) (hbc : b ≠ c)
    (hregs : regs.Perm [("GET".toList, "/foo/*".toList, a),
      ("GET".toList, "/foo/bar/baz".toList, b), ("GET".toList, "/foo/bar/*".toList, c)]) :
    (∃ l, (addRoutes NewScopeRouteTree regs).GetMatchingScopes
        "GET".toList "/foo/bar/baz".toList = some l ∧ ∀ x, x ∈ l ↔ (x = a ∨ x = b ∨ x = c)) ∧
    (∃ l, (addRoutes NewScopeRouteTree regs).GetMatchingScopes
        "GET".toList "/foo/bar/bleh".toList = some l ∧ (∀ x, x ∈ l ↔ (x = a ∨ x = c)) ∧
          b ∉ l) := by
  have hmem : ∀ r, r ∈ regs ↔ (r = ("GET".toList, "/foo/*".toList, a) ∨
      r = ("GET".toList, "/foo/bar/baz".toList, b) ∨
      r = ("GET".toList, "/foo/bar/*".toList, c)) := by
    intro r
    rw [hregs.mem_iff]
    simp
  have hlit : ∀ r ∈ regs, ∀ x ∈ (components r.2.1).dropLast,
      isWildCard (TrimSpace x) = false := by
    have h1 : ∀ x ∈ (components "/foo/*".toList).dropLast,
        isWildCard (TrimSpace x) = false := by decide
    have h2 : ∀ x ∈ (components "/foo/bar/baz".toList).dropLast,
        isWildCard (TrimSpace x) = false := by decide
    have h3 : ∀ x ∈ (components "/foo/bar/*".toList).dropLast,
        isWildCard (TrimSpace x) = false := by decide
    intro r hr
    rcases (hmem r).1 hr with h | h | h
    · subst h; exact h1
    · subst h; exact h2
    · subst h; exact h3
  constructor
  · obtain ⟨l, hl, h⟩ := matches_exactly regs "GET".toList "/foo/bar/baz".toList
      (by decide) hlit
    refine ⟨l, hl, fun x => ?_⟩
    rw [h]
    constructor
    · rintro ⟨uri, hu, _⟩
      rcases (hmem _).1 hu with e | e | e
      · exact Or.inl (Prod.mk.inj (Prod.mk.inj e).2).2
      · exact Or.inr (Or.inl (Prod.mk.inj (Prod.mk.inj e).2).2)
      · exact Or.inr (Or.inr (Prod.mk.inj (Prod.mk.inj e).2).2)
    · rintro (e | e | e)
      · exact ⟨"/foo/*".toList, (hmem _).2 (Or.inl (by rw [e])), by decide⟩
      · exact ⟨"/foo/bar/baz".toList, (hmem _).2 (Or.inr (Or.inl (by rw [e]))), by decide⟩
      · exact ⟨"/foo/bar/*".toList, (hmem _).2 (Or.inr (Or.inr (by rw [e]))), by decide⟩
  · obtain ⟨l, hl, h⟩ := matches_exactly regs "GET".toList "/foo/bar/bleh".toList
      (by decide) hlit
    have hiff : ∀ x, x ∈ l ↔ (x = a ∨ x = c) := by
      intro x
      rw [h]
      constructor
      · rintro ⟨uri, hu, hc⟩
        rcases (hmem _).1 hu with e | e | e
        · exact Or.inl (Prod.mk.inj (Prod.mk.inj e).2).2
        · have hu2 := (Prod.mk.inj (Prod.mk.inj e).2).1
          rw [hu2] at hc
          exact absurd hc (by decide)
        · exact Or.inr (Prod.mk.inj (Prod.mk.inj e).2).2
      · rintro (e | e)
        · exact ⟨"/foo/*".toList, (hmem _).2 (Or.inl (by rw [e])), by decide⟩
        · exact ⟨"/foo/bar/*".toList, (hmem _).2 (Or.inr (Or.inr (by rw [e]))), by decide⟩
    refine ⟨l, hl, hiff, fun hb => ?_⟩
    rcases (hiff b).1 hb with e | e
    · exact hab e.symm
    · exact hbc e

/-- Claim C3 at the scope indices of `TestRouteMatching`, registered in another order. -/
theorem multi_match_union_witness :
    (∃ l, (addRoutes NewScopeRouteTree [("GET".toList, "/foo/bar/*".toList, 1002),
        ("GET".toList, "/foo/*".toList, 1000),
        ("GET".toList, "/foo/bar/baz".toList, 1001)]).GetMatchingScopes
        "GET".toList "/foo/bar/baz".toList = some l ∧
          ∀ x, x ∈ l ↔ (x = 1000 ∨ x = 1001 ∨ x = 1002)) ∧
    (∃ l, (addRoutes NewScopeRouteTree [("GET".toList, "/foo/bar/*".toList, 1002),
        ("GET".toList, "/foo/*".toList, 1000),
        ("GET".toList, "/foo/bar/baz".toList, 1001)]).GetMatchingScopes
        "GET".toList "/foo/bar/bleh".toList = some l ∧
          (∀ x, x ∈ l ↔ (x = 1000 ∨ x = 1002)) ∧ (1001 : Int) ∉ l) :=
  multi_match_union 1000 1001 1002 _ (by decide) (by decide)
    (List.Perm.trans (List.Perm.swap _ _ _) (List.Perm.cons _ (List.Perm.swap _ _ _)))

/-- Claim C4 as stated fails for a literal segment with surrounding white space: after
`AddRoute("GET", "/a /*", 0)` the URL `/a /x`, whose leading segment is the segment `a ` of the
pattern and which has one further segment, is not matched, because `AddRoute` stored the
segment trimmed, as `a`. -/
theorem greediness_counterexample :
    components "/a /*".toList = ["a ".toList, "*".toList] ∧
      components "/a /x".toList = ["a ".toList] ++ ["x".toList] ∧
      (NewScopeRouteTree.AddRoute "GET".toList "/a /*".toList 0).GetMatchingScopes
        "GET".toList "/a /x".toList = some [] := by
  decide

/-- Claim C4, amended.  After `AddRoute(m, uri, s)` with a known method `m` and a pattern whose
segments are the literal segments `P` followed by `*`, on a tree built by earlier `AddRoute`
calls and after any further `AddRoute` calls, `GetMatchingScopes(m, url)` contains `s` for
every URL whose leading segments equal the white-space-trimmed segments of `P` and which has
at least one further segment, however many follow. -/
theorem wildcard_greediness (before after : List (GoString × GoString × Int))
    (m uri : GoString) (P : List GoString) (s : Int) (url : GoString) (more : List GoString)
    (hknown : bitFieldForMethod m ≠ 0)
    (hlit : ∀ p ∈ P, isWildCard (TrimSpace p) = false)
    (huri : components uri = P ++ [['*']])
    (hurl : components url = P.map TrimSpace ++ more) (hmore : more ≠ []) :
    ∃ l, (addRoutes NewScopeRouteTree (before ++ (m, uri, s) :: after)).GetMatchingScopes
        m url = some l ∧ s ∈ l := by
  apply route_matched before after m uri s false url hknown
  · rw [huri, hurl]
    exact covers_prefix_star P more hmore
  · intro _ c hc
    rw [huri, List.dropLast_concat] at hc
    exact hlit c hc
  · intro hw
    cases hw

/-- Claim C4, amended, at the input of the specification: `GET /foo/*` matches
`GET /foo/anything/deep/path`, with other routes registered before and after. -/
theorem wildcard_greediness_witness :
    ∃ l, (addRoutes NewScopeRouteTree
        ([("GET".toList, "/foo/bar".toList, 7)] ++ ("GET".toList, "/foo/*".toList, 0) ::
          [("GET".toList, "/foo/*/baz".toList, 8)])).GetMatchingScopes
        "GET".toList "/foo/anything/deep/path".toList = some l ∧ (0 : Int) ∈ l :=
  wildcard_greediness [("GET".toList, "/foo/bar".toList, 7)]
    [("GET".toList, "/foo/*/baz".toList, 8)] "GET".toList "/foo/*".toList ["foo".toList] 0
    "/foo/anything/deep/path".toList ["anything".toList, "deep".toList, "path".toList]
    (by decide) (by decide) (by decide) (by decide) (by decide)

/-! ## Lemmas for the claims on the decision procedure and the registry -/

theorem authorizeToken_valid (U : Unicode) (w : util.Collaborators) (r : Registry)
    (token : GoString) (scope : Scope)
    (hvalid : (Scope.ValidateMethodAndURI U scope).2 = none) :
    Controller.AuthorizeToken U w r token scope =
      if Controller.IsRootToken r token then Verdict.allow
      else
        match r.scopeTree with
        | none => Verdict.panicked
        | some scopeTree =>
          match scopeTree.GetMatchingScopes (Scope.ValidateMethodAndURI U scope).1.Method
              (Scope.ValidateMethodAndURI U scope).1.URI with
          | none => Verdict.panicked
          | some scopeIndices =>
            if scopeIndices.length = 0 then Verdict.allow
            else if len token < 10 then Verdict.deny util.ErrorInvalidToken
            else
              match util.AuthorizeToken w token with
              | .error err => Verdict.deny err
              | .ok subject => authorizeScopes w r.allScopes subject scopeIndices := by
  unfold Controller.AuthorizeToken
  rcases hv : Scope.ValidateMethodAndURI U scope with ⟨sc1, e⟩
  rw [hv] at hvalid
  simp only at hvalid
  subst hvalid
  rfl

theorem isRootToken_false (r : Registry) (root token : GoString)
    (hinit : r.rootToken = some root) (hne : token ≠ root) :
    Controller.IsRootToken r token = false := by
  simp [Controller.IsRootToken, hinit, hne]

theorem authorizeToken_checked (U : Unicode) (w : util.Collaborators) (r : Registry)
    (root : GoString) (t : ScopeRouteTree) (token : GoString) (scope : Scope)
    (matched : List Int)
    (hinit : r.rootToken = some root) (htree : r.scopeTree = some t)
    (hvalid : (Scope.ValidateMethodAndURI U scope).2 = none)
    (hmatch : t.GetMatchingScopes (Scope.ValidateMethodAndURI U scope).1.Method
      (Scope.ValidateMethodAndURI U scope).1.URI = some matched)
    (hsome : matched ≠ []) (hroot : token ≠ root) (hlong : 10 ≤ len token) :
    Controller.AuthorizeToken U w r token scope =
      match util.AuthorizeToken w token with
      | .error err => Verdict.deny err
      | .ok subject => authorizeScopes w r.allScopes subject matched := by
  rw [authorizeToken_valid U w r token scope hvalid,
    isRootToken_false r root token hinit hroot]
  simp [htree, hmatch, hsome, Nat.not_lt.2 hlong]

theorem util_authorizeToken_error (w : util.Collaborators) (token : GoString) (e : Error)
    (h : util.AuthorizeToken w token = Except.error e) : e ≠ ErrorUnauthorized := by
  unfold util.AuthorizeToken at h
  split_ifs at h <;> cases h <;> decide

theorem util_authorizeToken_fails (w : util.Collaborators) (token : GoString)
    (h : w.hydraClient = false ∨ (w.IntrospectOAuth2Token token).2 ≠ none) :
    ∃ e, util.AuthorizeToken w token = Except.error e := by
  unfold util.AuthorizeToken
  split_ifs with h1 h2 h3 h4
  · exact ⟨_, rfl⟩
  · exact ⟨_, rfl⟩
  · exact ⟨_, rfl⟩
  · exact ⟨_, rfl⟩
  · exfalso
    rcases h with h | h
    · rw [h] at h2; exact h2 rfl
    · apply h
      simpa using h4

theorem isSubjectAuthorized_error (w : util.Collaborators) (sub name : GoString)
    (h : (util.IsSubjectAuthorized w sub name).2 ≠ none) :
    (util.IsSubjectAuthorized w sub name).1 = false := by
  unfold util.IsSubjectAuthorized at h ⊢
  split_ifs with h1
  · rfl
  · split
    · rfl
    · rename_i h2
      rw [if_neg h1] at h
      simp only [h2] at h
      exact absurd rfl h

theorem authorizeScopes_allow_iff (w : util.Collaborators) (allScopes : List Scope)
    (sub : GoString) (l : List Int) (hidx : ∀ i ∈ l, (index allScopes i).isSome = true) :
    (authorizeScopes w allScopes sub l = Verdict.allow ↔
      ∃ i ∈ l, ∃ sc, index allScopes i = some sc ∧
        (util.IsSubjectAuthorized w sub sc.Name).1 = true) ∧
    (authorizeScopes w allScopes sub l = Verdict.allow ∨
      authorizeScopes w allScopes sub l = Verdict.deny ErrorUnauthorized) := by
  induction l with
  | nil => simp [authorizeScopes]
  | cons i rest ih =>
    have hi := hidx i (List.mem_cons_self _ _)
    obtain ⟨sc, hsc⟩ := Option.isSome_iff_exists.1 hi
    have ih' := ih (fun j hj => hidx j (List.mem_cons_of_mem _ hj))
    unfold authorizeScopes
    rw [hsc]
    simp only
    by_cases ha : (util.IsSubjectAuthorized w sub sc.Name).1 = true
    · rw [if_pos ha]
      refine ⟨⟨fun _ => ⟨i, List.mem_cons_self _ _, sc, hsc, ha⟩, fun _ => rfl⟩, Or.inl rfl⟩
    · rw [if_neg ha]
      refine ⟨?_, ih'.2⟩
      rw [ih'.1]
      constructor
      · rintro ⟨j, hj, sc', h1, h2⟩
        exact ⟨j, List.mem_cons_of_mem _ hj, sc', h1, h2⟩
      · rintro ⟨j, hj, sc', h1, h2⟩
        rcases List.mem_cons.1 hj with h | h
        · subst h
          rw [hsc] at h1
          cases h1
          exact absurd h2 ha
        · exact ⟨j, h, sc', h1, h2⟩

theorem authorizeScopes_none_allowed (w : util.Collaborators) (allScopes : List Scope)
    (sub : GoString) (l : List Int) (hidx : ∀ i ∈ l, (index allScopes i).isSome = true)
    (hno : ∀ i ∈ l, ∀ sc, index allScopes i = some sc →
      (util.IsSubjectAuthorized w sub sc.Name).1 = false) :
    authorizeScopes w allScopes sub l = Verdict.deny ErrorUnauthorized := by
  induction l with
  | nil => rfl
  | cons i rest ih =>
    obtain ⟨sc, hsc⟩ := Option.isSome_iff_exists.1 (hidx i (List.mem_cons_self _ _))
    unfold authorizeScopes
    rw [hsc]
    simp only
    rw [if_neg (by rw [hno i (List.mem_cons_self _ _) sc hsc]; simp)]
    exact ih (fun j hj => hidx j (List.mem_cons_of_mem _ hj))
      (fun j hj => hno j (List.mem_cons_of_mem _ hj))

theorem initializeScopes_ok_rootToken (U : Unicode) (w : InitCollaborators) (r r1 : Registry)
    (scopes : List Scope) (root : GoString)
    (h : Controller.InitializeScopes U w r scopes = (r1, Except.ok root)) :
    r1.rootToken = some root := by
  unfold Controller.InitializeScopes at h
  split_ifs at h with h0
  · cases h
  · split at h
    · cases h
    · simp only at h
      split at h
      · cases h
      · split at h
        · cases h
        · cases h
          rfl

/-! ## Lemmas on the answers of the collaborators -/

theorem isSubjectAuthorized_true_iff (w : util.Collaborators) (sub name : GoString) :
    (util.IsSubjectAuthorized w sub name).1 = true ↔
      w.ketoClient = true ∧ (w.WardenIsSubjectAuthorized sub name).2 = none ∧
        (w.WardenIsSubjectAuthorized sub name).1 = true := by
  unfold util.IsSubjectAuthorized
  by_cases hk : w.ketoClient = true
  · rw [if_neg (by simp [hk])]
    cases he : (w.WardenIsSubjectAuthorized sub name).2 with
    | none => simp [hk]
    | some err => simp
  · rw [if_pos (by simpa using hk)]
    simp [hk]

theorem util_authorizeToken_ok (w : util.Collaborators) (token sub : GoString)
    (hlong : 10 ≤ len token) (hhydra : w.hydraClient = true)
    (hactive : (w.IntrospectOAuth2Token token).1.Active = true)
    (hnoerr : (w.IntrospectOAuth2Token token).2 = none)
    (hsub : (w.IntrospectOAuth2Token token).1.Sub = sub) :
    util.AuthorizeToken w token = Except.ok sub := by
  have hne : token ≠ [] := by
    intro h
    rw [h] at hlong
    exact absurd hlong (by decide)
  unfold util.AuthorizeToken
  rw [if_neg hne, if_neg (by simp [hhydra]), if_neg (by simp [hactive]),
    if_neg (by simp [hnoerr]), hsub]

/-! ## Claims C5 to C10: the decision procedure and the registry -/

/-- Claim C5, root-token bypass.  In a registry whose root token is set, for every request
that passes `ValidateMethodAndURI`, `AuthorizeToken(rootToken, request)` returns nil, whatever
the route tree holds and whatever the collaborators answer. -/
theorem root_token_bypass (U : Unicode) (w : util.Collaborators) (r : Registry)
    (root : GoString) (scope : Scope) (hinit : r.rootToken = some root)
    (hvalid : (Scope.ValidateMethodAndURI U scope).2 = none) :
    Controller.AuthorizeToken U w r root scope = Verdict.allow := by
  rw [authorizeToken_valid U w r root scope hvalid]
  simp [Controller.IsRootToken, hinit]

/-- Claim C5 at a concrete input: the registry of the end-to-end scenario and its root token. -/
theorem root_token_bypass_witness :
    exampleRegistry.rootToken = some (List.replicate 64 'A') ∧
      (Scope.ValidateMethodAndURI asciiCase exampleRequest).2 = none ∧
      Controller.AuthorizeToken asciiCase (exampleCollaborators (false, none)) exampleRegistry
        (List.replicate 64 'A') exampleRequest = Verdict.allow :=
  ⟨by decide, by decide,
    root_token_bypass asciiCase (exampleCollaborators (false, none)) exampleRegistry
      (List.replicate 64 'A') exampleRequest (by decide) (by decide)⟩

/-- Claim C6, no-match fail-open.  In a registry with a route tree, for every token and every
request that passes `ValidateMethodAndURI` and for which `GetMatchingScopes` returns the empty
list, `AuthorizeToken` returns nil, whatever the collaborators answer (and whether or not the
token is the root token). -/
theorem no_match_fail_open (U : Unicode) (w : util.Collaborators) (r : Registry)
    (t : ScopeRouteTree) (token : GoString) (scope : Scope)
    (htree : r.scopeTree = some t)
    (hvalid : (Scope.ValidateMethodAndURI U scope).2 = none)
    (hnone : t.GetMatchingScopes (Scope.ValidateMethodAndURI U scope).1.Method
      (Scope.ValidateMethodAndURI U scope).1.URI = some []) :
    Controller.AuthorizeToken U w r token scope = Verdict.allow := by
  rw [authorizeToken_valid U w r token scope hvalid]
  by_cases h : Controller.IsRootToken r token = true
  · rw [if_pos h]
  · rw [if_neg h, htree]
    simp only
    rw [hnone]
    rfl

/-- Claim C6 at a concrete input: the empty token and a route no scope governs. -/
theorem no_match_fail_open_witness :
    (NewScopeRouteTree.AddRoute "POST".toList "/roles".toList 0).GetMatchingScopes
        "GET".toList "/health".toList = some [] ∧
      Controller.AuthorizeToken asciiCase (exampleCollaborators (false, none)) exampleRegistry
        [] unregisteredRequest = Verdict.allow :=
  ⟨by decide,
    no_match_fail_open asciiCase (exampleCollaborators (false, none)) exampleRegistry
      (NewScopeRouteTree.AddRoute "POST".toList "/roles".toList 0) [] unregisteredRequest
      rfl (by decide) (by decide)⟩

/-- Claim C7, short-token rejection.  In an initialized registry, for every request that
passes `ValidateMethodAndURI` and has a non-empty match list, and every token that is not the
root token and is shorter than 10 bytes, `AuthorizeToken` returns `ErrorInvalidToken`, for all
answers of the collaborators. -/
theorem short_token_rejection (U : Unicode) (w : util.Collaborators) (r : Registry)
    (root : GoString) (t : ScopeRouteTree) (token : GoString) (scope : Scope)
    (matched : List Int)
    (hinit : r.rootToken = some root) (htree : r.scopeTree = some t)
    (hvalid : (Scope.ValidateMethodAndURI U scope).2 = none)
    (hmatch : t.GetMatchingScopes (Scope.ValidateMethodAndURI U scope).1.Method
      (Scope.ValidateMethodAndURI U scope).1.URI = some matched)
    (hsome : matched ≠ []) (hroot : token ≠ root) (hshort : len token < 10) :
    Controller.AuthorizeToken U w r token scope = Verdict.deny util.ErrorInvalidToken := by
  rw [authorizeToken_valid U w r token scope hvalid,
    isRootToken_false r root token hinit hroot]
  simp [htree, hmatch, hsome, hshort]

/-- Claim C7 at a concrete input: a five-byte token against the registered route. -/
theorem short_token_rejection_witness :
    len "short".toList < 10 ∧
      Controller.AuthorizeToken asciiCase (exampleCollaborators (true, none)) exampleRegistry
        "short".toList exampleRequest = Verdict.deny util.ErrorInvalidToken :=
  ⟨by decide,
    short_token_rejection asciiCase (exampleCollaborators (true, none)) exampleRegistry
      (List.replicate 64 'A') (NewScopeRouteTree.AddRoute "POST".toList "/roles".toList 0)
      "short".toList exampleRequest [0] (by decide) rfl (by decide) (by decide) (by decide)
      (by decide) (by decide)⟩

/-- Claim C8, multi-scope OR.  For a request that passes `ValidateMethodAndURI`, has a
non-empty match list whose indices all refer to registered scopes, and a non-root token of at
least 10 bytes that Hydra introspects, without error, to the active subject `sub`:
`AuthorizeToken` returns nil if and only if, for the name of at least one matched scope, the
Keto client is set and the warden answers `Allowed` for `sub` without error; otherwise it
returns the unauthorized error; and the verdict is the same for every tree whose match list
for the request is a reordering of this one. -/
theorem multi_scope_or (U : Unicode) (w : util.Collaborators) (r : Registry)
    (root : GoString) (t : ScopeRouteTree) (token : GoString) (scope : Scope)
    (matched : List Int) (sub : GoString)
    (hinit : r.rootToken = some root) (htree : r.scopeTree = some t)
    (hvalid : (Scope.ValidateMethodAndURI U scope).2 = none)
    (hmatch : t.GetMatchingScopes (Scope.ValidateMethodAndURI U scope).1.Method
      (Scope.ValidateMethodAndURI U scope).1.URI = some matched)
    (hsome : matched ≠ []) (hroot : token ≠ root) (hlong : 10 ≤ len token)
    (hhydra : w.hydraClient = true)
    (hactive : (w.IntrospectOAuth2Token token).1.Active = true)
    (hnoerr : (w.IntrospectOAuth2Token token).2 = none)
    (hsub : (w.IntrospectOAuth2Token token).1.Sub = sub)
    (hidx : ∀ i ∈ matched, (index r.allScopes i).isSome = true) :
    (Controller.AuthorizeToken U w r token scope = Verdict.allow ↔
      ∃ i ∈ matched, ∃ sc, index r.allScopes i = some sc ∧ w.ketoClient = true ∧
        (w.WardenIsSubjectAuthorized sub sc.Name).2 = none ∧
        (w.WardenIsSubjectAuthorized sub sc.Name).1 = true) ∧
    ((¬ ∃ i ∈ matched, ∃ sc, index r.allScopes i = some sc ∧ w.ketoClient = true ∧
        (w.WardenIsSubjectAuthorized sub sc.Name).2 = none ∧
        (w.WardenIsSubjectAuthorized sub sc.Name).1 = true) →
      Controller.AuthorizeToken U w r token scope = Verdict.deny ErrorUnauthorized) ∧
    (∀ (t' : ScopeRouteTree) (matched' : List Int),
      t'.GetMatchingScopes (Scope.ValidateMethodAndURI U scope).1.Method
        (Scope.ValidateMethodAndURI U scope).1.URI = some matched' →
      matched'.Perm matched →
      Controller.AuthorizeToken U w { r with scopeTree := some t' } token scope =
        Controller.AuthorizeToken U w r token scope) := by
  have hu := util_authorizeToken_ok w token sub hlong hhydra hactive hnoerr hsub
  have hA : Controller.AuthorizeToken U w r token scope =
      authorizeScopes w r.allScopes sub matched := by
    rw [authorizeToken_checked U w r root t token scope matched hinit htree hvalid hmatch
      hsome hroot hlong, hu]
  have hM := authorizeScopes_allow_iff w r.allScopes sub matched hidx
  have hW : (∃ i ∈ matched, ∃ sc, index r.allScopes i = some sc ∧
        (util.IsSubjectAuthorized w sub sc.Name).1 = true) ↔
      ∃ i ∈ matched, ∃ sc, index r.allScopes i = some sc ∧ w.ketoClient = true ∧
        (w.WardenIsSubjectAuthorized sub sc.Name).2 = none ∧
        (w.WardenIsSubjectAuthorized sub sc.Name).1 = true := by
    constructor
    · rintro ⟨i, hi, sc, h1, h2⟩
      exact ⟨i, hi, sc, h1, (isSubjectAuthorized_true_iff w sub sc.Name).1 h2⟩
    · rintro ⟨i, hi, sc, h1, h2⟩
      exact ⟨i, hi, sc, h1, (isSubjectAuthorized_true_iff w sub sc.Name).2 h2⟩
  refine ⟨by rw [hA, hM.1, hW], ?_, ?_⟩
  · intro hno
    rw [hA]
    rcases hM.2 with h | h
    · exact absurd (hW.1 (hM.1.1 h)) hno
    · exact h
  · intro t' matched' hmatch' hperm
    have hsome' : matched' ≠ [] := by
      intro h
      rw [h] at hperm
      exact hsome (List.Perm.eq_nil hperm.symm)
    have hA' : Controller.AuthorizeToken U w { r with scopeTree := some t' } token scope =
        authorizeScopes w r.allScopes sub matched' := by
      rw [authorizeToken_checked U w { r with scopeTree := some t' } root t' token scope
        matched' hinit rfl hvalid hmatch' hsome' hroot hlong, hu]
    rw [hA', hA]
    have hidx' : ∀ i ∈ matched', (index r.allScopes i).isSome = true :=
      fun i hi => hidx i (hperm.mem_iff.1 hi)
    have hM' := authorizeScopes_allow_iff w r.allScopes sub matched' hidx'
    have hiff : authorizeScopes w r.allScopes sub matched' = Verdict.allow ↔
        authorizeScopes w r.allScopes sub matched = Verdict.allow := by
      rw [hM'.1, hM.1]
      constructor
      · rintro ⟨i, hi, h⟩
        exact ⟨i, hperm.mem_iff.1 hi, h⟩
      · rintro ⟨i, hi, h⟩
        exact ⟨i, hperm.mem_iff.2 hi, h⟩
    rcases hM'.2 with h | h
    · rw [h, hiff.1 h]
    · rcases hM.2 with h2 | h2
      · rw [hiff.2 h2] at h
        cases h
      · rw [h, h2]

/-- Claim C8 at a concrete input: `POST /roles` is matched to two scopes, `everything` and
`roles.write`, in this order.  When the warden allows only `roles.write`, the second of the
two, the verdict is nil; when it allows neither, the verdict is the unauthorized error. -/
theorem multi_scope_or_witness :
    overlappingRegistry.scopeTree.bind
        (fun t => t.GetMatchingScopes "POST".toList "/roles".toList) = some [0, 1] ∧
      Controller.AuthorizeToken asciiCase (wardenGranting "roles.write".toList)
        overlappingRegistry "0123456789abcdef".toList exampleRequest = Verdict.allow ∧
      Controller.AuthorizeToken asciiCase (wardenGranting "users.read".toList)
        overlappingRegistry "0123456789abcdef".toList exampleRequest =
          Verdict.deny ErrorUnauthorized :=
  ⟨by decide,
    (multi_scope_or asciiCase (wardenGranting "roles.write".toList) overlappingRegistry
      (List.replicate 64 'A')
      (addRoutes NewScopeRouteTree (registrations 0 overlappingRegistry.allScopes))
      "0123456789abcdef".toList exampleRequest [0, 1] "alice".toList (by decide) rfl
      (by decide) (by decide) (by decide) (by decide) (by decide) rfl rfl rfl rfl
      (by decide)).1.2
      ⟨1, by decide, _, rfl, rfl, rfl, by decide⟩,
    (multi_scope_or asciiCase (wardenGranting "users.read".toList) overlappingRegistry
      (List.replicate 64 'A')
      (addRoutes NewScopeRouteTree (registrations 0 overlappingRegistry.allScopes))
      "0123456789abcdef".toList exampleRequest [0, 1] "alice".toList (by decide) rfl
      (by decide) (by decide) (by decide) (by decide) (by decide) rfl rfl rfl rfl
      (by decide)).2.1
      (by
        rintro ⟨i, hi, sc, hsc, _, _, h⟩
        simp only [List.mem_cons, List.mem_singleton, List.not_mem_nil, or_false] at hi
        rcases hi with hi | hi
        · subst hi
          have e : index overlappingRegistry.allScopes 0 = some
              { Name := "everything".toList, Method := "POST".toList, URI := "/*".toList,
                Description := [] } := rfl
          rw [e] at hsc
          cases hsc
          revert h
          decide
        · subst hi
          have e : index overlappingRegistry.allScopes 1 = some
              { Name := "roles.write".toList, Method := "POST".toList,
                URI := "/roles".toList, Description := [] } := rfl
          rw [e] at hsc
          cases hsc
          revert h
          decide)⟩

/-- Claim C9 as stated fails for the policy collaborator.  With the registered route, a
well-formed token that introspects to an active subject, and a warden call that fails with
an error, `AuthorizeToken` returns the unauthorized error, the very error it returns when
the warden answers "not allowed" without error; the error `util.IsSubjectAuthorized` reports
(third conjunct) is not passed on. -/
theorem policy_failure_not_distinguished :
    Controller.AuthorizeToken asciiCase
        (exampleCollaborators (false, some "connection refused".toList)) exampleRegistry
        "0123456789abcdef".toList exampleRequest = Verdict.deny ErrorUnauthorized ∧
      Controller.AuthorizeToken asciiCase (exampleCollaborators (false, none)) exampleRegistry
        "0123456789abcdef".toList exampleRequest = Verdict.deny ErrorUnauthorized ∧
      util.IsSubjectAuthorized (exampleCollaborators (false, some "connection refused".toList))
        "alice".toList "roles.write".toList =
          (false, some "keto: error authorizing subject: connection refused".toList) := by
  decide

/-- Claim C9, amended.  For a request that passes `ValidateMethodAndURI` and has a non-empty
match list of registered scopes, and a non-root token of at least 10 bytes: when the
introspection collaborator fails (collaborators `w1`: the Hydra client is not set, or the
introspection call returns an error), `AuthorizeToken` denies with an error that differs from
the unauthorized error; when the token introspects to a subject and the policy collaborator
fails with an error for every matched scope (collaborators `w2`), `AuthorizeToken` denies
with the unauthorized error itself. -/
theorem collaborator_failures (U : Unicode) (r : Registry) (root : GoString)
    (t : ScopeRouteTree) (token : GoString) (scope : Scope) (matched : List Int)
    (w1 w2 : util.Collaborators) (sub : GoString)
    (hinit : r.rootToken = some root) (htree : r.scopeTree = some t)
    (hvalid : (Scope.ValidateMethodAndURI U scope).2 = none)
    (hmatch : t.GetMatchingScopes (Scope.ValidateMethodAndURI U scope).1.Method
      (Scope.ValidateMethodAndURI U scope).1.URI = some matched)
    (hsome : matched ≠ []) (hroot : token ≠ root) (hlong : 10 ≤ len token)
    (hidx : ∀ i ∈ matched, (index r.allScopes i).isSome = true)
    (hfail1 : w1.hydraClient = false ∨ (w1.IntrospectOAuth2Token token).2 ≠ none)
    (hsub2 : util.AuthorizeToken w2 token = Except.ok sub)
    (hfail2 : ∀ i ∈ matched, ∀ sc, index r.allScopes i = some sc →
      (util.IsSubjectAuthorized w2 sub sc.Name).2 ≠ none) :
    (∃ e, Controller.AuthorizeToken U w1 r token scope = Verdict.deny e ∧
      e ≠ ErrorUnauthorized) ∧
    Controller.AuthorizeToken U w2 r token scope = Verdict.deny ErrorUnauthorized := by
  constructor
  · obtain ⟨e, he⟩ := util_authorizeToken_fails w1 token hfail1
    refine ⟨e, ?_, util_authorizeToken_error w1 token e he⟩
    rw [authorizeToken_checked U w1 r root t token scope matched hinit htree hvalid hmatch
      hsome hroot hlong, he]
  · rw [authorizeToken_checked U w2 r root t token scope matched hinit htree hvalid hmatch
      hsome hroot hlong, hsub2]
    exact authorizeScopes_none_allowed w2 r.allScopes sub matched hidx
      (fun i hi sc hsc => isSubjectAuthorized_error w2 sub sc.Name (hfail2 i hi sc hsc))

/-- Claim C9, amended, at a concrete input: an introspection call and a warden call that
fail with "connection refused". -/
theorem collaborator_failures_witness :
    (∃ e, Controller.AuthorizeToken asciiCase failingIntrospection exampleRegistry
        "0123456789abcdef".toList exampleRequest = Verdict.deny e ∧ e ≠ ErrorUnauthorized) ∧
      Controller.AuthorizeToken asciiCase
        (exampleCollaborators (false, some "connection refused".toList)) exampleRegistry
        "0123456789abcdef".toList exampleRequest = Verdict.deny ErrorUnauthorized :=
  collaborator_failures asciiCase exampleRegistry (List.replicate 64 'A')
    (NewScopeRouteTree.AddRoute "POST".toList "/roles".toList 0) "0123456789abcdef".toList
    exampleRequest [0] failingIntrospection
    (exampleCollaborators (false, some "connection refused".toList)) "alice".toList
    (by decide) rfl (by decide) (by decide) (by decide) (by decide) (by decide) (by decide)
    (Or.inr (by decide)) rfl (by decide)

/-- Claim C10, registry guard.  If a call of `InitializeScopes` has succeeded, leaving the
registry `r1`, then a second call on `r1` (no `Reset` in between), with any input and any
collaborator answers, returns `ErrorScopesInitialized` and leaves the registry, that is
`allScopes`, `scopeNameMap`, `scopeTree` and `rootToken`, exactly as it was. -/
theorem initialize_twice (U : Unicode) (w1 w2 : InitCollaborators) (r0 r1 : Registry)
    (scopes1 scopes2 : List Scope) (root : GoString)
    (hfirst : Controller.InitializeScopes U w1 r0 scopes1 = (r1, Except.ok root)) :
    Controller.InitializeScopes U w2 r1 scopes2 = (r1, Except.error ErrorScopesInitialized) := by
  have h := initializeScopes_ok_rootToken U w1 r0 r1 scopes1 root hfirst
  unfold Controller.InitializeScopes
  rw [if_pos (by simp [h])]

/-- Claim C10 at a concrete input: a second initialization of the example registry. -/
theorem initialize_twice_witness :
    Controller.InitializeScopes asciiCase exampleInit exampleRegistry [exampleScope] =
      (exampleRegistry, Except.error ErrorScopesInitialized) :=
  initialize_twice asciiCase exampleInit exampleInit Registry.initial exampleRegistry
    [exampleScope] [exampleScope] (List.replicate 64 'A') rfl

/-! ## Lemmas on `Validate`, the registration loop and `InitializeScopes` -/

theorem validateMethodAndURI_ok (U : Unicode) (s : Scope)
    (h : (Scope.ValidateMethodAndURI U s).2 = none) :
    (Scope.ValidateMethodAndURI U s).1 =
      { Name := s.Name, Method := ToUpper U (TrimSpace s.Method), URI := TrimSpace s.URI,
        Description := s.Description } := by
  unfold Scope.ValidateMethodAndURI at h ⊢
  simp only at h ⊢
  by_cases h1 : bitFieldForMethod (ToUpper U (TrimSpace s.Method)) = 0
  · rw [if_pos h1] at h; cases h
  · rw [if_neg h1] at h ⊢
    by_cases h2 : (!HasPrefix (TrimSpace s.URI) ['/'] ||
        TrimSpace (Trim (TrimSpace s.URI) ['/']) == []) = true
    · rw [if_pos h2] at h; cases h
    · rw [if_neg h2]

theorem validate_ok (U : Unicode) (s : Scope) (h : (Scope.Validate U s).2 = none) :
    (Scope.Validate U s).1 = normalised U s := by
  unfold Scope.Validate at h ⊢
  by_cases h1 : len s.Name < 4
  · rw [if_pos h1] at h; cases h
  · rw [if_neg h1] at h ⊢
    rw [validateMethodAndURI_ok U _ h]
    rfl

theorem registerScopes_nil (U : Unicode) (b : Building) :
    registerScopes U [] b = (b, none) := rfl

theorem registerScopes_cons_invalid (U : Unicode) (s : Scope) (rest : List Scope)
    (b : Building) (err : Error) (h : (Scope.Validate U s).2 = some err) :
    registerScopes U (s :: rest) b = (b, some err) := by
  rw [registerScopes]
  rcases hv : Scope.Validate U s with ⟨s1, e⟩
  rw [hv] at h
  simp only at h
  subst h
  rfl

theorem registerScopes_cons_valid (U : Unicode) (s : Scope) (rest : List Scope)
    (b : Building) (h : (Scope.Validate U s).2 = none) :
    registerScopes U (s :: rest) b =
      if (b.scopeNameMap (ToLower U s.Name)).isSome then
        (b, some (alreadyExists (ToLower U s.Name)))
      else
        registerScopes U rest
          { allScopes := b.allScopes ++ [normalised U s]
            scopeNames := b.scopeNames ++ [ToLower U s.Name]
            scopeNameMap := Function.update b.scopeNameMap (ToLower U s.Name)
              (some (b.allScopes.length : Int))
            scopeTree := b.scopeTree.AddRoute (ToUpper U (TrimSpace s.Method))
              (TrimSpace s.URI) b.allScopes.length } := by
  have h1 := validate_ok U s h
  conv_lhs => rw [registerScopes]
  rcases hv : Scope.Validate U s with ⟨s1, e⟩
  rw [hv] at h h1
  simp only at h h1
  subst h
  subst h1
  rfl

theorem initializeScopes_initialized (U : Unicode) (w : InitCollaborators) (r : Registry)
    (scopes : List Scope) (h : r.rootToken ≠ none) :
    Controller.InitializeScopes U w r scopes = (r, Except.error ErrorScopesInitialized) := by
  unfold Controller.InitializeScopes
  rw [if_pos (by simpa using h)]

theorem initializeScopes_fresh (U : Unicode) (w : InitCollaborators) (r : Registry)
    (scopes : List Scope) (h : r.rootToken = none) :
    Controller.InitializeScopes U w r scopes =
      match registerScopes U scopes Building.fresh with
      | (b, some err) =>
        ({ allScopes := b.allScopes, scopeNameMap := some b.scopeNameMap,
           scopeTree := some b.scopeTree, rootToken := none }, Except.error err)
      | (b, none) =>
        match w.InitializeRootHydraClient b.scopeNames with
        | some err =>
          ({ allScopes := b.allScopes, scopeNameMap := some b.scopeNameMap,
             scopeTree := some b.scopeTree, rootToken := none }, Except.error err)
        | none =>
          match w.CreateAdminRole with
          | some err =>
            ({ allScopes := b.allScopes, scopeNameMap := some b.scopeNameMap,
               scopeTree := some b.scopeTree, rootToken := none }, Except.error err)
          | none =>
            ({ allScopes := b.allScopes, scopeNameMap := some b.scopeNameMap,
               scopeTree := some b.scopeTree, rootToken := some (w.RandomAlphaNumeric 64) },
              Except.ok (w.RandomAlphaNumeric 64)) := by
  unfold Controller.InitializeScopes
  rw [if_neg (by simp [h])]
  cases r with
  | mk a m t rt =>
    simp only at h
    subst h
    rfl

/-- A successful `InitializeScopes` started without root token, registered every input
scope, and left what the registration loop built. -/
theorem initializeScopes_ok (U : Unicode) (w : InitCollaborators) (r r1 : Registry)
    (scopes : List Scope) (root : GoString)
    (h : Controller.InitializeScopes U w r scopes = (r1, Except.ok root)) :
    r.rootToken = none ∧ ∃ b, registerScopes U scopes Building.fresh = (b, none) ∧
      r1 = { allScopes := b.allScopes, scopeNameMap := some b.scopeNameMap,
             scopeTree := some b.scopeTree, rootToken := some root } := by
  have hr : r.rootToken = none := by
    by_contra hne
    rw [initializeScopes_initialized U w r scopes hne] at h
    cases h
  refine ⟨hr, ?_⟩
  rw [initializeScopes_fresh U w r scopes hr] at h
  rcases hb : registerScopes U scopes Building.fresh with ⟨b, e⟩
  rw [hb] at h
  cases e with
  | some err => cases h
  | none =>
    simp only at h
    cases h1 : w.InitializeRootHydraClient b.scopeNames with
    | some err => rw [h1] at h; cases h
    | none =>
      rw [h1] at h
      simp only at h
      cases h2 : w.CreateAdminRole with
      | some err => rw [h2] at h; cases h
      | none =>
        rw [h2] at h
        simp only [Prod.mk.injEq, Except.ok.injEq] at h
        refine ⟨b, rfl, ?_⟩
        rw [← h.2]
        exact h.1.symm

/-- A failed `InitializeScopes` leaves the root token as it was. -/
theorem initializeScopes_error_rootToken (U : Unicode) (w : InitCollaborators) (r : Registry)
    (scopes : List Scope) (err : Error)
    (h : (Controller.InitializeScopes U w r scopes).2 = Except.error err) :
    (Controller.InitializeScopes U w r scopes).1.rootToken = r.rootToken := by
  by_cases hr : r.rootToken = none
  · rw [initializeScopes_fresh U w r scopes hr] at h ⊢
    revert h
    rcases registerScopes U scopes Building.fresh with ⟨b, e⟩
    cases e with
    | some e' => intro _; exact hr.symm
    | none =>
      simp only
      cases w.InitializeRootHydraClient b.scopeNames with
      | some _ => intro _; exact hr.symm
      | none =>
        simp only
        cases w.CreateAdminRole with
        | some _ => intro _; exact hr.symm
        | none => intro h; cases h
  · rw [initializeScopes_initialized U w r scopes hr]

theorem bitFieldForMethod_eq_zero_iff (m : GoString) :
    bitFieldForMethod m = 0 ↔ m ∉ knownMethods := by
  constructor
  · intro h hm
    simp only [knownMethods, List.mem_cons, List.mem_singleton, List.not_mem_nil,
      or_false] at hm
    rcases hm with h1 | h1 | h1 | h1 | h1 | h1 | h1 | h1 | h1 <;>
      (rw [h1] at h; revert h; decide)
  · intro hm
    rcases bitFieldForMethod_cases m with h | h | h | h | h | h | h | h | h | h
    · exact h
    all_goals
      exfalso
      apply hm
      rw [h.1]
      decide

theorem registerScopes_ok (U : Unicode) (scopes : List Scope) :
    ∀ b b' : Building, registerScopes U scopes b = (b', none) →
      b'.allScopes = b.allScopes ++ scopes.map (normalised U) ∧
      b'.scopeNames = b.scopeNames ++ scopes.map (fun s => ToLower U s.Name) ∧
      b'.scopeTree = addRoutes b.scopeTree
        (registrations b.allScopes.length (scopes.map (normalised U))) ∧
      (∀ s ∈ scopes, (Scope.Validate U s).2 = none) := by
  induction scopes with
  | nil =>
    intro b b' h
    rw [registerScopes_nil] at h
    cases h
    simp [registrations, addRoutes]
  | cons s rest ih =>
    intro b b' h
    cases hv : (Scope.Validate U s).2 with
    | some err =>
      rw [registerScopes_cons_invalid U s rest b err hv] at h
      cases h
    | none =>
      rw [registerScopes_cons_valid U s rest b hv] at h
      split_ifs at h with hk
      · cases h
      · obtain ⟨h1, h2, h3, h4⟩ := ih _ _ h
        simp only [List.length_append, List.length_singleton] at h3
        refine ⟨?_, ?_, ?_, ?_⟩
        · rw [h1]; simp
        · rw [h2]; simp
        · rw [h3]
          simp only [List.map_cons, registrations]
          rfl
        · intro x hx
          rcases List.mem_cons.1 hx with hx | hx
          · rw [hx]; exact hv
          · exact h4 x hx

theorem indexed_fresh : Indexed Building.fresh := by
  refine ⟨?_, ?_, ?_⟩
  · intro i sc h
    simp [Building.fresh] at h
  · intro n h
    simp [Building.fresh] at h
  · simp [Building.fresh]

theorem indexed_name_mem (b : Building) (hb : Indexed b) (n : GoString)
    (h : n ∈ b.allScopes.map Scope.Name) : (b.scopeNameMap n).isSome = true := by
  obtain ⟨sc, hsc, hn⟩ := List.mem_map.1 h
  obtain ⟨i, hi, hget⟩ := List.mem_iff_getElem.1 hsc
  have := hb.1 i sc (by rw [List.getElem?_eq_getElem hi, hget])
  rw [← hn, this]
  rfl

theorem indexed_step (b : Building) (hb : Indexed b) (ns : Scope)
    (hk : ¬ (b.scopeNameMap ns.Name).isSome = true) (tree : ScopeRouteTree)
    (names : List GoString) :
    Indexed { allScopes := b.allScopes ++ [ns], scopeNames := names,
              scopeNameMap := Function.update b.scopeNameMap ns.Name
                (some (b.allScopes.length : Int)),
              scopeTree := tree } := by
  have hnot : ns.Name ∉ b.allScopes.map Scope.Name :=
    fun h => hk (indexed_name_mem b hb _ h)
  refine ⟨?_, ?_, ?_⟩
  · intro i sc h
    simp only at h ⊢
    by_cases hi : i < b.allScopes.length
    · rw [List.getElem?_append_left hi] at h
      have hne : sc.Name ≠ ns.Name := by
        intro he
        apply hnot
        rw [← he]
        exact List.mem_map.2 ⟨sc, List.getElem?_mem h, rfl⟩
      rw [Function.update_noteq hne]
      exact hb.1 i sc h
    · have hge : b.allScopes.length ≤ i := Nat.le_of_not_lt hi
      rw [List.getElem?_append_right hge] at h
      have hi0 : i - b.allScopes.length = 0 := by
        by_contra hne
        have : ([ns] : List Scope)[i - b.allScopes.length]? = none := by
          apply List.getElem?_eq_none
          simp only [List.length_singleton]
          omega
        rw [this] at h
        cases h
      rw [hi0] at h
      simp only [List.getElem?_cons_zero, Option.some.injEq] at h
      subst h
      rw [Function.update_same]
      have : i = b.allScopes.length := by omega
      rw [this]
  · intro n h
    simp only at h ⊢
    rw [List.map_append, List.mem_append]
    by_cases hn : n = ns.Name
    · right; simp [hn]
    · rw [Function.update_noteq hn] at h
      exact Or.inl (hb.2.1 n h)
  · simp only
    rw [List.map_append]
    apply List.Nodup.append hb.2.2 (by simp)
    intro x hx1 hx2
    simp only [List.map_cons, List.map_nil, List.mem_singleton] at hx2
    rw [hx2] at hx1
    exact hnot hx1

theorem registerScopes_indexed (U : Unicode) (scopes : List Scope) :
    ∀ b b' : Building, Indexed b → registerScopes U scopes b = (b', none) → Indexed b' := by
  induction scopes with
  | nil =>
    intro b b' hb h
    rw [registerScopes_nil] at h
    cases h
    exact hb
  | cons s rest ih =>
    intro b b' hb h
    cases hv : (Scope.Validate U s).2 with
    | some err =>
      rw [registerScopes_cons_invalid U s rest b err hv] at h
      cases h
    | none =>
      rw [registerScopes_cons_valid U s rest b hv] at h
      split_ifs at h with hk
      · cases h
      · exact ih _ _ (indexed_step b hb (normalised U s) hk _ _) h

/-! ## Lemmas on sequences of registry calls -/

theorem runCalls_cons (U : Unicode) (r : Registry) (c : Call) (rest : List Call) :
    runCalls U r (c :: rest) = runCalls U (c.run U r) rest := rfl

theorem call_run_rootToken (U : Unicode) (r : Registry) (root : GoString) (c : Call)
    (h : r.rootToken = some root) : (c.run U r).rootToken = some root := by
  cases c with
  | InitializeScopes w scopes =>
    show (Controller.InitializeScopes U w r scopes).1.rootToken = some root
    rw [initializeScopes_initialized U w r scopes (by rw [h]; simp)]
    exact h
  | Reset => exact h

theorem runCalls_rootToken (U : Unicode) (root : GoString) (calls : List Call) :
    ∀ r : Registry, r.rootToken = some root → (runCalls U r calls).rootToken = some root := by
  induction calls with
  | nil => intro r h; exact h
  | cons c rest ih =>
    intro r h
    rw [runCalls_cons]
    exact ih _ (call_run_rootToken U r root c h)

theorem runCalls_noneSucceeded (U : Unicode) (calls : List Call) :
    ∀ r : Registry, r.rootToken = none → noneSucceeded U r calls →
      (runCalls U r calls).rootToken = none := by
  induction calls with
  | nil => intro r h _; exact h
  | cons c rest ih =>
    intro r h hn
    rw [runCalls_cons]
    cases c with
    | InitializeScopes w scopes =>
      obtain ⟨⟨err, he⟩, hrest⟩ := hn
      apply ih _ _ hrest
      rw [initializeScopes_error_rootToken U w r scopes err he]
      exact h
    | Reset => exact ih _ h hn

/-! ## Claims C11, C12, C15, C16, C17, C18 -/

/-- Claim C11, single-assignment root token.  Once a call of `InitializeScopes` has succeeded
and returned the token `root`, then after every sequence of later `Reset` and
`InitializeScopes` calls the root token is still `root`, and an `InitializeScopes` call made
then (with any input and collaborator answers) returns `ErrorScopesInitialized` and changes
nothing. -/
theorem root_token_single_assignment (U : Unicode) (w : InitCollaborators) (r0 r1 : Registry)
    (scopes : List Scope) (root : GoString) (later : List Call)
    (hfirst : Controller.InitializeScopes U w r0 scopes = (r1, Except.ok root)) :
    (runCalls U r1 later).rootToken = some root ∧
      ∀ (w' : InitCollaborators) (scopes' : List Scope),
        Controller.InitializeScopes U w' (runCalls U r1 later) scopes' =
          (runCalls U r1 later, Except.error ErrorScopesInitialized) := by
  have h1 : r1.rootToken = some root := by
    obtain ⟨_, b, _, hr1⟩ := initializeScopes_ok U w r0 r1 scopes root hfirst
    rw [hr1]
  have h2 := runCalls_rootToken U root later r1 h1
  refine ⟨h2, fun w' scopes' => ?_⟩
  exact initializeScopes_initialized U w' _ scopes' (by rw [h2]; simp)

/-- Claim C11 at a concrete input: after the example registry is initialized, a `Reset`
followed by two further `InitializeScopes` calls leaves the root token in place. -/
theorem root_token_single_assignment_witness :
    (runCalls asciiCase exampleRegistry
        [Call.Reset, Call.InitializeScopes exampleInit [exampleScope],
          Call.InitializeScopes exampleInit []]).rootToken = some (List.replicate 64 'A') ∧
      ∀ (w' : InitCollaborators) (scopes' : List Scope),
        Controller.InitializeScopes asciiCase w'
          (runCalls asciiCase exampleRegistry
            [Call.Reset, Call.InitializeScopes exampleInit [exampleScope],
              Call.InitializeScopes exampleInit []]) scopes' =
          (runCalls asciiCase exampleRegistry
            [Call.Reset, Call.InitializeScopes exampleInit [exampleScope],
              Call.InitializeScopes exampleInit []], Except.error ErrorScopesInitialized) :=
  root_token_single_assignment asciiCase exampleInit Registry.initial exampleRegistry
    [exampleScope] (List.replicate 64 'A')
    [Call.Reset, Call.InitializeScopes exampleInit [exampleScope],
      Call.InitializeScopes exampleInit []] rfl

/-- Claim C12.  `GetScopes` fails with the not-initialized error after every sequence of
`InitializeScopes` and `Reset` calls of a fresh process in which no `InitializeScopes` call
succeeded; directly after a successful `InitializeScopes(scopes)` it returns the input
scopes, in order, each in normal form (name lower-cased, method trimmed and upper-cased, URI
trimmed). -/
theorem getScopes_spec (U : Unicode) :
    (∀ calls : List Call, noneSucceeded U Registry.initial calls →
      Controller.GetScopes (runCalls U Registry.initial calls) =
        Except.error "scopes haven't been initialized".toList) ∧
    (∀ (w : InitCollaborators) (r r1 : Registry) (scopes : List Scope) (root : GoString),
      Controller.InitializeScopes U w r scopes = (r1, Except.ok root) →
      Controller.GetScopes r1 = Except.ok (scopes.map (normalised U))) := by
  constructor
  · intro calls hn
    have h := runCalls_noneSucceeded U calls Registry.initial rfl hn
    unfold Controller.GetScopes
    rw [if_pos (by rw [h]; rfl)]
  · intro w r r1 scopes root h
    obtain ⟨_, b, hb, hr1⟩ := initializeScopes_ok U w r r1 scopes root h
    obtain ⟨h1, _, _, _⟩ := registerScopes_ok U scopes _ _ hb
    rw [hr1]
    unfold Controller.GetScopes
    rw [if_neg (by simp)]
    simp only
    rw [h1]
    rfl

/-- Claim C12 at a concrete input: a failed initialization (empty name) followed by `Reset`,
and the successful initialization of the example registry. -/
theorem getScopes_spec_witness :
    Controller.GetScopes (runCalls asciiCase Registry.initial
        [Call.InitializeScopes exampleInit [exampleRequest], Call.Reset]) =
        Except.error "scopes haven't been initialized".toList ∧
      Controller.GetScopes exampleRegistry =
        Except.ok ([exampleScope].map (normalised asciiCase)) :=
  ⟨(getScopes_spec asciiCase).1
      [Call.InitializeScopes exampleInit [exampleRequest], Call.Reset]
      ⟨⟨"scope: invalid name for scope".toList, rfl⟩, trivial⟩,
    (getScopes_spec asciiCase).2 exampleInit Registry.initial exampleRegistry [exampleScope]
      (List.replicate 64 'A') rfl⟩

/-- Claim C15, scope index invariant.  After a successful `InitializeScopes`, the name index
maps the name of the `i`-th scope of `allScopes` to `i`, for every `i`, and the route tree
is the tree obtained from a fresh tree by the calls
`AddRoute(allScopes[i].Method, allScopes[i].URI, i)` for `i = 0, 1, ...` in order. -/
theorem scope_index_invariant (U : Unicode) (w : InitCollaborators) (r r1 : Registry)
    (scopes : List Scope) (root : GoString)
    (h : Controller.InitializeScopes U w r scopes = (r1, Except.ok root)) :
    (∃ m, r1.scopeNameMap = some m ∧
      ∀ (i : Nat) (sc : Scope), r1.allScopes[i]? = some sc → m sc.Name = some (i : Int)) ∧
    r1.scopeTree = some (addRoutes NewScopeRouteTree (registrations 0 r1.allScopes)) := by
  obtain ⟨_, b, hb, hr1⟩ := initializeScopes_ok U w r r1 scopes root h
  obtain ⟨h1, _, h3, _⟩ := registerScopes_ok U scopes _ _ hb
  have hi := registerScopes_indexed U scopes _ _ indexed_fresh hb
  rw [hr1]
  refine ⟨⟨b.scopeNameMap, rfl, hi.1⟩, ?_⟩
  simp only
  rw [h3, h1]
  rfl

/-- Claim C15 at a concrete input: the example registry. -/
theorem scope_index_invariant_witness :
    (∃ m, exampleRegistry.scopeNameMap = some m ∧
      ∀ (i : Nat) (sc : Scope), exampleRegistry.allScopes[i]? = some sc →
        m sc.Name = some (i : Int)) ∧
    exampleRegistry.scopeTree =
      some (addRoutes NewScopeRouteTree (registrations 0 exampleRegistry.allScopes)) :=
  scope_index_invariant asciiCase exampleInit Registry.initial exampleRegistry [exampleScope]
    (List.replicate 64 'A') rfl

/-- Claim C16.  In every state, `Reset` makes the scope list, the name index and the route
tree nil and leaves the root token unchanged. -/
theorem reset_frame (r : Registry) :
    (Controller.Reset r).allScopes = [] ∧ (Controller.Reset r).scopeNameMap = none ∧
      (Controller.Reset r).scopeTree = none ∧
      (Controller.Reset r).rootToken = r.rootToken :=
  ⟨rfl, rfl, rfl, rfl⟩

/-- Claim C17, fail-open bootstrap.  While the root token is nil, `AuthorizeToken` returns
nil for every token and every request that passes `ValidateMethodAndURI`, whatever the
registry holds otherwise (a nil route tree included) and whatever the collaborators answer;
this is still so after a failed `InitializeScopes` attempt. -/
theorem fail_open_bootstrap (U : Unicode) (w : util.Collaborators) (r : Registry)
    (token : GoString) (scope : Scope) (hnil : r.rootToken = none)
    (hvalid : (Scope.ValidateMethodAndURI U scope).2 = none) :
    Controller.AuthorizeToken U w r token scope = Verdict.allow ∧
      ∀ (iw : InitCollaborators) (scopes : List Scope) (err : Error),
        (Controller.InitializeScopes U iw r scopes).2 = Except.error err →
        Controller.AuthorizeToken U w (Controller.InitializeScopes U iw r scopes).1 token
          scope = Verdict.allow := by
  have key : ∀ r' : Registry, r'.rootToken = none →
      Controller.AuthorizeToken U w r' token scope = Verdict.allow := by
    intro r' h'
    rw [authorizeToken_valid U w r' token scope hvalid]
    rw [if_pos (by simp [Controller.IsRootToken, h'])]
  refine ⟨key r hnil, fun iw scopes err he => key _ ?_⟩
  rw [initializeScopes_error_rootToken U iw r scopes err he]
  exact hnil

/-- Claim C17 at a concrete input: a fresh process, after `Reset`, with the empty token. -/
theorem fail_open_bootstrap_witness :
    Controller.AuthorizeToken asciiCase failingIntrospection
        (Controller.Reset Registry.initial) [] exampleRequest = Verdict.allow :=
  (fail_open_bootstrap asciiCase failingIntrospection (Controller.Reset Registry.initial) []
    exampleRequest rfl (by decide)).1

/-- Claim C18 as stated fails.  The method `post` is not one of the nine known methods and
the URI ` /roles` does not start with `/`, yet `AuthorizeToken` returns nil for such requests
(here with the root token of the example registry, and in a fresh process):
`ValidateMethodAndURI` trims and upper-cases the method and trims the URI before it tests
them. -/
theorem invalid_request_counterexample :
    "post".toList ∉ knownMethods ∧
      Controller.AuthorizeToken asciiCase (exampleCollaborators (true, none)) exampleRegistry
        (List.replicate 64 'A')
        { Name := [], Method := "post".toList, URI := "/roles".toList, Description := [] } =
          Verdict.allow ∧
      HasPrefix " /roles".toList ['/'] = false ∧
      Controller.AuthorizeToken asciiCase (exampleCollaborators (true, none)) exampleRegistry
        (List.replicate 64 'A')
        { Name := [], Method := "POST".toList, URI := " /roles".toList, Description := [] } =
          Verdict.allow ∧
      Controller.AuthorizeToken asciiCase (exampleCollaborators (true, none))
        Registry.initial []
        { Name := [], Method := "get".toList, URI := " /roles".toList, Description := [] } =
          Verdict.allow := by
  decide

/-- Claim C18, amended.  In every registry state (initialized or not) and for every token
(the root token included), `AuthorizeToken` returns an error when the request's method, after
trimming white space and upper-casing, is not one of the nine known methods, or its
white-space-trimmed URI does not start with `/` or is empty after trimming slashes. -/
theorem invalid_request_denied (U : Unicode) (w : util.Collaborators) (r : Registry)
    (token : GoString) (scope : Scope)
    (hinvalid : ToUpper U (TrimSpace scope.Method) ∉ knownMethods ∨
      HasPrefix (TrimSpace scope.URI) ['/'] = false ∨
      Trim (TrimSpace scope.URI) ['/'] = []) :
    ∃ err, Controller.AuthorizeToken U w r token scope = Verdict.deny err := by
  unfold Controller.AuthorizeToken
  have hv : ∃ err, (Scope.ValidateMethodAndURI U scope).2 = some err := by
    unfold Scope.ValidateMethodAndURI
    simp only
    by_cases h1 : bitFieldForMethod (ToUpper U (TrimSpace scope.Method)) = 0
    · rw [if_pos h1]; exact ⟨_, rfl⟩
    · rw [if_neg h1]
      rcases hinvalid with h | h | h
      · exact absurd ((bitFieldForMethod_eq_zero_iff _).2 h) h1
      · rw [if_pos (by simp [h])]; exact ⟨_, rfl⟩
      · rw [if_pos (by rw [h]; simp [TrimSpace, TrimFunc])]; exact ⟨_, rfl⟩
  obtain ⟨err, he⟩ := hv
  rcases hx : Scope.ValidateMethodAndURI U scope with ⟨sc1, e⟩
  rw [hx] at he
  simp only at he
  subst he
  exact ⟨err, rfl⟩

/-- Claim C18, amended, at a concrete input: the root token of the example registry with a request
whose method is unknown. -/
theorem invalid_request_denied_witness :
    ∃ err, Controller.AuthorizeToken asciiCase (exampleCollaborators (true, none))
      exampleRegistry (List.replicate 64 'A')
      { Name := [], Method := "FETCH".toList, URI := "/roles".toList, Description := [] } =
        Verdict.deny err :=
  invalid_request_denied asciiCase (exampleCollaborators (true, none)) exampleRegistry
    (List.replicate 64 'A')
    { Name := [], Method := "FETCH".toList, URI := "/roles".toList, Description := [] }
    (Or.inl (by decide))

/-! ## Lemmas on the registration loop: the first error -/

theorem validate_error_iff (U : Unicode) (s : Scope) :
    (Scope.Validate U s).2 ≠ none ↔
      (len s.Name < 4 ∨ ToUpper U (TrimSpace s.Method) ∉ knownMethods ∨
        HasPrefix (TrimSpace s.URI) ['/'] = false ∨
        TrimSpace (Trim (TrimSpace s.URI) ['/']) = []) := by
  unfold Scope.Validate
  by_cases h1 : len s.Name < 4
  · rw [if_pos h1]
    simp [h1]
  · rw [if_neg h1]
    unfold Scope.ValidateMethodAndURI
    simp only
    by_cases h2 : bitFieldForMethod (ToUpper U (TrimSpace s.Method)) = 0
    · rw [if_pos h2]
      have := (bitFieldForMethod_eq_zero_iff _).1 h2
      simp [this]
    · rw [if_neg h2]
      have hk : ¬ ToUpper U (TrimSpace s.Method) ∉ knownMethods :=
        fun h => h2 ((bitFieldForMethod_eq_zero_iff _).2 h)
      by_cases h3 : (!HasPrefix (TrimSpace s.URI) ['/'] ||
          TrimSpace (Trim (TrimSpace s.URI) ['/']) == []) = true
      · rw [if_pos h3]
        simp only [Bool.or_eq_true, Bool.not_eq_true', beq_iff_eq] at h3
        simp only [ne_eq, reduceCtorEq, not_false_eq_true, true_iff]
        exact Or.inr (Or.inr h3)
      · rw [if_neg h3]
        simp only [Bool.or_eq_true, Bool.not_eq_true', beq_iff_eq] at h3
        simp only [ne_eq, not_true_eq_false, false_iff]
        rintro (h | h | h)
        · exact h1 h
        · exact hk h
        · exact h3 h

theorem registerScopes_first_invalid (U : Unicode) (bad : Scope) (post : List Scope)
    (err : Error) (hbad : (Scope.Validate U bad).2 = some err) (pre : List Scope) :
    ∀ b : Building, (∀ x ∈ pre, (Scope.Validate U x).2 = none) →
      (pre.map (fun x => ToLower U x.Name)).Nodup →
      (∀ x ∈ pre, (b.scopeNameMap (ToLower U x.Name)).isSome = false) →
      (registerScopes U (pre ++ bad :: post) b).2 = some err := by
  induction pre with
  | nil =>
    intro b _ _ _
    rw [List.nil_append, registerScopes_cons_invalid U bad post b err hbad]
  | cons s rest ih =>
    intro b hv hnd hk
    rw [List.cons_append, registerScopes_cons_valid U s _ b (hv s (List.mem_cons_self _ _))]
    rw [if_neg (by rw [hk s (List.mem_cons_self _ _)]; simp)]
    rw [List.map_cons, List.nodup_cons] at hnd
    apply ih _ (fun x hx => hv x (List.mem_cons_of_mem _ hx)) hnd.2
    intro x hx
    simp only
    have hne : ToLower U x.Name ≠ ToLower U s.Name := by
      intro he
      apply hnd.1
      rw [← he]
      exact List.mem_map.2 ⟨x, hx, rfl⟩
    rw [Function.update_noteq hne]
    exact hk x (List.mem_cons_of_mem _ hx)

theorem registerScopes_duplicate (U : Unicode) (second : Scope) (post : List Scope)
    (hsecond : (Scope.Validate U second).2 = none) (pre : List Scope) :
    ∀ b : Building, (∀ x ∈ pre, (Scope.Validate U x).2 = none) →
      ((b.scopeNameMap (ToLower U second.Name)).isSome = true ∨
        ∃ first ∈ pre, ToLower U first.Name = ToLower U second.Name) →
      ∃ name, (registerScopes U (pre ++ second :: post) b).2 = some (alreadyExists name) := by
  induction pre with
  | nil =>
    intro b _ h
    rcases h with h | ⟨f, hf, _⟩
    · rw [List.nil_append, registerScopes_cons_valid U second post b hsecond, if_pos h]
      exact ⟨_, rfl⟩
    · cases hf
  | cons s rest ih =>
    intro b hv h
    rw [List.cons_append, registerScopes_cons_valid U s _ b (hv s (List.mem_cons_self _ _))]
    by_cases hk : (b.scopeNameMap (ToLower U s.Name)).isSome = true
    · rw [if_pos hk]
      exact ⟨_, rfl⟩
    · rw [if_neg hk]
      apply ih _ (fun x hx => hv x (List.mem_cons_of_mem _ hx))
      simp only
      by_cases hsame : ToLower U second.Name = ToLower U s.Name
      · left
        rw [hsame, Function.update_same]
        rfl
      · rw [Function.update_noteq hsame]
        rcases h with h | ⟨f, hf, hfe⟩
        · exact Or.inl h
        · rcases List.mem_cons.1 hf with hf | hf
          · subst hf
            exact absurd hfe.symm hsame
          · exact Or.inr ⟨f, hf, hfe⟩

theorem initializeScopes_register_error (U : Unicode) (w : InitCollaborators) (r : Registry)
    (scopes : List Scope) (err : Error) (hnil : r.rootToken = none)
    (h : (registerScopes U scopes Building.fresh).2 = some err) :
    (Controller.InitializeScopes U w r scopes).2 = Except.error err ∧
      (Controller.InitializeScopes U w r scopes).1.rootToken = none := by
  rw [initializeScopes_fresh U w r scopes hnil]
  revert h
  rcases registerScopes U scopes Building.fresh with ⟨b, e⟩
  intro h
  simp only at h
  subst h
  exact ⟨rfl, rfl⟩

theorem fresh_no_key (n : GoString) : (Building.fresh.scopeNameMap n).isSome = false := rfl

/-! ## Claims C13 and C14 -/

/-- Claim C13 as stated fails.  First three conjuncts: the URI `/ /` starts with `/` and is
not empty after trimming slashes (a blank remains), yet `Validate` rejects the scope, because
it also trims white space after the slashes.  Last conjunct: with a duplicate name before
the first invalid scope, `InitializeScopes` fails with the duplicate error, not with the
error of `Validate`. -/
theorem validate_counterexample :
    HasPrefix (TrimSpace scopeBlankURI.URI) ['/'] = true ∧
      Trim (TrimSpace scopeBlankURI.URI) ['/'] = [' '] ∧
      (Scope.Validate asciiCase scopeBlankURI).2 = some "scope: invalid URI for scope".toList ∧
      (Scope.Validate asciiCase scopeAbcd).2 = none ∧
      (Scope.Validate asciiCase scopeBadMethod).2 = some "scope: invalid HTTP method".toList ∧
      (Controller.InitializeScopes asciiCase exampleInit Registry.initial
        [scopeAbcd, scopeAbcd, scopeBadMethod]).2 =
          Except.error (alreadyExists "abcd".toList) :=
  ⟨by decide, by decide, by decide, by decide, by decide, rfl⟩

/-- Claim C13, amended.  `Scope.Validate` returns an error if and only if the name is shorter
than 4 bytes, or the method, trimmed and upper-cased, is not one of the nine known methods,
or the white-space-trimmed URI does not start with `/` or is empty after trimming slashes
and then white space; and in a registry without root token, `InitializeScopes` fails with
that error at the first input scope that violates this, provided the scopes before it have
pairwise distinct lower-cased names. -/
theorem validate_spec (U : Unicode) (s : Scope) :
    ((Scope.Validate U s).2 ≠ none ↔
      (len s.Name < 4 ∨ ToUpper U (TrimSpace s.Method) ∉ knownMethods ∨
        HasPrefix (TrimSpace s.URI) ['/'] = false ∨
        TrimSpace (Trim (TrimSpace s.URI) ['/']) = [])) ∧
    (∀ (w : InitCollaborators) (r : Registry) (pre post : List Scope) (err : Error),
      r.rootToken = none → (∀ x ∈ pre, (Scope.Validate U x).2 = none) →
      (pre.map (fun x => ToLower U x.Name)).Nodup →
      (Scope.Validate U s).2 = some err →
      (Controller.InitializeScopes U w r (pre ++ s :: post)).2 = Except.error err) := by
  refine ⟨validate_error_iff U s, ?_⟩
  intro w r pre post err hnil hpre hnd hbad
  exact (initializeScopes_register_error U w r _ err hnil
    (registerScopes_first_invalid U s post err hbad pre Building.fresh hpre hnd
      (fun x _ => fresh_no_key _))).1

/-- Claim C13, amended, at a concrete input: a scope with an unknown method after a valid
one. -/
theorem validate_spec_witness :
    (Controller.InitializeScopes asciiCase exampleInit Registry.initial
      ([scopeAbcd] ++ scopeBadMethod :: [exampleScope])).2 =
        Except.error "scope: invalid HTTP method".toList :=
  (validate_spec asciiCase scopeBadMethod).2 exampleInit Registry.initial [scopeAbcd]
    [exampleScope] "scope: invalid HTTP method".toList rfl (by decide) (by decide) (by decide)

/-- Claim C14 as stated fails when the second of the two scopes is itself invalid: `abcd`
and `ABCD` have equal lower-cased names and the scope before the second is valid, but the
second has an unknown method, and `InitializeScopes` returns the error of `Validate`, which
is checked before the name. -/
theorem duplicate_counterexample :
    ToLower asciiCase scopeAbcd.Name = ToLower asciiCase scopeBadMethod.Name ∧
      (Scope.Validate asciiCase scopeAbcd).2 = none ∧
      (Controller.InitializeScopes asciiCase exampleInit Registry.initial
        [scopeAbcd, scopeBadMethod]).2 = Except.error "scope: invalid HTTP method".toList :=
  ⟨by decide, by decide, rfl⟩

/-- Claim C14, amended.  In a registry without root token: if two scopes of the input of
`InitializeScopes` have names that are equal after lower-casing and every scope up to and
including the second one is valid, `InitializeScopes` returns an "already exists" error and
does not assign the root token.  And after a successful call the registered names are the
lower-cased input names and are pairwise distinct. -/
theorem duplicate_rejected (U : Unicode) (w : InitCollaborators) (r : Registry)
    (pre post : List Scope) (first second : Scope)
    (hnil : r.rootToken = none) (hfirst : first ∈ pre)
    (hsame : ToLower U first.Name = ToLower U second.Name)
    (hpre : ∀ x ∈ pre, (Scope.Validate U x).2 = none)
    (hsecond : (Scope.Validate U second).2 = none) :
    ((∃ name, (Controller.InitializeScopes U w r (pre ++ second :: post)).2 =
        Except.error (alreadyExists name)) ∧
      (Controller.InitializeScopes U w r (pre ++ second :: post)).1.rootToken = none) ∧
    (∀ (w' : InitCollaborators) (r' r1 : Registry) (scopes : List Scope) (root : GoString),
      Controller.InitializeScopes U w' r' scopes = (r1, Except.ok root) →
      r1.allScopes.map Scope.Name = scopes.map (fun s => ToLower U s.Name) ∧
        (r1.allScopes.map Scope.Name).Nodup) := by
  constructor
  · obtain ⟨name, hname⟩ := registerScopes_duplicate U second post hsecond pre Building.fresh
      hpre (Or.inr ⟨first, hfirst, hsame⟩)
    obtain ⟨h1, h2⟩ := initializeScopes_register_error U w r _ _ hnil hname
    exact ⟨⟨name, h1⟩, h2⟩
  · intro w' r' r1 scopes root h
    obtain ⟨_, b, hb, hr1⟩ := initializeScopes_ok U w' r' r1 scopes root h
    obtain ⟨h1, _, _, _⟩ := registerScopes_ok U scopes _ _ hb
    have hi := registerScopes_indexed U scopes _ _ indexed_fresh hb
    rw [hr1]
    simp only
    refine ⟨?_, hi.2.2⟩
    rw [h1]
    simp [Building.fresh, normalised, Function.comp_def]

/-- Claim C14, amended, at a concrete input: `roles.write` and `ROLES.WRITE`. -/
theorem duplicate_rejected_witness :
    (∃ name, (Controller.InitializeScopes asciiCase exampleInit Registry.initial
        ([exampleScope] ++
          { Name := "ROLES.WRITE".toList, Method := "put".toList, URI := "/roles/:id".toList,
            Description := [] } :: [])).2 = Except.error (alreadyExists name)) ∧
      (Controller.InitializeScopes asciiCase exampleInit Registry.initial
        ([exampleScope] ++
          { Name := "ROLES.WRITE".toList, Method := "put".toList, URI := "/roles/:id".toList,
            Description := [] } :: [])).1.rootToken = none :=
  (duplicate_rejected asciiCase exampleInit Registry.initial [exampleScope] [] exampleScope
    { Name := "ROLES.WRITE".toList, Method := "put".toList, URI := "/roles/:id".toList,
      Description := [] } rfl (List.mem_singleton_self _) (by decide) (by decide)
    (by decide)).1

/-! ## Claims C19 and C20 -/

theorem validateMembers_none_iff (vaultGet : GoString → GoString → Bool)
    (list : List GoString) :
    ∀ members : List GoString,
      (∀ x ∈ members, users.FindUserResourceByID vaultGet x = none) →
      (validateMembers vaultGet list members = none ↔
        ∀ x ∈ list, users.FindUserResourceByID vaultGet x = none) := by
  induction list with
  | nil => intro members _; simp [validateMembers]
  | cons m rest ih =>
    intro members hseen
    unfold validateMembers
    by_cases hm : m ∈ members
    · rw [if_pos hm, ih members hseen]
      simp only [List.mem_cons, forall_eq_or_imp]
      exact ⟨fun h => ⟨hseen m hm, h⟩, fun h => h.2⟩
    · rw [if_neg hm]
      cases hf : users.FindUserResourceByID vaultGet m with
      | some err =>
        simp only [List.mem_cons, forall_eq_or_imp, hf, reduceCtorEq, false_and]
      | none =>
        simp only
        rw [ih (m :: members) (fun x hx => by
          rcases List.mem_cons.1 hx with h | h
          · rw [h]; exact hf
          · exact hseen x h)]
        simp only [List.mem_cons, forall_eq_or_imp, hf, true_and]

theorem validateScopes_none_iff (scopeNameMap : Option (GoString → Option Int))
    (list : List GoString) :
    validateScopes scopeNameMap list [] = none ↔
      ∀ x ∈ list, hasScopeName scopeNameMap x = true := by
  induction list with
  | nil => simp [validateScopes]
  | cons s rest ih =>
    unfold validateScopes
    rw [if_neg (List.not_mem_nil s)]
    by_cases hk : hasScopeName scopeNameMap s = true
    · rw [if_neg (by simp [hk]), ih]
      simp only [List.mem_cons, forall_eq_or_imp, hk, true_and]
    · rw [if_pos (by simpa using hk)]
      simp only [List.mem_cons, forall_eq_or_imp, hk, reduceCtorEq, false_and]

/-- Claim C19.  `Role.Validate` returns no error if and only if the lower-cased role ID is
non-empty, `FindUserResourceByID` finds every member, and every name in `role.Scopes` is a
key of the registry's name index `scopeNameMap`; so a role that lists a scope that was never
registered is rejected. -/
theorem role_validate_iff (U : Unicode) (vaultGet : GoString → GoString → Bool)
    (reg : Registry) (role : Role) :
    (Role.Validate U vaultGet reg role).2 = none ↔
      (ToLower U role.ID ≠ [] ∧
        (∀ member ∈ role.Members, users.FindUserResourceByID vaultGet member = none) ∧
        (∀ scope ∈ role.Scopes, hasScopeName reg.scopeNameMap scope = true)) := by
  unfold Role.Validate
  simp only
  by_cases hid : ToLower U role.ID = []
  · rw [if_pos hid]
    simp [hid]
  · rw [if_neg hid]
    have hm := validateMembers_none_iff vaultGet role.Members [] (fun x hx => by cases hx)
    have hs := validateScopes_none_iff reg.scopeNameMap role.Scopes
    cases h1 : validateMembers vaultGet role.Members [] with
    | some err =>
      rw [h1] at hm
      simp only [reduceCtorEq, false_iff] at hm
      simp only [reduceCtorEq, false_iff]
      exact fun h => hm h.2.1
    | none =>
      rw [h1] at hm
      simp only [true_iff] at hm
      simp only
      cases h2 : validateScopes reg.scopeNameMap role.Scopes [] with
      | some err =>
        rw [h2] at hs
        simp only [reduceCtorEq, false_iff] at hs
        simp only [reduceCtorEq, false_iff]
        exact fun h => hs h.2.2
      | none =>
        rw [h2] at hs
        simp only [true_iff] at hs
        simp only [true_iff]
        exact ⟨hid, hm, hs⟩

/-- Claim C20 fails on the code.  On the tree with `GET /foo` (scope 1) and `GET /foo/:id`
(scope 2), the URL `/foo/` is matched to scope 1, but `/foo/?x=1` is matched to scope 2:
the slashes are trimmed before the query string is cut off, so the slash in front of `?`
stays and yields an empty last segment. -/
theorem query_string_changes_match :
    (addRoutes NewScopeRouteTree [("GET".toList, "/foo".toList, 1),
        ("GET".toList, "/foo/:id".toList, 2)]).GetMatchingScopes
        "GET".toList "/foo/".toList = some [1] ∧
      (addRoutes NewScopeRouteTree [("GET".toList, "/foo".toList, 1),
        ("GET".toList, "/foo/:id".toList, 2)]).GetMatchingScopes
        "GET".toList ("/foo/".toList ++ "?".toList ++ "x=1".toList) = some [2] ∧
      components "/foo/".toList = ["foo".toList] ∧
      components ("/foo/".toList ++ "?".toList ++ "x=1".toList) = ["foo".toList, []] := by
  decide

/-! ## Lemmas on the method mask and on trimming -/

theorem bitFieldForMethod_position (m : GoString) (hm : m ∈ knownMethods) :
    ∃ k, knownMethods[k]? = some m ∧ bitFieldForMethod m = 2 ^ k := by
  simp only [knownMethods, List.mem_cons, List.mem_singleton, List.not_mem_nil,
    or_false] at hm
  rcases hm with h | h | h | h | h | h | h | h | h
  · exact ⟨0, by rw [h]; rfl, by rw [h]; decide⟩
  · exact ⟨1, by rw [h]; rfl, by rw [h]; decide⟩
  · exact ⟨2, by rw [h]; rfl, by rw [h]; decide⟩
  · exact ⟨3, by rw [h]; rfl, by rw [h]; decide⟩
  · exact ⟨4, by rw [h]; rfl, by rw [h]; decide⟩
  · exact ⟨5, by rw [h]; rfl, by rw [h]; decide⟩
  · exact ⟨6, by rw [h]; rfl, by rw [h]; decide⟩
  · exact ⟨7, by rw [h]; rfl, by rw [h]; decide⟩
  · exact ⟨8, by rw [h]; rfl, by rw [h]; decide⟩

theorem knownMethods_position (k : Nat) (m : GoString) (h : knownMethods[k]? = some m) :
    m ∈ knownMethods ∧ bitFieldForMethod m = 2 ^ k := by
  have hm : m ∈ knownMethods := List.getElem?_mem h
  refine ⟨hm, ?_⟩
  have hk : k < 9 := by
    by_contra hk
    have : knownMethods[k]? = none := List.getElem?_eq_none (by
      show knownMethods.length ≤ k
      have : knownMethods.length = 9 := rfl
      omega)
    rw [this] at h
    cases h
  interval_cases k <;>
    (simp only [knownMethods, List.getElem?_cons_zero, List.getElem?_cons_succ,
      Option.some.injEq] at h
     rw [← h]
     decide)

theorem and_two_pow_ne_zero (x k : Nat) : x &&& 2 ^ k ≠ 0 ↔ x.testBit k = true := by
  rw [Nat.and_two_pow]
  cases h : x.testBit k
  · simp
  · simp

theorem trimFunc_snoc (s : GoString) (f : Char → Bool) (c : Char) (hc : f c = true) :
    TrimFunc (s ++ [c]) f = TrimFunc s f := by
  unfold TrimFunc
  by_cases hall : ∀ x ∈ s, f x = true
  · have h1 : List.dropWhile f (s ++ [c]) = [] := by
      rw [List.dropWhile_eq_nil_iff]
      intro x hx
      rcases List.mem_append.1 hx with h | h
      · exact hall x h
      · rw [List.mem_singleton.1 h]; exact hc
    have h2 : List.dropWhile f s = [] := by
      rw [List.dropWhile_eq_nil_iff]
      exact hall
    rw [h1, h2]
  · have h2 : List.dropWhile f s ≠ [] := by
      rw [Ne, List.dropWhile_eq_nil_iff]
      exact hall
    have h1 : List.dropWhile f (s ++ [c]) = List.dropWhile f s ++ [c] := by
      clear hall
      induction s with
      | nil => exact absurd rfl h2
      | cons a rest ih =>
        by_cases ha : f a = true
        · rw [List.cons_append, List.dropWhile_cons_of_pos ha, List.dropWhile_cons_of_pos ha]
          rw [List.dropWhile_cons_of_pos ha] at h2
          exact ih h2
        · rw [List.cons_append, List.dropWhile_cons_of_neg ha, List.dropWhile_cons_of_neg ha]
          rfl
    rw [h1, List.reverse_append, List.reverse_singleton, List.singleton_append,
      List.dropWhile_cons_of_pos hc]

theorem trimFunc_cons (s : GoString) (f : Char → Bool) (c : Char) (hc : f c = true) :
    TrimFunc (c :: s) f = TrimFunc s f := by
  unfold TrimFunc
  rw [List.dropWhile_cons_of_pos hc]

theorem components_snoc_slash (u : GoString) : components (u ++ ['/']) = components u := by
  unfold components Trim
  rw [trimFunc_snoc u _ '/' (by simp)]

theorem components_cons_slash (u : GoString) : components ('/' :: u) = components u := by
  unfold components Trim
  rw [trimFunc_cons u _ '/' (by simp)]

/-! ## Claims C25 and C26 -/

/-- Claim C25.  A trailing and a leading slash are insignificant for matching: for every
tree, method and URL (with or without a `?`; in particular for every URL without one),
`GetMatchingScopes` returns for the URL followed by `/` and for the URL preceded by `/` what
it returns for the URL itself.  On the tree with `GET /booya` and `GET /booya/:id`, the URL
`/booya/` is matched to the scope of `/booya` only. -/
theorem slashes_insignificant (t : ScopeRouteTree) (m u : GoString) :
    t.GetMatchingScopes m (u ++ "/".toList) = t.GetMatchingScopes m u ∧
      t.GetMatchingScopes m ("/".toList ++ u) = t.GetMatchingScopes m u ∧
      (addRoutes NewScopeRouteTree [("GET".toList, "/booya/:id".toList, 6),
        ("GET".toList, "/booya".toList, 7)]).GetMatchingScopes "GET".toList "/booya/".toList =
          some [7] := by
  refine ⟨?_, ?_, by decide⟩
  · unfold ScopeRouteTree.GetMatchingScopes
    rw [show u ++ "/".toList = u ++ ['/'] from rfl, components_snoc_slash]
  · unfold ScopeRouteTree.GetMatchingScopes
    rw [show "/".toList ++ u = '/' :: u from rfl, components_cons_slash]

/-- Claim C26.  `bitFieldForMethod` maps the nine methods GET, HEAD, POST, PUT, DELETE,
CONNECT, OPTIONS, TRACE, PATCH, in this order, to `2^0`, ..., `2^8`: nine pairwise distinct
single-bit values below `2^16`; it maps every other string to 0, the lower-case spellings
among them; and `hasMethod(m)` is true on a node if and only if `m` is the `k`-th of the
nine methods for some `k` and bit `k` of the node's mask is set. -/
theorem method_bitmask_encoding :
    knownMethods.map bitFieldForMethod = (List.range 9).map (fun k => 2 ^ k) ∧
      (knownMethods.map bitFieldForMethod).Nodup ∧
      (∀ m : GoString, m ∈ knownMethods → bitFieldForMethod m < 2 ^ 16) ∧
      (∀ m : GoString, m ∉ knownMethods → bitFieldForMethod m = 0) ∧
      (∀ m : GoString, m ∈ knownMethods → bitFieldForMethod (m.map Char.toLower) = 0) ∧
      (∀ (n : node) (m : GoString), n.hasMethod m = true ↔
        ∃ k, knownMethods[k]? = some m ∧ n.methods.testBit k = true) := by
  refine ⟨by decide, by decide, by decide, ?_, by decide, ?_⟩
  · intro m hm
    exact (bitFieldForMethod_eq_zero_iff m).2 hm
  · intro n m
    rw [hasMethod_iff]
    constructor
    · intro h
      have hm : m ∈ knownMethods := by
        by_contra hm
        rw [(bitFieldForMethod_eq_zero_iff m).2 hm, Nat.and_zero] at h
        exact h rfl
      obtain ⟨k, hk, hb⟩ := bitFieldForMethod_position m hm
      rw [hb, and_two_pow_ne_zero] at h
      exact ⟨k, hk, h⟩
    · rintro ⟨k, hk, hb⟩
      rw [(knownMethods_position k m hk).2, and_two_pow_ne_zero]
      exact hb

/-- Claim C26 at a concrete input: the lower-case spelling `get` is not a known method and
has no bit. -/
theorem method_bitmask_encoding_witness : bitFieldForMethod "get".toList = 0 :=
  method_bitmask_encoding.2.2.2.1 "get".toList (by decide)

/-! ## Claims C21, C27 and C29 -/

/-- Claim C21 fails on the code.  On the tree of `TestRouteMatching` (16 routes, 21 nodes)
the call `AddRoute("GET", "/foo/bar/baz", 1001)`, which repeats the second route with its own
scope, adds two nodes, and `GET /foo/bar/baz` is then matched to scope 1001 twice: the node
`bar` on the path carries scope 1005 since `DELETE /foo/bar` was added, and the walk does not
pass through a node that carries a scope.  The same on a tree of two routes: after
`GET /a/b` (scope 2) and `GET /a` (scope 1), `AddRoute("POST", "/a/b", 2)` adds two nodes and
the terminal node of `/a/b` keeps its mask. -/
theorem reregistration_adds_nodes :
    (addRoutes NewScopeRouteTree testRoutes).root.size = 21 ∧
      ((addRoutes NewScopeRouteTree testRoutes).AddRoute "GET".toList "/foo/bar/baz".toList
        1001).root.size = 23 ∧
      (addRoutes NewScopeRouteTree testRoutes).GetMatchingScopes "GET".toList
        "/foo/bar/baz".toList = some [1000, 1002, 1001] ∧
      ((addRoutes NewScopeRouteTree testRoutes).AddRoute "GET".toList "/foo/bar/baz".toList
        1001).GetMatchingScopes "GET".toList "/foo/bar/baz".toList =
          some [1000, 1002, 1001, 1001] ∧
      (addRoutes NewScopeRouteTree [("GET".toList, "/a/b".toList, 2),
        ("GET".toList, "/a".toList, 1)]).root.size = 3 ∧
      (addRoutes NewScopeRouteTree [("GET".toList, "/a/b".toList, 2),
        ("GET".toList, "/a".toList, 1), ("POST".toList, "/a/b".toList, 2)]).root.size = 5 ∧
      (addRoutes NewScopeRouteTree [("GET".toList, "/a/b".toList, 2),
        ("GET".toList, "/a".toList, 1), ("POST".toList, "/a/b".toList, 2)]).root.children.map
          (fun a => a.children.map (fun b => (b.scope, b.methods))) =
            [[(some 2, get)], [(some 2, post)]] := by
  decide

/-- Claim C27 fails on the code.  In a fresh process the init handler is called twice with
the same scope list.  The first call succeeds and sets the root token.  The second call fails
with `ErrorScopesInitialized`, and the handler calls `Reset`: the root token stays, the tree
and the scope list are nil.  `AuthorizeToken` with another token than the root token then
dereferences the nil tree. -/
theorem nil_tree_behind_root_token :
    (RouteHandler.InitializeScopes asciiCase exampleInit
      (RouteHandler.InitializeScopes asciiCase exampleInit Registry.initial
        (some [exampleScope])) (some [exampleScope])).rootToken =
          some (List.replicate 64 'A') ∧
      (RouteHandler.InitializeScopes asciiCase exampleInit
        (RouteHandler.InitializeScopes asciiCase exampleInit Registry.initial
          (some [exampleScope])) (some [exampleScope])).scopeTree.isSome = false ∧
      (RouteHandler.InitializeScopes asciiCase exampleInit
        (RouteHandler.InitializeScopes asciiCase exampleInit Registry.initial
          (some [exampleScope])) (some [exampleScope])).allScopes.length = 0 ∧
      (RouteHandler.InitializeScopes asciiCase exampleInit Registry.initial
        (some [exampleScope])).allScopes.length = 1 ∧
      Controller.AuthorizeToken asciiCase (exampleCollaborators (true, none))
        (RouteHandler.InitializeScopes asciiCase exampleInit
          (RouteHandler.InitializeScopes asciiCase exampleInit Registry.initial
            (some [exampleScope])) (some [exampleScope]))
        "token-of-alice".toList exampleRequest = Verdict.panicked ∧
      Controller.AuthorizeToken asciiCase (exampleCollaborators (true, none))
        (Controller.Reset exampleRegistry) "token-of-alice".toList exampleRequest =
          Verdict.panicked := by
  decide

/-- Claim C29 fails on the code.  The three routes of the comment on `ScopeRouteTree`, with
pairwise distinct scopes: added in the order of the comment, `GET /foo/bar/baz` is matched to
the scopes 3 and 2 only; added with `/foo/*` first, it is matched to all three.  In the first
order `/foo/*` ends at the wildcard node that `/foo/*/baz` passes through, and the matching
loop does not look below a wildcard node that has the method. -/
theorem registration_order_matters :
    (commentRoutes.map (fun c => c.2.2)).Nodup ∧
      List.Perm [("GET".toList, "/foo/*".toList, 3), ("GET".toList, "/foo/*/baz".toList, 1),
        ("GET".toList, "/foo/bar/*".toList, 2)] commentRoutes ∧
      (addRoutes NewScopeRouteTree commentRoutes).GetMatchingScopes "GET".toList
        "/foo/bar/baz".toList = some [3, 2] ∧
      (addRoutes NewScopeRouteTree [("GET".toList, "/foo/*".toList, 3),
        ("GET".toList, "/foo/*/baz".toList, 1),
        ("GET".toList, "/foo/bar/*".toList, 2)]).GetMatchingScopes "GET".toList
        "/foo/bar/baz".toList = some [3, 2, 1] := by
  refine ⟨by decide, ?_, by decide, by decide⟩
  decide

/-! ## Lemmas on the scope of a node and its method mask -/

theorem or_ne_zero_right (x b : Nat) (hb : b ≠ 0) : x ||| b ≠ 0 := by
  intro h
  apply hb
  apply Nat.eq_of_testBit_eq
  intro i
  have := congrArg (fun n => n.testBit i) h
  simp only [Nat.testBit_or, Nat.zero_testBit, Bool.or_eq_false_iff] at this
  simp [this.2]

theorem addComponents_masked (m : GoString) (s : Int) (hm : bitFieldForMethod m ≠ 0)
    (comps : List GoString) :
    ∀ n : node, AllNodes (fun x => x.scope ≠ none ↔ x.methods ≠ 0) n →
      AllNodes (fun x => x.scope ≠ none ↔ x.methods ≠ 0) (addComponents m s comps n) := by
  induction comps with
  | nil =>
    intro n hn
    rw [addComponents_nil]
    rw [allNodes_iff] at hn
    refine AllNodes.mk _ _ _ _ ?_ hn.2
    rw [scope_mk, methods_mk]
    exact ⟨fun _ => or_ne_zero_right _ _ hm, fun _ h => (by cases h)⟩
  | cons comp rest ih =>
    intro n hn
    rw [addComponents_cons]
    rw [allNodes_iff] at hn
    refine AllNodes.mk _ _ _ _ hn.1 ?_
    intro c' hc'
    rcases mem_descend _ _ _ _ _ _ hc' with h | ⟨c, hc, _, h⟩ | h
    · exact hn.2 c' h
    · rw [h]
      exact ih c (hn.2 c hc)
    · rw [h]
      refine ih _ (AllNodes.mk _ _ _ _ ?_ (fun c hc => by cases hc))
      rw [scope_mk, methods_mk]
      exact ⟨fun h => absurd rfl h, fun h => absurd rfl h⟩

theorem addRoutes_masked (calls : List (GoString × GoString × Int)) :
    ∀ t : ScopeRouteTree, (∀ c ∈ calls, c.1 ∈ knownMethods) →
      AllNodes (fun x => x.scope ≠ none ↔ x.methods ≠ 0) t.root →
      AllNodes (fun x => x.scope ≠ none ↔ x.methods ≠ 0) (addRoutes t calls).root := by
  induction calls with
  | nil => intro t _ h; exact h
  | cons c rest ih =>
    intro t hk h
    rw [addRoutes_cons]
    refine ih _ (fun x hx => hk x (List.mem_cons_of_mem _ hx)) ?_
    have hc : bitFieldForMethod c.1 ≠ 0 := fun h0 =>
      (bitFieldForMethod_eq_zero_iff c.1).1 h0 (hk c (List.mem_cons_self _ _))
    exact addComponents_masked c.1 c.2.2 hc (components c.2.1) t.root h

/-! ## Lemmas on the indices of the registered scopes -/

theorem mem_registrations (l : List Scope) :
    ∀ (start : Nat) (c : GoString × GoString × Int), c ∈ registrations start l →
      (start : Int) ≤ c.2.2 ∧ c.2.2 < ((start + l.length : Nat) : Int) := by
  induction l with
  | nil => intro start c h; cases h
  | cons s rest ih =>
    intro start c h
    unfold registrations at h
    rcases List.mem_cons.1 h with h | h
    · rw [h]
      simp only [List.length_cons]
      omega
    · have := ih (start + 1) c h
      simp only [List.length_cons]
      omega

theorem index_isSome (allScopes : List Scope) (i : Int) (h0 : 0 ≤ i)
    (h1 : i < (allScopes.length : Int)) : (index allScopes i).isSome = true := by
  unfold index
  rw [if_neg (not_lt.2 h0)]
  have : i.toNat < allScopes.length := by omega
  rw [List.getElem?_eq_getElem this]
  rfl

theorem authorizeToken_invalid (U : Unicode) (w : util.Collaborators) (r : Registry)
    (token : GoString) (scope : Scope) (err : Error)
    (h : (Scope.ValidateMethodAndURI U scope).2 = some err) :
    Controller.AuthorizeToken U w r token scope = Verdict.deny err := by
  unfold Controller.AuthorizeToken
  rcases hv : Scope.ValidateMethodAndURI U scope with ⟨sc1, e⟩
  rw [hv] at h
  simp only at h
  subst h
  rfl

theorem authorizeToken_no_panic (U : Unicode) (w : util.Collaborators) (r : Registry)
    (t : ScopeRouteTree) (token : GoString) (scope : Scope) (htree : r.scopeTree = some t)
    (hidx : ∀ m url, ∃ l, t.GetMatchingScopes m url = some l ∧
      ∀ i ∈ l, (index r.allScopes i).isSome = true) :
    Controller.AuthorizeToken U w r token scope ≠ Verdict.panicked := by
  cases hv : (Scope.ValidateMethodAndURI U scope).2 with
  | some err =>
    rw [authorizeToken_invalid U w r token scope err hv]
    intro h
    cases h
  | none =>
    rw [authorizeToken_valid U w r token scope hv]
    obtain ⟨l, hl, hi⟩ := hidx (Scope.ValidateMethodAndURI U scope).1.Method
      (Scope.ValidateMethodAndURI U scope).1.URI
    by_cases hroot : Controller.IsRootToken r token = true
    · rw [if_pos hroot]
      intro h
      cases h
    · rw [if_neg hroot, htree]
      simp only
      rw [hl]
      simp only
      by_cases h0 : l.length = 0
      · rw [if_pos h0]
        intro h
        cases h
      · rw [if_neg h0]
        by_cases h10 : len token < 10
        · rw [if_pos h10]
          intro h
          cases h
        · rw [if_neg h10]
          cases hu : util.AuthorizeToken w token with
          | error e =>
            simp only
            intro h
            cases h
          | ok subject =>
            simp only
            rcases (authorizeScopes_allow_iff w r.allScopes subject l hi).2 with h | h
            · rw [h]
              intro h'
              cases h'
            · rw [h]
              intro h'
              cases h'

/-! ## Claims C22 and C28 -/

/-- Claim C22, node invariant.  In every tree built from `NewScopeRouteTree` by `AddRoute`
calls whose methods are among the nine known ones, every node, the root included, has its
scope set if and only if its method mask is not zero. -/
theorem node_invariant (calls : List (GoString × GoString × Int))
    (hknown : ∀ c ∈ calls, c.1 ∈ knownMethods) :
    AllNodes (fun n => n.scope ≠ none ↔ n.methods ≠ 0)
      (addRoutes NewScopeRouteTree calls).root := by
  refine addRoutes_masked calls NewScopeRouteTree hknown ?_
  refine AllNodes.mk _ _ _ _ ?_ (fun c hc => by cases hc)
  rw [scope_mk, methods_mk]
  exact ⟨fun h => absurd rfl h, fun h => absurd rfl h⟩

/-- Claim C22 at a concrete input: the routes of `TestRouteMatching`. -/
theorem node_invariant_witness :
    AllNodes (fun n => n.scope ≠ none ↔ n.methods ≠ 0)
      (addRoutes NewScopeRouteTree testRoutes).root :=
  node_invariant testRoutes (by decide)

/-- Claim C28.  After a successful `InitializeScopes` the route tree is set and, for every
method and URL, `GetMatchingScopes` returns a list (it does not panic) whose every index `i`
satisfies `0 ≤ i < len(allScopes)`, so that `allScopes[i]` is in range; and `AuthorizeToken`
does not panic in that registry, whatever the token, the request and the answers of the
collaborators. -/
theorem scope_indices_in_bounds (U : Unicode) (w : InitCollaborators) (r r1 : Registry)
    (scopes : List Scope) (root : GoString)
    (h : Controller.InitializeScopes U w r scopes = (r1, Except.ok root)) :
    ∃ t, r1.scopeTree = some t ∧
      (∀ m url : GoString, ∃ l, t.GetMatchingScopes m url = some l ∧
        ∀ i ∈ l, 0 ≤ i ∧ i < (r1.allScopes.length : Int) ∧
          (index r1.allScopes i).isSome = true) ∧
      (∀ (w' : util.Collaborators) (token : GoString) (request : Scope),
        Controller.AuthorizeToken U w' r1 token request ≠ Verdict.panicked) := by
  obtain ⟨_, b, hb, hr1⟩ := initializeScopes_ok U w r r1 scopes root h
  obtain ⟨h1, _, h3, _⟩ := registerScopes_ok U scopes _ _ hb
  have htree : r1.scopeTree =
      some (addRoutes NewScopeRouteTree (registrations 0 r1.allScopes)) := by
    rw [hr1]
    simp only
    rw [h3, h1]
    rfl
  have hidx : ∀ m url : GoString, ∃ l,
      (addRoutes NewScopeRouteTree (registrations 0 r1.allScopes)).GetMatchingScopes m url =
        some l ∧
      ∀ i ∈ l, 0 ≤ i ∧ i < (r1.allScopes.length : Int) ∧
        (index r1.allScopes i).isSome = true := by
    intro m url
    obtain ⟨l, hl, hc⟩ := matched_only_if_covered (registrations 0 r1.allScopes) m url
    refine ⟨l, hl, ?_⟩
    intro i hi
    obtain ⟨uri, hu, _⟩ := hc i hi
    have hb := mem_registrations r1.allScopes 0 _ hu
    simp only [Nat.zero_add, Nat.cast_zero] at hb
    exact ⟨hb.1, hb.2, index_isSome _ _ hb.1 hb.2⟩
  refine ⟨_, htree, hidx, ?_⟩
  intro w' token request
  refine authorizeToken_no_panic U w' r1 _ token request htree ?_
  intro m url
  obtain ⟨l, hl, hi⟩ := hidx m url
  exact ⟨l, hl, fun i h => (hi i h).2.2⟩

/-- Claim C28 at a concrete input: the example registry. -/
theorem scope_indices_in_bounds_witness :
    ∃ t, exampleRegistry.scopeTree = some t ∧
      (∀ m url : GoString, ∃ l, t.GetMatchingScopes m url = some l ∧
        ∀ i ∈ l, 0 ≤ i ∧ i < (exampleRegistry.allScopes.length : Int) ∧
          (index exampleRegistry.allScopes i).isSome = true) ∧
      (∀ (w' : util.Collaborators) (token : GoString) (request : Scope),
        Controller.AuthorizeToken asciiCase w' exampleRegistry token request ≠
          Verdict.panicked) :=
  scope_indices_in_bounds asciiCase exampleInit Registry.initial exampleRegistry
    [exampleScope] (List.replicate 64 'A') rfl

/-! ## Lemmas on the path to the terminal node of a route -/

theorem hasPath_nil (m : GoString) (s : Int) (n : node) :
    hasPath m s [] n = true ↔ n.scope = some s ∧ n.hasMethod m = true := by
  simp [hasPath]

theorem hasPath_cons (m : GoString) (s : Int) (l : Option GoString)
    (ls : List (Option GoString)) (n : node) :
    hasPath m s (l :: ls) n = true ↔
      ∃ c ∈ n.children, c.urlComponent = l ∧ hasPath m s ls c = true := by
  simp [hasPath, List.any_eq_true]

theorem label_of_segment (comp : GoString) (c : node)
    (h : (isWildCard (TrimSpace comp) = true ∧ c.urlComponent = none) ∨
      (isWildCard (TrimSpace comp) = false ∧ c.urlComponent = some (TrimSpace comp))) :
    c.urlComponent = label comp := by
  unfold label
  rcases h with ⟨h1, h2⟩ | ⟨h1, h2⟩
  · rw [if_pos h1, h2]
  · rw [if_neg (by simp [h1]), h2]

theorem addComponents_hasPath (calls : List (GoString × GoString × Int)) (m : GoString)
    (s : Int) (hm : bitFieldForMethod m ≠ 0) (comps : List GoString) :
    ∀ n : node, AllNodes (NodeInv calls) n →
      hasPath m s (comps.map label) (addComponents m s comps n) = true := by
  induction comps with
  | nil =>
    intro n _
    rw [List.map_nil, hasPath_nil]
    exact ⟨rfl,
      (hasMethod_addComponents_nil m m s n).2 (Or.inr (bitFieldForMethod_and_self m hm))⟩
  | cons comp rest ih =>
    intro n hn
    rw [List.map_cons, hasPath_cons, addComponents_cons, children_mk]
    rw [allNodes_iff] at hn
    obtain ⟨c0, h1, h2, _, h4⟩ := descend_target_facts calls (TrimSpace comp) rest.isEmpty s
      (addComponents m s rest) n.children hn.2
    refine ⟨_, h1, ?_, ih c0 h2⟩
    rw [addComponents_urlComponent]
    exact label_of_segment comp c0 h4

theorem addComponents_keeps_path (m m' : GoString) (s s' : Int)
    (labels : List (Option GoString)) :
    ∀ (comps : List GoString) (n : node), hasPath m s labels n = true →
      (comps = [] → n.scope = none ∨ n.scope = some s') →
      hasPath m s labels (addComponents m' s' comps n) = true := by
  induction labels with
  | nil =>
    intro comps n h hc
    rw [hasPath_nil] at h ⊢
    have := terminal_persist m m' s s' comps n h.2 h.1 hc
    exact ⟨this.2, this.1⟩
  | cons l ls ih =>
    intro comps n h _
    rw [hasPath_cons] at h ⊢
    obtain ⟨c, hc, hl, hp⟩ := h
    cases comps with
    | nil => exact ⟨c, hc, hl, hp⟩
    | cons comp rest =>
      rw [addComponents_cons, children_mk]
      rcases descend_keeps (TrimSpace comp) rest.isEmpty s' (addComponents m' s' rest)
        n.children c hc with h1 | ⟨h1, h2⟩
      · exact ⟨c, h1, hl, hp⟩
      · refine ⟨_, h2, ?_, ih rest c hp (fun _ => ?_)⟩
        · rw [addComponents_urlComponent]
          exact hl
        · rcases reusable_scope _ _ _ _ h1 with h | h
          · exact Or.inl h
          · exact Or.inr h.1

theorem addRoutes_keeps_path (m : GoString) (s : Int) (labels : List (Option GoString))
    (later : List (GoString × GoString × Int)) :
    ∀ t : ScopeRouteTree, hasPath m s labels t.root = true →
      hasPath m s labels (addRoutes t later).root = true := by
  induction later with
  | nil => intro t h; exact h
  | cons c rest ih =>
    intro t h
    rw [addRoutes_cons]
    exact ih _ (addComponents_keeps_path m c.1 s c.2.2 labels (components c.2.1) t.root h
      (fun h0 => absurd h0 (components_ne_nil _)))

/-! ## Claims C23 and C24 -/

/-- Claim C23 as stated fails for a pattern with white space next to a slash.  After
`AddRoute("GET", "/a /b", 1)` on a fresh tree the segments are `a ` and `b`, no wildcards, but
the tree has no path with the literals `a ` and `b`: `AddRoute` stores the segment `a ` as
`a`. -/
theorem terminal_path_counterexample :
    components "/a /b".toList = ["a ".toList, "b".toList] ∧
      ("a ".toList :: ["b".toList]).map isWildCard = [false, false] ∧
      hasPath "GET".toList 1 [some "a ".toList, some "b".toList]
        (NewScopeRouteTree.AddRoute "GET".toList "/a /b".toList 1).root = false ∧
      hasPath "GET".toList 1 [some "a".toList, some "b".toList]
        (NewScopeRouteTree.AddRoute "GET".toList "/a /b".toList 1).root = true := by
  decide

/-- Claim C23, amended.  After `AddRoute(m, p, s)` with a known method `m`, on a tree built
by `AddRoute` calls, and after any number of further `AddRoute` calls, the tree contains a
path from the root whose `i`-th node is a wildcard node when the white-space-trimmed `i`-th
segment of `p` is a wildcard and otherwise has the white-space-trimmed segment as its
literal, and whose last node has scope `s` and a method mask containing `m`. -/
theorem route_terminal_persists (before after : List (GoString × GoString × Int))
    (m p : GoString) (s : Int) (hm : m ∈ knownMethods) :
    hasPath m s ((components p).map label)
      (addRoutes NewScopeRouteTree (before ++ (m, p, s) :: after)).root = true := by
  rw [addRoutes_append, addRoutes_cons]
  apply addRoutes_keeps_path
  exact addComponents_hasPath before m s
    (fun h0 => (bitFieldForMethod_eq_zero_iff m).1 h0 hm) (components p) _
    (addRoutes_inv before)

/-- Claim C23, amended, at a concrete input: the route `GET /foo/bar/baz` among the routes of
`TestRouteMatching`. -/
theorem route_terminal_persists_witness :
    hasPath "GET".toList 1001 ((components "/foo/bar/baz".toList).map label)
      (addRoutes NewScopeRouteTree
        ([("GET".toList, "/foo/*".toList, 1000)] ++
          ("GET".toList, "/foo/bar/baz".toList, 1001) :: testRoutes.drop 2)).root = true :=
  route_terminal_persists [("GET".toList, "/foo/*".toList, 1000)] (testRoutes.drop 2)
    "GET".toList "/foo/bar/baz".toList 1001 (by decide)

/-- Claim C24 as stated fails.  After `AddRoute("GET", "/a", 1)`, the call
`AddRoute("GET", "/a/b", 2)` does not walk through the node `a`, which carries scope 1: on the
non-final segment `a` it appends a second child with the literal `a` to the root and puts `b`
below that one. -/
theorem shared_segment_counterexample :
    (addRoutes NewScopeRouteTree [("GET".toList, "/a".toList, 1)]).root.children.map
        (fun c => (c.urlComponent, c.scope, c.children.length)) =
          [(some "a".toList, some 1, 0)] ∧
      (addRoutes NewScopeRouteTree [("GET".toList, "/a".toList, 1),
        ("GET".toList, "/a/b".toList, 2)]).root.children.map
        (fun c => (c.urlComponent, c.scope, c.children.length)) =
          [(some "a".toList, some 1, 0), (some "a".toList, none, 1)] := by
  decide

/-- Claim C24, amended.  On every segment (white-space trimmed), final or not, `AddRoute`
walks into the first child that is reusable, and a child is reusable if and only if its
segment matches (a wildcard child for a wildcard segment, or a child with the equal literal)
and it carries no scope or, on the final segment only, carries the scope being registered.
When no child is reusable, a new child is appended and the walk goes on below it.  The node
itself keeps its segment, mask and scope. -/
theorem child_reuse_rule (m : GoString) (s : Int) (comp : GoString) (rest : List GoString)
    (n : node) :
    (∀ c : node, reusable (TrimSpace comp) rest.isEmpty s c = true ↔
      ((isWildCard (TrimSpace comp) = true ∧ c.urlComponent = none) ∨
        c.urlComponent = some (TrimSpace comp)) ∧
      (c.scope = none ∨ (c.scope = some s ∧ rest = []))) ∧
    (∀ (pre : List node) (c : node) (post : List node), n.children = pre ++ c :: post →
      (∀ x ∈ pre, reusable (TrimSpace comp) rest.isEmpty s x = false) →
      reusable (TrimSpace comp) rest.isEmpty s c = true →
      (addComponents m s (comp :: rest) n).children =
        pre ++ addComponents m s rest c :: post) ∧
    ((∀ x ∈ n.children, reusable (TrimSpace comp) rest.isEmpty s x = false) →
      (addComponents m s (comp :: rest) n).children =
        n.children ++ [addComponents m s rest (emptyNode (TrimSpace comp))]) ∧
    (addComponents m s (comp :: rest) n).urlComponent = n.urlComponent ∧
    (addComponents m s (comp :: rest) n).methods = n.methods ∧
    (addComponents m s (comp :: rest) n).scope = n.scope := by
  refine ⟨?_, ?_, ?_, rfl, rfl, rfl⟩
  · intro c
    simp only [reusable, Bool.and_eq_true, Bool.or_eq_true, beq_iff_eq, bne_iff_ne, ne_eq,
      List.isEmpty_iff]
    constructor
    · rintro ⟨h1 | h1, h2⟩
      · exact ⟨Or.inl h1, h2⟩
      · exact ⟨Or.inr h1.2, h2⟩
    · rintro ⟨h1 | h1, h2⟩
      · exact ⟨Or.inl h1, h2⟩
      · exact ⟨Or.inr ⟨by rw [h1]; simp, h1⟩, h2⟩
  · intro pre c post hcs hpre hc
    rw [addComponents_cons, children_mk, hcs]
    clear hcs
    induction pre with
    | nil =>
      rw [List.nil_append, descend, if_pos hc]
      rfl
    | cons x pre ih =>
      rw [List.cons_append, descend,
        if_neg (by rw [hpre x (List.mem_cons_self _ _)]; simp),
        ih (fun y hy => hpre y (List.mem_cons_of_mem _ hy))]
      rfl
  · intro hall
    rw [addComponents_cons, children_mk]
    generalize n.children = cs at hall
    induction cs with
    | nil => rfl
    | cons x cs ih =>
      rw [descend, if_neg (by rw [hall x (List.mem_cons_self _ _)]; simp),
        ih (fun y hy => hall y (List.mem_cons_of_mem _ hy))]
      rfl

/-- Claim C24, amended, at a concrete input: the child `a` with scope 1 is not reusable for
the non-final segment `a` of `/a/b`, and a new child is appended. -/
theorem child_reuse_rule_witness :
    (addComponents "GET".toList 2 ("a".toList :: ["b".toList])
      (addRoutes NewScopeRouteTree [("GET".toList, "/a".toList, 1)]).root).children =
      (addRoutes NewScopeRouteTree [("GET".toList, "/a".toList, 1)]).root.children ++
        [addComponents "GET".toList 2 ["b".toList] (emptyNode (TrimSpace "a".toList))] :=
  (child_reuse_rule "GET".toList 2 "a".toList ["b".toList]
    (addRoutes NewScopeRouteTree [("GET".toList, "/a".toList, 1)]).root).2.2.1 (by decide)

/-! ## Lemmas on the scopes in a tree -/

theorem scopesIn_mk (u : Option GoString) (cs : List node) (x : Nat) (s : Option Int) :
    (node.mk u cs x s).scopesIn = s.toList ++ node.scopesInList cs := by
  rw [node.scopesIn]

theorem scopesIn_eq (n : node) : n.scopesIn = n.scope.toList ++ node.scopesInList n.children := by
  cases n with
  | mk u cs x s => exact scopesIn_mk u cs x s

theorem scopesInList_nil : node.scopesInList [] = [] := by
  rw [node.scopesInList]

theorem scopesInList_cons (c : node) (cs : List node) :
    node.scopesInList (c :: cs) = c.scopesIn ++ node.scopesInList cs := by
  rw [node.scopesInList]

theorem scopesInList_append (xs ys : List node) :
    node.scopesInList (xs ++ ys) = node.scopesInList xs ++ node.scopesInList ys := by
  induction xs with
  | nil => rw [List.nil_append, scopesInList_nil, List.nil_append]
  | cons x xs ih => rw [List.cons_append, scopesInList_cons, scopesInList_cons, ih,
      List.append_assoc]

theorem scope_mem_scopesIn (n : node) (s : Int) (h : n.scope = some s) : s ∈ n.scopesIn := by
  rw [scopesIn_eq, h]
  simp

theorem scopesIn_emptyNode (comp : GoString) : (emptyNode comp).scopesIn = [] := by
  unfold emptyNode
  rw [scopesIn_mk, scopesInList_nil]
  rfl

theorem descend_scopes (comp : GoString) (fin : Bool) (s : Int) (walk : node → node)
    (hwalk : ∀ c : node, s ∉ c.scopesIn → c.scope = none →
      List.Perm (walk c).scopesIn (s :: c.scopesIn)) :
    ∀ cs : List node, s ∉ node.scopesInList cs →
      List.Perm (node.scopesInList (descend comp fin s walk cs))
        (s :: node.scopesInList cs) := by
  intro cs
  induction cs with
  | nil =>
    intro _
    rw [descend, scopesInList_cons, scopesInList_nil, List.append_nil]
    have := hwalk (emptyNode comp) (by rw [scopesIn_emptyNode]; simp) rfl
    rw [scopesIn_emptyNode] at this
    exact this
  | cons c rest ih =>
    intro hs
    rw [scopesInList_cons, List.mem_append, not_or] at hs
    rw [descend]
    by_cases hr : reusable comp fin s c = true
    · rw [if_pos hr, scopesInList_cons, scopesInList_cons]
      have hnone : c.scope = none := by
        rcases reusable_scope _ _ _ _ hr with h | h
        · exact h
        · exact absurd (scope_mem_scopesIn c s h.1) hs.1
      exact (hwalk c hs.1 hnone).append_right _
    · rw [if_neg hr, scopesInList_cons, scopesInList_cons]
      have h1 := (ih hs.2).append_left c.scopesIn
      exact h1.trans List.perm_middle

theorem addComponents_scopes (m : GoString) (s : Int) (comps : List GoString) :
    ∀ n : node, s ∉ n.scopesIn → n.scope = none →
      List.Perm (addComponents m s comps n).scopesIn (s :: n.scopesIn) := by
  induction comps with
  | nil =>
    intro n _ hnone
    rw [addComponents_nil, scopesIn_mk, scopesIn_eq n, hnone]
    rfl
  | cons comp rest ih =>
    intro n hs hnone
    rw [addComponents_cons, scopesIn_mk, scopesIn_eq n, hnone]
    rw [scopesIn_eq n, hnone] at hs
    exact descend_scopes (TrimSpace comp) rest.isEmpty s (addComponents m s rest) ih
      n.children hs

theorem addRoute_root_scope (t : ScopeRouteTree) (m uri : GoString) (s : Int) :
    (t.AddRoute m uri s).root.scope = t.root.scope := by
  unfold ScopeRouteTree.AddRoute
  cases h : components uri with
  | nil => exact absurd h (components_ne_nil uri)
  | cons c rest => rfl

theorem addRoutes_scopes_nodup (calls : List (GoString × GoString × Int)) :
    ∀ t : ScopeRouteTree, t.root.scope = none → t.root.scopesIn.Nodup →
      (calls.map (fun c => c.2.2)).Nodup → (∀ c ∈ calls, c.2.2 ∉ t.root.scopesIn) →
      (addRoutes t calls).root.scopesIn.Nodup := by
  induction calls with
  | nil => intro t _ h _ _; exact h
  | cons c rest ih =>
    intro t hroot hnd hcalls hfresh
    rw [addRoutes_cons]
    rw [List.map_cons, List.nodup_cons] at hcalls
    have hperm : List.Perm (t.AddRoute c.1 c.2.1 c.2.2).root.scopesIn
        (c.2.2 :: t.root.scopesIn) :=
      addComponents_scopes c.1 c.2.2 (components c.2.1) t.root
        (hfresh c (List.mem_cons_self _ _)) hroot
    refine ih _ ?_ ?_ hcalls.2 ?_
    · rw [addRoute_root_scope]
      exact hroot
    · rw [hperm.nodup_iff, List.nodup_cons]
      exact ⟨hfresh c (List.mem_cons_self _ _), hnd⟩
    · intro x hx hmem
      rw [hperm.mem_iff, List.mem_cons] at hmem
      rcases hmem with h | h
      · apply hcalls.1
        rw [← h]
        exact List.mem_map_of_mem (fun c => c.2.2) hx
      · exact hfresh x (List.mem_cons_of_mem _ hx) h

/-! ## Lemmas: each node contributes its scope at most once to a match -/

theorem collect_eq (m : GoString) (cands : List node) :
    ∀ acc : List Int, collect m cands acc =
      acc ++ cands.filterMap (fun c => if c.hasMethod m = true then c.scope else none) := by
  induction cands with
  | nil => intro acc; simp [collect]
  | cons c rest ih =>
    intro acc
    unfold collect
    cases hsc : c.scope with
    | none =>
      have : (c.hasMethod m && none != (none : Option Int)) = false := by simp
      simp only [this, Bool.false_eq_true, if_false, ih]
      simp [hsc]
    | some s =>
      by_cases hm : c.hasMethod m = true
      · rw [if_pos (by simp [hm])]
        simp only
        rw [ih, List.filterMap_cons]
        simp [hm, hsc]
      · rw [if_neg (by simp [hm]), ih, List.filterMap_cons]
        simp [hm]

theorem own_le_scopesInList (m : GoString) (cands : List node) :
    ((cands.filterMap (fun c => if c.hasMethod m = true then c.scope else none) : List Int) :
      Multiset Int) ≤ (node.scopesInList cands : List Int) := by
  induction cands with
  | nil => simp
  | cons c rest ih =>
    rw [scopesInList_cons, scopesIn_eq, List.filterMap_cons]
    rw [← Multiset.coe_add, ← Multiset.coe_add]
    by_cases hm : c.hasMethod m = true
    · cases hsc : c.scope with
      | none =>
        simp only [hm, if_true, hsc, Option.toList]
        exact ih.trans (Multiset.le_add_left _ _)
      | some s =>
        simp only [hm, if_true, hsc, Option.toList]
        rw [← List.singleton_append, ← Multiset.coe_add, add_assoc]
        exact add_le_add_left (ih.trans (Multiset.le_add_left _ _)) _
    · simp only [hm, Bool.false_eq_true, if_false]
      exact ih.trans (Multiset.le_add_left _ _)

theorem children_le_scopesInList (m comp : GoString) (cs : List node)
    (hsafe : ∀ c ∈ cs, Safe c) :
    ((hits m cs ++ node.scopesInList (conts m comp cs) : List Int) : Multiset Int) ≤
      (node.scopesInList cs : List Int) := by
  induction cs with
  | nil => simp [hits, conts, scopesInList_nil]
  | cons c rest ih =>
    have ih1 := ih (fun x hx => hsafe x (List.mem_cons_of_mem _ hx))
    rw [← Multiset.coe_add] at ih1
    rw [scopesInList_cons, ← Multiset.coe_add, ← Multiset.coe_add]
    by_cases hhit : (c.urlComponent == none && c.hasMethod m) = true
    · have hm : c.hasMethod m = true := by
        simp only [Bool.and_eq_true] at hhit
        exact hhit.2
      obtain ⟨s, hs⟩ := Option.ne_none_iff_exists'.1
        (safe_hasMethod m c (hsafe c (List.mem_cons_self _ _)) hm)
      rw [hits_cons_hit m c rest s hhit hs, conts_cons_skip m comp c rest (Or.inl hhit),
        scopesIn_eq c, hs]
      simp only [Option.toList]
      rw [← List.singleton_append, ← Multiset.coe_add, ← Multiset.coe_add, add_assoc,
        add_assoc]
      refine add_le_add_left ?_ _
      exact ih1.trans (Multiset.le_add_left _ _)
    · rw [hits_cons_skip m c rest hhit]
      by_cases hk : (c.urlComponent == none || c.urlComponent == some comp) = true
      · rw [conts_cons_keep m comp c rest hhit hk, scopesInList_cons, ← Multiset.coe_add,
          ← add_assoc, add_comm (↑(hits m rest)) (↑c.scopesIn : Multiset Int), add_assoc]
        exact add_le_add_left ih1 _
      · rw [conts_cons_skip m comp c rest (Or.inr hk)]
        exact ih1.trans (Multiset.le_add_left _ _)

theorem candidates_le_scopesInList (m comp : GoString) (cands : List node)
    (hsafe : ∀ n ∈ cands, Safe n) :
    ((cands.flatMap (fun n => hits m n.children) ++
        node.scopesInList (cands.flatMap (fun n => conts m comp n.children)) : List Int) :
      Multiset Int) ≤ (node.scopesInList cands : List Int) := by
  induction cands with
  | nil => simp [scopesInList_nil]
  | cons n rest ih =>
    have ih1 := ih (fun x hx => hsafe x (List.mem_cons_of_mem _ hx))
    have hn := children_le_scopesInList m comp n.children
      (((safe_iff n).1 (hsafe n (List.mem_cons_self _ _))).2)
    rw [← Multiset.coe_add] at ih1 hn
    rw [List.flatMap_cons, List.flatMap_cons, scopesInList_append, scopesInList_cons,
      scopesIn_eq n]
    simp only [← Multiset.coe_add]
    rw [add_add_add_comm, add_assoc (↑n.scope.toList : Multiset Int)]
    exact (add_le_add hn ih1).trans (Multiset.le_add_left _ _)

theorem matchComponents_le_scopesInList (m : GoString) (comps : List GoString) :
    ∀ (acc : List Int) (cands : List node), (∀ n ∈ cands, Safe n) →
      ∃ extra : List Int, matchComponents m comps acc cands = some (acc ++ extra) ∧
        (extra : Multiset Int) ≤ (node.scopesInList cands : List Int) := by
  induction comps with
  | nil =>
    intro acc cands _
    exact ⟨_, by rw [matchComponents, collect_eq], own_le_scopesInList m cands⟩
  | cons comp rest ih =>
    intro acc cands hsafe
    have hnext : ∀ c ∈ [] ++ cands.flatMap (fun n => conts m comp n.children), Safe c := by
      intro c hc
      rw [List.nil_append, List.mem_flatMap] at hc
      obtain ⟨n, hn, hcn⟩ := hc
      exact ((safe_iff n).1 (hsafe n hn)).2 c ((mem_conts m comp n.children c).1 hcn).1
    obtain ⟨extra, he, hle⟩ := ih (acc ++ cands.flatMap (fun n => hits m n.children))
      ([] ++ cands.flatMap (fun n => conts m comp n.children)) hnext
    refine ⟨cands.flatMap (fun n => hits m n.children) ++ extra, ?_, ?_⟩
    · rw [matchComponents, scanCandidates_eq m comp cands (acc, []) hsafe]
      simp only
      rw [he, List.append_assoc]
    · rw [List.nil_append] at hle
      rw [← Multiset.coe_add]
      refine le_trans ?_ (candidates_le_scopesInList m comp cands hsafe)
      rw [← Multiset.coe_add]
      exact add_le_add_left hle _

theorem newTree_scopesIn : NewScopeRouteTree.root.scopesIn = [] := by
  unfold NewScopeRouteTree newNode
  rw [scopesIn_mk, scopesInList_nil]
  rfl

/-! ## Claim C30 -/

/-- Claim C30.  If a tree is built from the empty tree by `AddRoute` calls that use pairwise
different scope indices, then for every method and URL `GetMatchingScopes` returns a list (it
does not panic) that contains no index twice. -/
theorem no_duplicate_matches (calls : List (GoString × GoString × Int))
    (hdistinct : (calls.map (fun c => c.2.2)).Nodup) (m url : GoString) :
    ∃ l, (addRoutes NewScopeRouteTree calls).GetMatchingScopes m url = some l ∧ l.Nodup := by
  have hsafe : ∀ n ∈ [(addRoutes NewScopeRouteTree calls).root], Safe n := by
    intro n hn
    rw [List.mem_singleton] at hn
    rw [hn]
    exact safe_of_nodeInv (addRoutes_inv calls)
  obtain ⟨extra, he, hle⟩ := matchComponents_le_scopesInList m (components url) []
    [(addRoutes NewScopeRouteTree calls).root] hsafe
  refine ⟨extra, by rw [getMatchingScopes_eq, he, List.nil_append], ?_⟩
  have hnd : (addRoutes NewScopeRouteTree calls).root.scopesIn.Nodup :=
    addRoutes_scopes_nodup calls NewScopeRouteTree rfl
      (by rw [newTree_scopesIn]; exact List.nodup_nil) hdistinct
      (fun c _ => by rw [newTree_scopesIn]; exact List.not_mem_nil _)
  rw [scopesInList_cons, scopesInList_nil, List.append_nil] at hle
  exact Multiset.coe_nodup.1 (Multiset.nodup_of_le hle (Multiset.coe_nodup.2 hnd))

/-- Claim C30 at a concrete input: the routes of `TestRouteMatching` and the request
`GET /foo/bar/baz`. -/
theorem no_duplicate_matches_witness :
    ∃ l, (addRoutes NewScopeRouteTree testRoutes).GetMatchingScopes "GET".toList
      "/foo/bar/baz".toList = some l ∧ l.Nodup :=
  no_duplicate_matches testRoutes (by decide) "GET".toList "/foo/bar/baz".toList

end Arusha
